import Mathlib

/-!
Form container of `examples/focus/focus.go`

A shallow embedding of `RootContainer`: the item list with its insertion,
removal and lookup operations, the focused index, `Draw` with its position
loop, scroll offset and draw loop, `Focus` with the finish handler it installs,
and the mouse handler.

Modelling conventions.

* Go's `int` is `Int`. The quantities are screen cell coordinates and item
  sizes; the development covers runs in which no 64-bit overflow occurs.
* A `tview.FormItem` is an interface value. An item is represented by the
  results of the interface methods the container calls on it (`GetLabel`,
  `GetFieldWidth`, `GetFieldHeight`, `HasFocus`) and by whether its dynamic
  type is `*tview.TextView`.
* `tview.TaggedStringWidth` belongs to the tview library. It is a parameter
  `tsw : String → Nat` of everything that measures a label.
* The embedded `*tview.Box` and the colour and style fields of the container
  are left out: no function embedded here reads or writes them. The
  rectangle returned by `GetInnerRect` is a parameter of the position loop.
* An operation that panics in Go (slice bounds out of range) returns `none`.
* Calls into the items and the application are recorded in the result:
  `SetRect`, `Draw`, `SetFinishedFunc`, `delegate`, `f.cancel`. A finish signal
  is a call of the handler with a key.
* `delegate` gives the focus to an item, and the item either keeps it or hands
  it back at once by calling its finished function with -1, as a text view
  that is not scrollable does. `focusRun` and `handlerRun` embed `Focus` and its
  handler with that call running inside the loop of `Focus`; which items hand
  the focus back is their parameter `handsBack`. `Focus` and `handler` are the
  same functions for items that keep the focus.
* The results of the items' mouse handlers, of `InRect`, and the focus flags of
  the items when the mouse handler returns are parameters of the mouse handler.
-/

namespace Focus

/-! ## Data model -/

/-- Default field width of form elements whose field width is flexible. -/
def DefaultFormFieldWidth : Int := 10

/-- Default field height of form elements whose field height is flexible. -/
def DefaultFormFieldHeight : Int := 5

/-- Key code `tcell.KeyTab`. -/
def KeyTab : Int := 9

/-- An element of the form, seen through the `tview.FormItem` interface. -/
structure FormItem where
  GetLabel : String
  GetFieldWidth : Int
  GetFieldHeight : Int
  HasFocus : Bool
  isTextView : Bool
  deriving DecidableEq, Repr

/-- The fields of `RootContainer` that the embedded functions use. -/
structure RootContainer where
  items : List FormItem
  horizontal : Bool
  buttonsAlign : Int
  itemPadding : Int
  focusedElement : Int
  lastFinishedKey : Int
  cancel : Bool
  deriving DecidableEq, Repr

/-- The container that `NewRootContainer` returns: every field not listed in
the composite literal has its zero value. -/
def NewRootContainer : RootContainer :=
  { items := []
    horizontal := false
    buttonsAlign := 0
    itemPadding := 1
    focusedElement := 0
    lastFinishedKey := KeyTab
    cancel := false }

/-! ## Item list operations -/

/-- `SetFocus` of focus.go. -/
def SetFocus (f : RootContainer) (index : Int) : RootContainer :=
  if index < 0 then
    { f with focusedElement := 0 }
  else if index ≥ f.items.length then
    { f with focusedElement := f.items.length }
  else
    { f with focusedElement := index }

/-- `AddFormItem` of focus.go. -/
def AddFormItem (f : RootContainer) (item : FormItem) : RootContainer :=
  { f with items := f.items ++ [item] }

/-- The text view that `AddTextView` builds: `SetSize(fieldHeight, fieldWidth)`
stores the two sizes, and a new text view does not have focus. The text and the
two flags do not reach any method the container calls. -/
def newTextView (label : String) (fieldWidth fieldHeight : Int) : FormItem :=
  { GetLabel := label
    GetFieldWidth := fieldWidth
    GetFieldHeight := fieldHeight
    HasFocus := false
    isTextView := true }

/-- `AddTextView` of focus.go. -/
def AddTextView (f : RootContainer) (label _text : String) (fieldWidth fieldHeight : Int)
    (_dynamicColors _scrollable : Bool) : RootContainer :=
  let fieldHeight := if fieldHeight = 0 then DefaultFormFieldHeight else fieldHeight
  { f with items := f.items ++ [newTextView label fieldWidth fieldHeight] }

/-- `GetFormItemCount` of focus.go. -/
def GetFormItemCount (f : RootContainer) : Int := f.items.length

/-- `RemoveFormItem` of focus.go:
`f.items = append(f.items[:index], f.items[index+1:]...)`. The slice
expressions panic unless `0 ≤ index` and `index + 1 ≤ len(f.items)`. -/
def RemoveFormItem (f : RootContainer) (index : Int) : Option RootContainer :=
  if 0 ≤ index ∧ index + 1 ≤ f.items.length then
    some { f with items := f.items.take index.toNat ++ f.items.drop (index.toNat + 1) }
  else
    none

/-- The loop of `GetFormItemByLabel` over the items still to visit. -/
def getFormItemByLabelLoop (label : String) : List FormItem → Option FormItem
  | [] => none
  | item :: rest =>
    if item.GetLabel = label then some item else getFormItemByLabelLoop label rest

/-- `GetFormItemByLabel` of focus.go; `none` is the nil result. -/
def GetFormItemByLabel (f : RootContainer) (label : String) : Option FormItem :=
  getFormItemByLabelLoop label f.items

/-- The loop of `GetFormItemIndex` over the items still to visit, `index` being
the index of the first of them. -/
def getFormItemIndexLoop (label : String) : List FormItem → Int → Int
  | [], _ => -1
  | item :: rest, index =>
    if item.GetLabel = label then index else getFormItemIndexLoop label rest (index + 1)

/-- `GetFormItemIndex` of focus.go. -/
def GetFormItemIndex (f : RootContainer) (label : String) : Int :=
  getFormItemIndexLoop label f.items 0

/-! ## Sequences of public operations -/

/-- A call of one of the operations that change the item list or the focused
index from outside. -/
inductive Op where
  | addFormItem (item : FormItem)
  | addTextView (label text : String) (fieldWidth fieldHeight : Int)
      (dynamicColors scrollable : Bool)
  | setFocus (index : Int)
  | removeFormItem (index : Int)

/-- Effect of one call; `none` when the call panics. -/
def applyOp (f : RootContainer) : Op → Option RootContainer
  | .addFormItem item => some (AddFormItem f item)
  | .addTextView label text fieldWidth fieldHeight dynamicColors scrollable =>
    some (AddTextView f label text fieldWidth fieldHeight dynamicColors scrollable)
  | .setFocus index => some (SetFocus f index)
  | .removeFormItem index => RemoveFormItem f index

/-- Effect of a sequence of calls, first call first. -/
def runOps (f : RootContainer) : List Op → Option RootContainer
  | [] => some f
  | op :: rest =>
    match applyOp f op with
    | none => none
    | some g => runOps g rest

/-- Number of `RemoveFormItem` calls in a sequence. -/
def removeCount : List Op → Nat
  | [] => 0
  | .removeFormItem _ :: rest => removeCount rest + 1
  | _ :: rest => removeCount rest

/-! ## The position loop of `Draw` -/

/-- The inner rectangle of the container, `x, y, width, height := f.GetInnerRect()`. -/
structure Rect where
  x : Int
  y : Int
  width : Int
  height : Int
  deriving DecidableEq, Repr

/-- The struct `position` declared inside `Draw`. -/
structure position where
  x : Int
  y : Int
  width : Int
  height : Int
  deriving DecidableEq, Repr

/-- The loop "Find the longest label" of `Draw`, with the final `maxLabelWidth++`. -/
def maxLabelWidth (tsw : String → Nat) (items : List FormItem) : Int :=
  items.foldl
    (fun maxLabelWidth item =>
      if (tsw item.GetLabel : Int) > maxLabelWidth then (tsw item.GetLabel : Int)
      else maxLabelWidth)
    0 + 1

/-- The variables of `Draw` that the position loop carries from one item to the
next. -/
structure LoopVars where
  x : Int
  y : Int
  lineHeight : Int
  focusedPosition : position
  deriving DecidableEq, Repr

/-- Values of the loop variables before the first item: `x` and `y` come from
`GetInnerRect`, `lineHeight = 1`, and `focusedPosition` is the zero struct. -/
def initVars (rect : Rect) : LoopVars :=
  { x := rect.x, y := rect.y, lineHeight := 1, focusedPosition := ⟨0, 0, 0, 0⟩ }

/-- One iteration of the loop "Calculate positions of form items" of `Draw`:
the position stored for `item` and the loop variables afterwards. -/
def loopBody (tsw : String → Nat) (f : RootContainer) (rect : Rect) (maxLabelWidth : Int)
    (v : LoopVars) (item : FormItem) : position × LoopVars :=
  let rightLimit := rect.x + rect.width
  let startX := rect.x
  -- Calculate the space needed.
  let labelWidth : Int := tsw item.GetLabel
  let fieldWidth := if item.GetFieldWidth ≤ 0 then DefaultFormFieldWidth else item.GetFieldWidth
  let labelWidth := if f.horizontal then labelWidth + 1 else maxLabelWidth
  let itemWidth := if f.horizontal then labelWidth + fieldWidth else rect.width
  let itemHeight :=
    if item.GetFieldHeight ≤ 0 then DefaultFormFieldHeight else item.GetFieldHeight
  -- Advance to next line if there is no space.
  let wrap : Bool := f.horizontal && decide (v.x + labelWidth + 1 ≥ rightLimit)
  let x := if wrap then startX else v.x
  let y := if wrap then v.y + v.lineHeight + 1 else v.y
  let lineHeight := if wrap then itemHeight else v.lineHeight
  -- Update line height.
  let lineHeight := if itemHeight > lineHeight then itemHeight else lineHeight
  -- Adjust the item's attributes.
  let itemWidth := if x + itemWidth ≥ rightLimit then rightLimit - x else itemWidth
  -- Save position.
  let pos : position := { x := x, y := y, width := itemWidth, height := itemHeight }
  let focusedPosition := if item.HasFocus then pos else v.focusedPosition
  -- Advance to next item.
  let x := if f.horizontal then x + itemWidth + f.itemPadding else x
  let y := if f.horizontal then y else y + itemHeight + f.itemPadding
  (pos, { x := x, y := y, lineHeight := lineHeight, focusedPosition := focusedPosition })

/-- The loop "Calculate positions of form items" of `Draw` over the items still
to visit: the positions stored for them, in order, and the loop variables at
the end. -/
def positionLoop (tsw : String → Nat) (f : RootContainer) (rect : Rect) (maxLabelWidth : Int) :
    LoopVars → List FormItem → List position × LoopVars
  | v, [] => ([], v)
  | v, item :: rest =>
    let r := loopBody tsw f rect maxLabelWidth v item
    let s := positionLoop tsw f rect maxLabelWidth r.2 rest
    (r.1 :: s.1, s.2)

/-- The slice `positions` of `Draw` when the position loop has finished. -/
def positions (tsw : String → Nat) (f : RootContainer) (rect : Rect) : List position :=
  (positionLoop tsw f rect (maxLabelWidth tsw f.items) (initVars rect) f.items).1

/-- The loop variables of `Draw` when the position loop reaches the item of
index `k`, that is after its first `k` iterations. -/
def varsBefore (tsw : String → Nat) (f : RootContainer) (rect : Rect) (k : Nat) : LoopVars :=
  (positionLoop tsw f rect (maxLabelWidth tsw f.items) (initVars rect) (f.items.take k)).2

/-- The height `Draw` gives an item: its field height, or the default when it
declares none. -/
def itemHeightOf (item : FormItem) : Int :=
  if item.GetFieldHeight ≤ 0 then DefaultFormFieldHeight else item.GetFieldHeight

/-- The width `Draw` computes for an item in the horizontal layout before
clipping: label width plus one, plus the field width or its default. -/
def itemWidthOf (tsw : String → Nat) (item : FormItem) : Int :=
  ((tsw item.GetLabel : Int) + 1) +
    (if item.GetFieldWidth ≤ 0 then DefaultFormFieldWidth else item.GetFieldWidth)

/-- The test of `Draw` that moves an item to the next line, at current
horizontal position `x`. -/
def wrapsAt (tsw : String → Nat) (f : RootContainer) (rect : Rect) (x : Int)
    (item : FormItem) : Bool :=
  f.horizontal && decide (x + ((tsw item.GetLabel : Int) + 1) + 1 ≥ rect.x + rect.width)

/-- An input field labelled "Name": one row high, flexible field width. -/
def nameItem : FormItem :=
  { GetLabel := "Name", GetFieldWidth := 0, GetFieldHeight := 1, HasFocus := false,
    isTextView := false }

/-- The form of the vertical scenario: the input field "Name" followed by a
text view "Notes" of default height, added through the public operations. -/
def verticalForm : RootContainer :=
  AddTextView (AddFormItem NewRootContainer nameItem) "Notes" "" 0 0 false false

/-- An item labelled "Item" with flexible field width and one row of height. -/
def labelItem : FormItem :=
  { GetLabel := "Item", GetFieldWidth := 0, GetFieldHeight := 1, HasFocus := false,
    isTextView := false }

/-- A container in horizontal orientation with the given padding and items. -/
def horizontalForm (itemPadding : Int) (items : List FormItem) : RootContainer :=
  { NewRootContainer with horizontal := true, itemPadding := itemPadding, items := items }

/-- An item whose label is 12 cells wide, with a field 2 cells wide: in the
horizontal layout it needs width 15. -/
def wideLabelItem : FormItem :=
  { GetLabel := "Phone number", GetFieldWidth := 2, GetFieldHeight := 1, HasFocus := false,
    isTextView := false }

/-! ## The scroll offset and the draw loop of `Draw` -/

/-- The block "Determine vertical offset based on the position of the focused
item" of `Draw`. -/
def scrollOffset (focusedPosition : position) (topLimit bottomLimit : Int) : Int :=
  if focusedPosition.y + focusedPosition.height > bottomLimit then
    let offset := focusedPosition.y + focusedPosition.height - bottomLimit
    if focusedPosition.y - offset < topLimit then focusedPosition.y - topLimit else offset
  else
    0

/-- The loop of `focusIndex` over the items still to visit, `index` being the
index of the first of them. -/
def focusIndexLoop : List FormItem → Int → Int
  | [], _ => -1
  | item :: rest, index => if item.HasFocus then index else focusIndexLoop rest (index + 1)

/-- `focusIndex` of focus.go. -/
def focusIndex (f : RootContainer) : Int :=
  focusIndexLoop f.items 0

/-- What the loop "Draw items" of `Draw` does: the rectangles passed to
`SetRect`, one per item in list order; the indices of the items whose `Draw`
runs inside the loop, in that order; and the indices of the items whose `Draw`
is deferred, in the order in which the deferred calls run when `Draw` returns
(the call deferred last runs first). -/
structure DrawLoopResult where
  rects : List position
  drawn : List Nat
  deferred : List Nat
  deriving DecidableEq, Repr

/-- The loop "Draw items" of `Draw` over the items still to visit, `index` being
the index of the first of them and `positions` the entries of the slice
`positions` from that index on. -/
def drawLoop (offset topLimit bottomLimit : Int) :
    Nat → List FormItem → List position → DrawLoopResult
  | _, [], _ => { rects := [], drawn := [], deferred := [] }
  | _, _ :: _, [] => { rects := [], drawn := [], deferred := [] }
  | index, item :: rest, pos :: positions =>
    let later := drawLoop offset topLimit bottomLimit (index + 1) rest positions
    -- Set position.
    let y := pos.y - offset
    let height := pos.height
    let assigned : position := { x := pos.x, y := y, width := pos.width, height := height }
    -- Is this item visible?
    if y + height ≤ topLimit ∨ y ≥ bottomLimit then
      { later with rects := assigned :: later.rects }
    -- Draw items with focus last (in case of overlaps).
    else if item.HasFocus then
      { later with rects := assigned :: later.rects, deferred := later.deferred ++ [index] }
    else
      { later with rects := assigned :: later.rects, drawn := index :: later.drawn }

/-- What a call of `Draw` does: the container afterwards, the vertical offset,
the rectangle passed to `SetRect` for every item, and the indices of the items
whose `Draw` is called, in the order of the calls. -/
structure DrawResult where
  form : RootContainer
  offset : Int
  rects : List position
  drawn : List Nat
  deriving DecidableEq, Repr

/-- `Draw` of focus.go, for the inner rectangle `rect`. -/
def Draw (tsw : String → Nat) (f : RootContainer) (rect : Rect) : DrawResult :=
  -- Determine the actual item that has focus.
  let index := focusIndex f
  let form := if index ≥ 0 then { f with focusedElement := index } else f
  -- Determine the dimensions.
  let topLimit := rect.y
  let bottomLimit := rect.y + rect.height
  -- Calculate positions of form items.
  let loop := positionLoop tsw f rect (maxLabelWidth tsw f.items) (initVars rect) f.items
  -- Determine vertical offset based on the position of the focused item.
  let offset := scrollOffset loop.2.focusedPosition topLimit bottomLimit
  -- Draw items.
  let r := drawLoop offset topLimit bottomLimit 0 f.items loop.1
  { form := form, offset := offset, rects := r.rects, drawn := r.drawn ++ r.deferred }

/-- The form "Name", "Notes" in which the text view "Notes" has the focus. -/
def focusedNotesForm : RootContainer :=
  { NewRootContainer with
    items := [nameItem, { newTextView "Notes" 0 5 with HasFocus := true }] }

/-! ## Focus and the finish handler -/

/-- Key code `tcell.KeyEnter`. -/
def KeyEnter : Int := 13

/-- Key code `tcell.KeyEscape`. -/
def KeyEscape : Int := 27

/-- Key code `tcell.KeyBacktab`. -/
def KeyBacktab : Int := 278

/-- `SetCancelFunc` of focus.go; the argument says whether the callback is
non-nil. -/
def SetCancelFunc (f : RootContainer) (callback : Bool) : RootContainer :=
  { f with cancel := callback }

/-- What a call of `Focus`, or of the finish handler it installs, does: the
container afterwards; the indices of the items that received the handler
through `SetFinishedFunc`, in order; the indices of the items passed to
`delegate`, in order; whether `f.Box.Focus(delegate)` ran, that is whether the
container itself took the focus; and the number of calls of `f.cancel`. -/
structure FocusResult where
  form : RootContainer
  registered : List Nat
  delegated : List Nat
  boxFocused : Bool
  cancelCalls : Nat
  deriving DecidableEq, Repr

/-- The loop "Set the handler and focus for all items and buttons" of `Focus`
over the items still to visit, `index` being the index of the first of them,
when the item delegated to keeps the focus, so that the focused index is the
same at every iteration: the indices given the handler and the indices
delegated to. `focusLoopRun` is the loop without that condition. -/
def focusLoop (focusedElement : Int) : Nat → List FormItem → List Nat × List Nat
  | _, [] => ([], [])
  | index, _ :: rest =>
    let later := focusLoop focusedElement (index + 1) rest
    (index :: later.1, if focusedElement = index then index :: later.2 else later.2)

/-- `Focus` of focus.go when the item it delegates to keeps the focus it is
given. `focusRun` is `Focus` without that condition, and `focusRun_eq_Focus`
shows that the two agree under it. -/
def Focus (f : RootContainer) : FocusResult :=
  -- Hand on the focus to one of our child elements.
  let f :=
    if f.focusedElement < 0 ∨ f.focusedElement ≥ f.items.length then
      { f with focusedElement := 0 }
    else f
  -- Set the handler and focus for all items and buttons.
  let loop := focusLoop f.focusedElement 0 f.items
  let itemFocused := !loop.2.isEmpty
  -- If no item was focused, focus the form itself.
  { form := f, registered := loop.1, delegated := loop.2, boxFocused := !itemFocused,
    cancelCalls := 0 }

/-- A handler call that changes nothing but what is already in `f`. -/
def noFocusChange (f : RootContainer) : FocusResult :=
  { form := f, registered := [], delegated := [], boxFocused := false, cancelCalls := 0 }

/-- The closure `handler` that `Focus` installs as finished function, called
with `key` in state `f`, when every item keeps the focus it is given. The first
argument bounds the depth of the calls of `handler` by itself; the result is
`none` when the bound is reached. `handlerRun` is the handler without that
condition, and `handlerRun_eq_handler` shows that the two agree under it. -/
def handler : Nat → RootContainer → Int → Option FocusResult
  | 0, _, _ => none
  | fuel + 1, f, key =>
    let f := if key ≥ 0 then { f with lastFinishedKey := key } else f
    if key = KeyTab ∨ key = KeyEnter then
      some (Focus { f with focusedElement := f.focusedElement + 1 })
    else if key = KeyBacktab then
      let f := { f with focusedElement := f.focusedElement - 1 }
      let f :=
        if f.focusedElement < 0 then { f with focusedElement := (f.items.length : Int) - 1 }
        else f
      some (Focus f)
    else if key = KeyEscape then
      if f.cancel then
        some { noFocusChange f with cancelCalls := 1 }
      else
        some (Focus { f with focusedElement := 0 })
    else if key < 0 ∧ f.lastFinishedKey ≥ 0 then
      -- Repeat the last action.
      handler fuel f f.lastFinishedKey
    else
      some (noFocusChange f)

/-- The container after a finish signal carrying `key`, when every item keeps
the focus it is given. -/
def finishSignal (f : RootContainer) (key : Int) : RootContainer :=
  match handler 2 f key with
  | some r => r.form
  | none => f

/-! ## The mouse handler -/

/-- The mouse actions of tview. -/
inductive MouseAction where
  | MouseMove
  | MouseLeftDown
  | MouseLeftUp
  | MouseLeftClick
  | MouseLeftDoubleClick
  | MouseMiddleDown
  | MouseMiddleUp
  | MouseMiddleClick
  | MouseMiddleDoubleClick
  | MouseRightDown
  | MouseRightUp
  | MouseRightClick
  | MouseRightDoubleClick
  | MouseScrollUp
  | MouseScrollDown
  | MouseScrollLeft
  | MouseScrollRight
  deriving DecidableEq, Repr

/-- The loop "Determine items to pass mouse events to" of `MouseHandler` over
the items still to visit, `index` being the index of the first of them.
`itemConsumes k` is the `consumed` result of the mouse handler of the item of
index `k` for this event. The result lists the indices of the items whose
handler was called, and says whether one of them consumed the event. -/
def mouseLoop (action : MouseAction) (itemConsumes : Nat → Bool) :
    Nat → List FormItem → List Nat × Bool
  | _, [] => ([], false)
  | index, item :: rest =>
    -- Exclude TextView items from mouse-down events.
    if item.isTextView ∧ action = MouseAction.MouseLeftDown then
      mouseLoop action itemConsumes (index + 1) rest
    else if itemConsumes index then
      ([index], true)
    else
      let later := mouseLoop action itemConsumes (index + 1) rest
      (index :: later.1, later.2)

/-- What a call of the mouse handler does: the container afterwards, the result
`consumed`, the indices of the items whose mouse handler was called, and the
call of `Focus` it made, if any. -/
structure MouseResult where
  form : RootContainer
  consumed : Bool
  offered : List Nat
  focus : Option FocusResult
  deriving DecidableEq, Repr

/-- The function that `MouseHandler` of focus.go wraps, called for an event with
action `action`. `inRect` is the result of `f.InRect(event.Position())`,
`itemConsumes` gives the results of the items' mouse handlers, and `itemsAfter`
is the item list as the deferred function finds it: the same items, with the
focus flags that the item handlers and `setFocus` have left. -/
def MouseHandler (f : RootContainer) (action : MouseAction) (inRect : Bool)
    (itemConsumes : Nat → Bool) (itemsAfter : List FormItem) : MouseResult :=
  -- Determine items to pass mouse events to.
  let loop := mouseLoop action itemConsumes 0 f.items
  -- A mouse down anywhere else will return the focus to the last selected element.
  let refocus : Bool := !loop.2 && decide (action = MouseAction.MouseLeftDown) && inRect
  let form := if refocus then (Focus f).form else f
  let consumed := loop.2 || refocus
  -- At the end, update f.focusedElement and prepare current item/button.
  let index := focusIndexLoop itemsAfter 0
  let form := { form with items := itemsAfter }
  let form := if consumed ∧ index ≥ 0 then { form with focusedElement := index } else form
  { form := form, consumed := consumed, offered := loop.1,
    focus := if refocus then some (Focus f) else none }

/-- A container whose only item is a scrollable text view and whose focused
index was set to 1, the number of items, by `SetFocus`. -/
def textViewForm : RootContainer :=
  SetFocus (AddTextView NewRootContainer "Notes" "" 0 0 false true) 1

/-- A container with three items labelled "Item" and focused index `i`. -/
def threeItemForm (i : Int) : RootContainer :=
  SetFocus { NewRootContainer with items := [labelItem, labelItem, labelItem] } i

/-- A container holding an item labelled "Item" and a scrollable text view
"Notes", with focused index 1. -/
def itemAndNotesForm : RootContainer :=
  SetFocus (AddTextView (AddFormItem NewRootContainer labelItem) "Notes" "" 0 0 false true) 1

/-! ## Sequences of calls that include finish signals -/

/-- Key code `tcell.KeyUp`, a key the finish handler has no case for. -/
def KeyUp : Int := 257

/-- A call made on the container from outside: one of the list operations, a
call of `Focus`, or a finish signal carrying a key. A call that reaches `Focus`
comes with the indices of the items that hand the focus back at that time. -/
inductive Event where
  | op (o : Op)
  | focus (handsBack : Nat → Bool)
  | finish (handsBack : Nat → Bool) (key : Int)

/-! ## Focus and the finish handler, with `delegate` running

`Focus` passes the item at the focused index to `delegate` inside its loop, and
the item may answer at once by calling its finished function, which is the
handler, with the key -1: a text view that is not scrollable does so. The
handler then runs inside the loop, calls `Focus` again, and when it returns the
loop goes on with the focused index it left. This section embeds that. Which
items answer so is the parameter `handsBack`, by index; an item for which it is
`false` keeps the focus it is given. -/

/-- The loop "Set the handler and focus for all items and buttons" of `Focus`
over the items still to visit, `index` being the index of the first of them,
`itemFocused` the flag of `Focus` and `s` the container with the calls recorded
so far. `reenter` is the handler called with -1, as an item that hands the
focus back calls it from inside `delegate`. The result is `none` when such a
call does not return. -/
def focusLoopRun (reenter : FocusResult → Option FocusResult) (handsBack : Nat → Bool) :
    Nat → List FormItem → Bool → FocusResult → Option (FocusResult × Bool)
  | _, [], itemFocused, s => some (s, itemFocused)
  | index, _ :: rest, itemFocused, s =>
    -- item.SetFinishedFunc(handler)
    let s := { s with registered := s.registered ++ [index] }
    if s.form.focusedElement = (index : Int) then
      -- delegate(i)
      let s := { s with delegated := s.delegated ++ [index] }
      match (if handsBack index then reenter s else some s) with
      | none => none
      | some s => focusLoopRun reenter handsBack (index + 1) rest true s
    else
      focusLoopRun reenter handsBack (index + 1) rest itemFocused s

/-- The body of `Focus` of focus.go, run on the container of `s`, the calls it
makes being added to those recorded in `s`. -/
def focusWith (reenter : FocusResult → Option FocusResult) (handsBack : Nat → Bool)
    (s : FocusResult) : Option FocusResult :=
  -- Hand on the focus to one of our child elements.
  let f :=
    if s.form.focusedElement < 0 ∨ s.form.focusedElement ≥ s.form.items.length then
      { s.form with focusedElement := 0 }
    else s.form
  -- Set the handler and focus for all items and buttons.
  match focusLoopRun reenter handsBack 0 f.items false { s with form := f } with
  | none => none
  | some (s, itemFocused) =>
    -- If no item was focused, focus the form itself.
    some (if itemFocused then s else { s with boxFocused := true })

/-- The closure `handler` of `Focus`, called with `key` on the container of `s`.
The first argument bounds the depth to which calls of the handler are nested,
through its own call of itself and through `Focus`, `delegate` and an item that
hands the focus back; the result is `none` when the bound is reached. -/
def handlerRun (handsBack : Nat → Bool) : Nat → FocusResult → Int → Option FocusResult
  | 0, _, _ => none
  | fuel + 1, s, key =>
    let f := if key ≥ 0 then { s.form with lastFinishedKey := key } else s.form
    if key = KeyTab ∨ key = KeyEnter then
      focusWith (fun t => handlerRun handsBack fuel t (-1)) handsBack
        { s with form := { f with focusedElement := f.focusedElement + 1 } }
    else if key = KeyBacktab then
      let f := { f with focusedElement := f.focusedElement - 1 }
      let f :=
        if f.focusedElement < 0 then { f with focusedElement := (f.items.length : Int) - 1 }
        else f
      focusWith (fun t => handlerRun handsBack fuel t (-1)) handsBack { s with form := f }
    else if key = KeyEscape then
      if f.cancel then
        some { s with form := f, cancelCalls := s.cancelCalls + 1 }
      else
        focusWith (fun t => handlerRun handsBack fuel t (-1)) handsBack
          { s with form := { f with focusedElement := 0 } }
    else if key < 0 ∧ f.lastFinishedKey ≥ 0 then
      -- Repeat the last action.
      handlerRun handsBack fuel { s with form := f } f.lastFinishedKey
    else
      some { s with form := f }

/-- A call of `Focus` on the container `f` by the application, the handler calls
inside it being nested to depth `fuel` at most. -/
def focusRun (handsBack : Nat → Bool) (fuel : Nat) (f : RootContainer) : Option FocusResult :=
  focusWith (fun t => handlerRun handsBack fuel t (-1)) handsBack (noFocusChange f)

/-- A finish signal carrying `key` that reaches the container `f`: a call of the
handler, nested calls included to depth `fuel` at most. -/
def signalRun (handsBack : Nat → Bool) (fuel : Nat) (f : RootContainer) (key : Int) :
    Option FocusResult :=
  handlerRun handsBack fuel (noFocusChange f) key

/-- A text view that is not scrollable, as `AddTextView` builds it with
`scrollable = false`, followed by the input field "Name"; focused index 0. -/
def notesFirstForm : RootContainer :=
  AddFormItem (AddTextView NewRootContainer "Notes" "" 0 0 false false) nameItem

/-- The items of `notesFirstForm` that hand the focus back: the text view at
index 0. -/
def notesFirstHandsBack (k : Nat) : Bool := decide (k = 0)

/-- The input field "Name" followed by a text view "Notes" that is not
scrollable: the form `verticalForm`, whose text view at index 1 hands the focus
back. -/
def notesLastHandsBack (k : Nat) : Bool := decide (k = 1)

/-- Three items of which the middle one hands the focus back. -/
def middleHandsBack (k : Nat) : Bool := decide (k = 1)

/-- The focused index after the forward case of the handler and the reset at
the start of `Focus`, for `n` items: `c + 1`, or 0 when that is outside
`[0, n)`. -/
def forwardIndex (n : Nat) (c : Int) : Int :=
  if c + 1 < 0 ∨ c + 1 ≥ n then 0 else c + 1

/-- The focused index after the Backtab case of the handler and the reset at
the start of `Focus`, for `n` items: `c - 1`, or `n - 1` when that is negative,
or 0 when the result is outside `[0, n)`. -/
def backwardIndex (n : Nat) (c : Int) : Int :=
  if (if c - 1 < 0 then (n : Int) - 1 else c - 1) < 0 ∨
      (if c - 1 < 0 then (n : Int) - 1 else c - 1) ≥ n then 0
  else (if c - 1 < 0 then (n : Int) - 1 else c - 1)

/-- The container after one call from outside; `none` when the call panics or
does not return within handler calls nested to depth `fuel`. -/
def applyEvent (fuel : Nat) (f : RootContainer) : Event → Option RootContainer
  | .op o => applyOp f o
  | .focus handsBack => (focusRun handsBack fuel f).map (fun r => r.form)
  | .finish handsBack key => (signalRun handsBack fuel f key).map (fun r => r.form)

/-- The container after a sequence of calls from outside, first call first. -/
def runEvents (fuel : Nat) (f : RootContainer) : List Event → Option RootContainer
  | [] => some f
  | e :: rest =>
    match applyEvent fuel f e with
    | none => none
    | some g => runEvents fuel g rest

/-- The focused index after the reset at the start of `Focus`: 0 when the index
is outside `[0, len(items))`, the index itself otherwise. -/
def normalIndex (f : RootContainer) : Int :=
  if f.focusedElement < 0 ∨ f.focusedElement ≥ f.items.length then 0 else f.focusedElement

/-- The calls that build `notesFirstForm` and set its focused index to 1. -/
def notesFirstEvents : List Event :=
  [Event.op (Op.addTextView "Notes" "" 0 0 false false), Event.op (Op.addFormItem nameItem),
    Event.op (Op.setFocus 1)]

/-- The calls that add the input field "Name" and send a finish signal carrying
`key` while the field keeps the focus. -/
def nameEvents (key : Int) : List Event :=
  [Event.op (Op.addFormItem nameItem), Event.finish (fun _ => false) key]

/-! ## Item list operations: theorems -/

theorem SetFocus_items (f : RootContainer) (index : Int) :
    (SetFocus f index).items = f.items := by
  unfold SetFocus
  split_ifs <;> rfl

theorem SetFocus_focusedElement_bounds (f : RootContainer) (index : Int) :
    0 ≤ (SetFocus f index).focusedElement ∧
      (SetFocus f index).focusedElement ≤ f.items.length := by
  unfold SetFocus
  split_ifs <;> dsimp only <;> omega

theorem RemoveFormItem_eq_some (f g : RootContainer) (index : Int)
    (h : RemoveFormItem f index = some g) :
    0 ≤ index ∧ index + 1 ≤ f.items.length ∧
      g = { f with items := f.items.take index.toNat ++ f.items.drop (index.toNat + 1) } := by
  unfold RemoveFormItem at h
  split_ifs at h with hc
  · exact ⟨hc.1, hc.2, (Option.some.inj h).symm⟩

theorem RemoveFormItem_length (f g : RootContainer) (index : Int)
    (h : RemoveFormItem f index = some g) :
    g.focusedElement = f.focusedElement ∧ g.items.length + 1 = f.items.length := by
  obtain ⟨h0, h1, rfl⟩ := RemoveFormItem_eq_some f g index h
  refine ⟨rfl, ?_⟩
  simp only [List.length_append, List.length_take, List.length_drop]
  omega

theorem applyOp_focus_bound (f g : RootContainer) (op : Op) (c : Nat)
    (h0 : 0 ≤ f.focusedElement) (h1 : f.focusedElement ≤ (f.items.length : Int) + c)
    (h : applyOp f op = some g) :
    0 ≤ g.focusedElement ∧
      g.focusedElement ≤ (g.items.length : Int) + (c + removeCount [op] : Nat) := by
  cases op with
  | addFormItem item =>
    simp only [applyOp, Option.some.injEq] at h
    subst h
    simp [AddFormItem, removeCount]
    omega
  | addTextView label text fieldWidth fieldHeight dynamicColors scrollable =>
    simp only [applyOp, Option.some.injEq] at h
    subst h
    simp [AddTextView, removeCount]
    omega
  | setFocus index =>
    simp only [applyOp, Option.some.injEq] at h
    subst h
    have hb := SetFocus_focusedElement_bounds f index
    rw [SetFocus_items]
    simp only [removeCount]
    omega
  | removeFormItem index =>
    simp only [applyOp] at h
    have hl := RemoveFormItem_length f g index h
    simp only [removeCount]
    omega

theorem runOps_focus_bound (ops : List Op) :
    ∀ (f g : RootContainer) (c : Nat), 0 ≤ f.focusedElement →
      f.focusedElement ≤ (f.items.length : Int) + c → runOps f ops = some g →
      0 ≤ g.focusedElement ∧
        g.focusedElement ≤ (g.items.length : Int) + (c + removeCount ops : Nat) := by
  induction ops with
  | nil =>
    intro f g c h0 h1 h
    simp only [runOps, Option.some.injEq] at h
    subst h
    simpa [removeCount] using And.intro h0 h1
  | cons op rest ih =>
    intro f g c h0 h1 h
    simp only [runOps] at h
    cases hop : applyOp f op with
    | none => simp [hop] at h
    | some m =>
      simp only [hop] at h
      have hm := applyOp_focus_bound f m op c h0 h1 hop
      have hg := ih m g (c + removeCount [op]) hm.1 hm.2 h
      have hc : removeCount (op :: rest) = removeCount [op] + removeCount rest := by
        cases op <;> simp [removeCount]
        omega
      rw [hc]
      refine ⟨hg.1, ?_⟩
      have := hg.2
      push_cast at this ⊢
      omega

/-- C1 (amended): in every state reached from `NewRootContainer` by calls of
`AddFormItem`, `AddTextView`, `SetFocus` and in-range `RemoveFormItem`, the
focused index satisfies `0 ≤ focusedElement ≤ len(items) + r`, where `r` is
the number of `RemoveFormItem` calls made; a further `RemoveFormItem` shortens
the list by one and leaves `focusedElement` as it was. -/
theorem focus_bound_reachable (ops : List Op) (f : RootContainer)
    (h : runOps NewRootContainer ops = some f) :
    0 ≤ f.focusedElement ∧
      f.focusedElement ≤ (f.items.length : Int) + (removeCount ops : Nat) ∧
      ∀ (index : Int) (g : RootContainer), RemoveFormItem f index = some g →
        g.focusedElement = f.focusedElement ∧ g.items.length + 1 = f.items.length := by
  have hb := runOps_focus_bound ops NewRootContainer f 0 (by decide) (by decide) h
  refine ⟨hb.1, ?_, fun index g hg => RemoveFormItem_length f g index hg⟩
  simpa using hb.2

/-- Witness of `focus_bound_reachable`: one item added, focus set past it, and
the item removed again. -/
theorem focus_bound_reachable_witness :
    ∃ f, runOps NewRootContainer [.addFormItem nameItem, .setFocus 1, .removeFormItem 0] = some f ∧
      0 ≤ f.focusedElement ∧ f.focusedElement ≤ (f.items.length : Int) + (1 : Nat) :=
  ⟨_, rfl,
    (focus_bound_reachable [.addFormItem nameItem, .setFocus 1, .removeFormItem 0] _ rfl).1,
    (focus_bound_reachable [.addFormItem nameItem, .setFocus 1, .removeFormItem 0] _ rfl).2.1⟩

/-- C1 fails as stated: after adding one item, `SetFocus(1)` and
`RemoveFormItem(0)`, the item list is empty and the focused index is still 1. -/
theorem focus_clamp_counterexample :
    ∃ f, runOps NewRootContainer [.addFormItem nameItem, .setFocus 1, .removeFormItem 0] = some f ∧
      f.items.length = 0 ∧ f.focusedElement = 1 ∧
      ¬ (0 ≤ f.focusedElement ∧ f.focusedElement ≤ (f.items.length : Int)) :=
  ⟨_, rfl, rfl, rfl, by decide⟩

/-- C2: for an index `i` inside the item list, `RemoveFormItem(i)` succeeds and
leaves the items before `i` followed by the items after `i`: the list is one
shorter, an item before `i` keeps its index and an item after `i` moves down by
exactly one; no other field changes. -/
theorem RemoveFormItem_order (f : RootContainer) (i : Nat) (h : i < f.items.length) :
    ∃ g, RemoveFormItem f i = some g ∧
      g = { f with items := g.items } ∧
      g.items = f.items.take i ++ f.items.drop (i + 1) ∧
      g.items.length = f.items.length - 1 ∧
      (∀ j, j < i → g.items[j]? = f.items[j]?) ∧
      (∀ j, i ≤ j → g.items[j]? = f.items[j + 1]?) := by
  have hc : (0 : Int) ≤ (i : Int) ∧ (i : Int) + 1 ≤ (f.items.length : Int) := by omega
  refine ⟨{ f with items := f.items.take i ++ f.items.drop (i + 1) }, ?_, rfl, rfl, ?_, ?_, ?_⟩
  · simp only [RemoveFormItem, hc, and_self, if_true, Int.toNat_ofNat]
  · simp only [List.length_append, List.length_take, List.length_drop]
    omega
  · intro j hj
    have hlen : j < (f.items.take i).length := by
      simp only [List.length_take]
      omega
    simp only []
    rw [List.getElem?_append_left hlen, List.getElem?_take_of_lt hj]
  · intro j hj
    have hlen : (f.items.take i).length = i := by
      simp only [List.length_take]
      omega
    simp only []
    rw [List.getElem?_append_right (by omega), hlen, List.getElem?_drop]
    congr 1
    omega

/-- Witness of `RemoveFormItem_order`: removing the first of two items. -/
theorem RemoveFormItem_order_witness :
    ∃ g, RemoveFormItem (AddTextView (AddFormItem NewRootContainer nameItem) "Notes" "" 0 0
        false false) (0 : Nat) = some g ∧
      g.items = [newTextView "Notes" 0 5] := by
  obtain ⟨g, hg, -, hitems, -⟩ :=
    RemoveFormItem_order
      (AddTextView (AddFormItem NewRootContainer nameItem) "Notes" "" 0 0 false false) 0
      (by decide)
  exact ⟨g, hg, by rw [hitems]; rfl⟩

/-- C3: `SetFocus(index)` sets the focused index to `index` clamped into
`[0, len(items)]`, that is 0 when `index < 0`, `len(items)` when
`index ≥ len(items)` and `index` otherwise, and changes no other field. -/
theorem SetFocus_clamp (f : RootContainer) (index : Int) :
    SetFocus f index = { f with focusedElement := max 0 (min index f.items.length) } ∧
      (SetFocus f index).items = f.items ∧
      (SetFocus f index).focusedElement =
        (if index < 0 then 0 else if index ≥ f.items.length then (f.items.length : Int)
          else index) ∧
      0 ≤ (SetFocus f index).focusedElement ∧
      (SetFocus f index).focusedElement ≤ f.items.length := by
  refine ⟨?_, SetFocus_items f index, ?_, (SetFocus_focusedElement_bounds f index).1,
    (SetFocus_focusedElement_bounds f index).2⟩
  · unfold SetFocus
    split_ifs with h1 h2
    · have : max 0 (min index (f.items.length : Int)) = 0 := by omega
      rw [this]
    · have : max 0 (min index (f.items.length : Int)) = f.items.length := by omega
      rw [this]
    · have : max 0 (min index (f.items.length : Int)) = index := by omega
      rw [this]
  · unfold SetFocus
    split_ifs <;> rfl

theorem formItemLoops_spec (label : String) (items : List FormItem) :
    ∀ k : Int,
      (getFormItemIndexLoop label items k = -1 ∧ getFormItemByLabelLoop label items = none ∧
          ∀ item ∈ items, item.GetLabel ≠ label) ∨
        (∃ (i : Nat) (item : FormItem), items[i]? = some item ∧ item.GetLabel = label ∧
          (∀ j, j < i → ∀ other, items[j]? = some other → other.GetLabel ≠ label) ∧
          getFormItemIndexLoop label items k = k + i ∧
          getFormItemByLabelLoop label items = some item) := by
  induction items with
  | nil =>
    intro k
    left
    simp [getFormItemIndexLoop, getFormItemByLabelLoop]
  | cons a rest ih =>
    intro k
    by_cases ha : a.GetLabel = label
    · right
      refine ⟨0, a, by simp, ha, ?_, ?_, ?_⟩
      · intro j hj
        omega
      · simp [getFormItemIndexLoop, ha]
      · simp [getFormItemByLabelLoop, ha]
    · rcases ih (k + 1) with ⟨h1, h2, h3⟩ | ⟨i, item, h1, h2, h3, h4, h5⟩
      · left
        refine ⟨by simp [getFormItemIndexLoop, ha, h1], by simp [getFormItemByLabelLoop, ha, h2],
          ?_⟩
        intro item hitem
        rcases List.mem_cons.1 hitem with rfl | hmem
        · exact ha
        · exact h3 item hmem
      · right
        refine ⟨i + 1, item, by simpa using h1, h2, ?_, ?_, ?_⟩
        · intro j hj other hother
          cases j with
          | zero =>
            simp only [List.getElem?_cons_zero, Option.some.injEq] at hother
            subst hother
            exact ha
          | succ j =>
            simp only [List.getElem?_cons_succ] at hother
            exact h3 j (by omega) other hother
        · simp only [getFormItemIndexLoop, ha, if_false, h4]
          push_cast
          omega
        · simp only [getFormItemByLabelLoop, ha, if_false, h5]

/-- C4: `GetFormItemIndex(label)` is -1 exactly when no item has that label and
`GetFormItemByLabel(label)` is nil exactly then; otherwise `GetFormItemIndex`
returns the smallest index whose item has the label, and `GetFormItemByLabel`
returns the item at that index. -/
theorem GetFormItemIndex_first_match (f : RootContainer) (label : String) :
    (GetFormItemIndex f label = -1 ↔ ∀ item ∈ f.items, item.GetLabel ≠ label) ∧
      (GetFormItemByLabel f label = none ↔ GetFormItemIndex f label = -1) ∧
      ((GetFormItemIndex f label = -1 ∧ GetFormItemByLabel f label = none) ∨
        ∃ (i : Nat) (item : FormItem), GetFormItemIndex f label = i ∧
          f.items[i]? = some item ∧ item.GetLabel = label ∧
          (∀ j, j < i → ∀ other, f.items[j]? = some other → other.GetLabel ≠ label) ∧
          GetFormItemByLabel f label = some item) := by
  unfold GetFormItemIndex GetFormItemByLabel
  rcases formItemLoops_spec label f.items 0 with ⟨h1, h2, h3⟩ | ⟨i, item, h1, h2, h3, h4, h5⟩
  · exact ⟨⟨fun _ => h3, fun _ => h1⟩, ⟨fun _ => h1, fun _ => h2⟩, Or.inl ⟨h1, h2⟩⟩
  · have hne : getFormItemIndexLoop label f.items 0 ≠ -1 := by
      rw [h4]
      omega
    refine ⟨⟨fun h => absurd h hne, fun h => ?_⟩, ⟨fun h => ?_, fun h => absurd h hne⟩, ?_⟩
    · exact absurd h2 (h item (List.getElem?_mem h1))
    · rw [h5] at h
      exact absurd h (by simp)
    · right
      exact ⟨i, item, by rw [h4]; simp, h1, h2, h3, h5⟩

/-! ## The position loop: one iteration -/

theorem itemHeightOf_pos (item : FormItem) : 1 ≤ itemHeightOf item := by
  unfold itemHeightOf DefaultFormFieldHeight
  split_ifs <;> omega

theorem itemWidthOf_pos (tsw : String → Nat) (item : FormItem) : 2 ≤ itemWidthOf tsw item := by
  unfold itemWidthOf DefaultFormFieldWidth
  split_ifs <;> omega

theorem loopBody_vertical (tsw : String → Nat) (f : RootContainer) (rect : Rect) (mlw : Int)
    (v : LoopVars) (item : FormItem) (h : f.horizontal = false) :
    loopBody tsw f rect mlw v item =
      (⟨v.x, v.y,
          if v.x + rect.width ≥ rect.x + rect.width then rect.x + rect.width - v.x
          else rect.width,
          itemHeightOf item⟩,
        ⟨v.x, v.y + itemHeightOf item + f.itemPadding,
          if itemHeightOf item > v.lineHeight then itemHeightOf item else v.lineHeight,
          if item.HasFocus then
            ⟨v.x, v.y,
              if v.x + rect.width ≥ rect.x + rect.width then rect.x + rect.width - v.x
              else rect.width,
              itemHeightOf item⟩
          else v.focusedPosition⟩) := by
  simp [loopBody, itemHeightOf, h]

theorem loopBody_horizontal (tsw : String → Nat) (f : RootContainer) (rect : Rect) (mlw : Int)
    (v : LoopVars) (item : FormItem) (h : f.horizontal = true) :
    loopBody tsw f rect mlw v item =
      (⟨if wrapsAt tsw f rect v.x item then rect.x else v.x,
          if wrapsAt tsw f rect v.x item then v.y + v.lineHeight + 1 else v.y,
          if (if wrapsAt tsw f rect v.x item then rect.x else v.x) + itemWidthOf tsw item ≥
              rect.x + rect.width then
            rect.x + rect.width - (if wrapsAt tsw f rect v.x item then rect.x else v.x)
          else itemWidthOf tsw item,
          itemHeightOf item⟩,
        ⟨(if wrapsAt tsw f rect v.x item then rect.x else v.x) +
            (if (if wrapsAt tsw f rect v.x item then rect.x else v.x) + itemWidthOf tsw item ≥
                rect.x + rect.width then
              rect.x + rect.width - (if wrapsAt tsw f rect v.x item then rect.x else v.x)
            else itemWidthOf tsw item) + f.itemPadding,
          if wrapsAt tsw f rect v.x item then v.y + v.lineHeight + 1 else v.y,
          if itemHeightOf item >
              (if wrapsAt tsw f rect v.x item then itemHeightOf item else v.lineHeight) then
            itemHeightOf item
          else (if wrapsAt tsw f rect v.x item then itemHeightOf item else v.lineHeight),
          (loopBody tsw f rect mlw v item).2.focusedPosition⟩) := by
  simp [loopBody, itemHeightOf, itemWidthOf, wrapsAt, h]

theorem wrapsAt_iff (tsw : String → Nat) (f : RootContainer) (rect : Rect) (x : Int)
    (item : FormItem) (h : f.horizontal = true) :
    wrapsAt tsw f rect x item = true ↔
      x + ((tsw item.GetLabel : Int) + 1) + 1 ≥ rect.x + rect.width := by
  simp [wrapsAt, h]

theorem loopBody_height (tsw : String → Nat) (f : RootContainer) (rect : Rect) (mlw : Int)
    (v : LoopVars) (item : FormItem) :
    (loopBody tsw f rect mlw v item).1.height = itemHeightOf item := by
  simp [loopBody, itemHeightOf]

theorem horizontal_step_wrap (tsw : String → Nat) (f : RootContainer) (rect : Rect) (mlw : Int)
    (v : LoopVars) (item : FormItem) (h : f.horizontal = true)
    (hw : wrapsAt tsw f rect v.x item = true) :
    (loopBody tsw f rect mlw v item).1.x = rect.x ∧
      (loopBody tsw f rect mlw v item).1.y = v.y + v.lineHeight + 1 ∧
      (loopBody tsw f rect mlw v item).2.lineHeight = itemHeightOf item := by
  rw [loopBody_horizontal tsw f rect mlw v item h]
  simp [hw]

theorem horizontal_step_stay (tsw : String → Nat) (f : RootContainer) (rect : Rect) (mlw : Int)
    (v : LoopVars) (item : FormItem) (h : f.horizontal = true)
    (hw : wrapsAt tsw f rect v.x item = false) :
    (loopBody tsw f rect mlw v item).1.x = v.x ∧
      (loopBody tsw f rect mlw v item).1.y = v.y ∧
      (loopBody tsw f rect mlw v item).2.lineHeight =
        (if itemHeightOf item > v.lineHeight then itemHeightOf item else v.lineHeight) ∧
      v.x + ((tsw item.GetLabel : Int) + 1) + 1 < rect.x + rect.width := by
  have hlt : v.x + ((tsw item.GetLabel : Int) + 1) + 1 < rect.x + rect.width := by
    by_contra hc
    have := (wrapsAt_iff tsw f rect v.x item h).2 (by omega)
    rw [hw] at this
    exact Bool.noConfusion this
  rw [loopBody_horizontal tsw f rect mlw v item h]
  simp [hw, hlt]

theorem horizontal_step_next (tsw : String → Nat) (f : RootContainer) (rect : Rect) (mlw : Int)
    (v : LoopVars) (item : FormItem) (h : f.horizontal = true) :
    (loopBody tsw f rect mlw v item).2.x =
        (loopBody tsw f rect mlw v item).1.x + (loopBody tsw f rect mlw v item).1.width +
          f.itemPadding ∧
      (loopBody tsw f rect mlw v item).2.y = (loopBody tsw f rect mlw v item).1.y ∧
      (loopBody tsw f rect mlw v item).1.width =
        (if (loopBody tsw f rect mlw v item).1.x + itemWidthOf tsw item ≥ rect.x + rect.width
          then rect.x + rect.width - (loopBody tsw f rect mlw v item).1.x
          else itemWidthOf tsw item) := by
  rw [loopBody_horizontal tsw f rect mlw v item h]
  simp

/-! ## The position loop: prefixes of the item list -/

theorem positionLoop_length (tsw : String → Nat) (f : RootContainer) (rect : Rect) (mlw : Int)
    (items : List FormItem) :
    ∀ v : LoopVars, (positionLoop tsw f rect mlw v items).1.length = items.length := by
  induction items with
  | nil =>
    intro v
    rfl
  | cons a rest ih =>
    intro v
    simp [positionLoop, ih]

theorem positionLoop_getElem? (tsw : String → Nat) (f : RootContainer) (rect : Rect) (mlw : Int)
    (items : List FormItem) :
    ∀ (v : LoopVars) (k : Nat) (item : FormItem), items[k]? = some item →
      (positionLoop tsw f rect mlw v items).1[k]? =
        some (loopBody tsw f rect mlw (positionLoop tsw f rect mlw v (items.take k)).2 item).1 := by
  induction items with
  | nil =>
    intro v k item hk
    simp at hk
  | cons a rest ih =>
    intro v k item hk
    cases k with
    | zero =>
      simp only [List.getElem?_cons_zero, Option.some.injEq] at hk
      subst hk
      simp [positionLoop]
    | succ k =>
      simp only [List.getElem?_cons_succ] at hk
      simp only [positionLoop, List.getElem?_cons_succ, List.take_succ_cons]
      exact ih _ k item hk

theorem positionLoop_take_succ (tsw : String → Nat) (f : RootContainer) (rect : Rect)
    (mlw : Int) (items : List FormItem) :
    ∀ (v : LoopVars) (k : Nat) (item : FormItem), items[k]? = some item →
      (positionLoop tsw f rect mlw v (items.take (k + 1))).2 =
        (loopBody tsw f rect mlw (positionLoop tsw f rect mlw v (items.take k)).2 item).2 := by
  induction items with
  | nil =>
    intro v k item hk
    simp at hk
  | cons a rest ih =>
    intro v k item hk
    cases k with
    | zero =>
      simp only [List.getElem?_cons_zero, Option.some.injEq] at hk
      subst hk
      simp [positionLoop]
    | succ k =>
      simp only [List.getElem?_cons_succ] at hk
      simp only [positionLoop, List.take_succ_cons]
      exact ih _ k item hk

theorem positions_length (tsw : String → Nat) (f : RootContainer) (rect : Rect) :
    (positions tsw f rect).length = f.items.length :=
  positionLoop_length tsw f rect _ f.items _

theorem varsBefore_zero (tsw : String → Nat) (f : RootContainer) (rect : Rect) :
    varsBefore tsw f rect 0 = initVars rect := by
  simp [varsBefore, positionLoop]

theorem varsBefore_succ (tsw : String → Nat) (f : RootContainer) (rect : Rect) (k : Nat)
    (item : FormItem) (hk : f.items[k]? = some item) :
    varsBefore tsw f rect (k + 1) =
      (loopBody tsw f rect (maxLabelWidth tsw f.items) (varsBefore tsw f rect k) item).2 :=
  positionLoop_take_succ tsw f rect _ f.items _ k item hk

theorem positions_getElem? (tsw : String → Nat) (f : RootContainer) (rect : Rect) (k : Nat)
    (item : FormItem) (hk : f.items[k]? = some item) :
    (positions tsw f rect)[k]? =
      some (loopBody tsw f rect (maxLabelWidth tsw f.items) (varsBefore tsw f rect k) item).1 :=
  positionLoop_getElem? tsw f rect _ f.items _ k item hk

theorem positions_getElem?_some (tsw : String → Nat) (f : RootContainer) (rect : Rect) (k : Nat)
    (p : position) (hp : (positions tsw f rect)[k]? = some p) :
    ∃ item, f.items[k]? = some item ∧
      p = (loopBody tsw f rect (maxLabelWidth tsw f.items) (varsBefore tsw f rect k) item).1 := by
  have hlt : k < f.items.length := by
    rw [← positions_length tsw f rect]
    exact (List.getElem?_eq_some.1 hp).1
  refine ⟨f.items[k], List.getElem?_eq_getElem hlt, ?_⟩
  have := positions_getElem? tsw f rect k f.items[k] (List.getElem?_eq_getElem hlt)
  rw [hp] at this
  exact Option.some.inj this

theorem positions_mem (tsw : String → Nat) (f : RootContainer) (rect : Rect) (p : position)
    (hp : p ∈ positions tsw f rect) :
    ∃ (k : Nat) (item : FormItem), f.items[k]? = some item ∧
      p = (loopBody tsw f rect (maxLabelWidth tsw f.items) (varsBefore tsw f rect k) item).1 := by
  obtain ⟨k, hk⟩ := List.mem_iff_getElem?.1 hp
  obtain ⟨item, hitem, hpi⟩ := positions_getElem?_some tsw f rect k p hk
  exact ⟨k, item, hitem, hpi⟩

/-! ## Vertical orientation -/

theorem varsBefore_of_length_le (tsw : String → Nat) (f : RootContainer) (rect : Rect) (k : Nat)
    (hk : f.items.length ≤ k) :
    varsBefore tsw f rect (k + 1) = varsBefore tsw f rect k := by
  unfold varsBefore
  rw [List.take_of_length_le hk, List.take_of_length_le (Nat.le_succ_of_le hk)]

theorem vertical_vars (tsw : String → Nat) (f : RootContainer) (rect : Rect)
    (h : f.horizontal = false) (k : Nat) :
    (varsBefore tsw f rect k).x = rect.x ∧
      (varsBefore tsw f rect k).y =
        rect.y + ((f.items.take k).map (fun it => itemHeightOf it + f.itemPadding)).sum := by
  induction k with
  | zero => simp [varsBefore_zero, initVars]
  | succ k ih =>
    by_cases hk : k < f.items.length
    · have hitem : f.items[k]? = some f.items[k] := List.getElem?_eq_getElem hk
      rw [varsBefore_succ tsw f rect k _ hitem, loopBody_vertical tsw f rect _ _ _ h]
      refine ⟨ih.1, ?_⟩
      simp only [List.take_succ, hitem, Option.toList, List.map_append, List.sum_append,
        List.map_cons, List.map_nil, List.sum_cons, List.sum_nil, ih.2]
      omega
    · have hle : f.items.length ≤ k := Nat.le_of_not_lt hk
      rw [varsBefore_of_length_le tsw f rect k hle, List.take_of_length_le (Nat.le_succ_of_le hle)]
      rw [List.take_of_length_le hle] at ih
      exact ih

theorem vertical_position (tsw : String → Nat) (f : RootContainer) (rect : Rect)
    (h : f.horizontal = false) (k : Nat) (item : FormItem) (hk : f.items[k]? = some item) :
    (positions tsw f rect)[k]? =
      some ⟨rect.x,
        rect.y + ((f.items.take k).map (fun it => itemHeightOf it + f.itemPadding)).sum,
        rect.width, itemHeightOf item⟩ := by
  rw [positions_getElem? tsw f rect k item hk, loopBody_vertical tsw f rect _ _ _ h]
  obtain ⟨hx, hy⟩ := vertical_vars tsw f rect h k
  simp only [hx, hy, ge_iff_le, le_refl, if_true]
  congr 3
  omega

/-- C5: in vertical orientation every item gets a rectangle, and every computed
rectangle has its `x` at the left edge of the available rectangle, which is
the first item's `x`, and the available width as its width. -/
theorem vertical_alignment (tsw : String → Nat) (f : RootContainer) (rect : Rect)
    (h : f.horizontal = false) :
    (positions tsw f rect).length = f.items.length ∧
      ∀ p ∈ positions tsw f rect, p.x = rect.x ∧ p.width = rect.width ∧
        ∀ first, (positions tsw f rect)[0]? = some first → p.x = first.x := by
  refine ⟨positions_length tsw f rect, ?_⟩
  have hall : ∀ p ∈ positions tsw f rect, p.x = rect.x ∧ p.width = rect.width := by
    intro p hp
    obtain ⟨k, hk⟩ := List.mem_iff_getElem?.1 hp
    obtain ⟨item, hitem, -⟩ := positions_getElem?_some tsw f rect k p hk
    rw [vertical_position tsw f rect h k item hitem] at hk
    have := Option.some.inj hk
    subst this
    exact ⟨rfl, rfl⟩
  intro p hp
  refine ⟨(hall p hp).1, (hall p hp).2, ?_⟩
  intro first hfirst
  rw [(hall p hp).1, (hall first (List.getElem?_mem hfirst)).1]

/-- Witness of `vertical_alignment`: the rectangle of "Notes" in the form
"Name", "Notes" laid out in the rectangle `{0, 0, 40, 10}`. -/
theorem vertical_alignment_witness :
    (positions String.length verticalForm ⟨0, 0, 40, 10⟩)[1]? = some ⟨0, 2, 40, 5⟩ ∧
      (positions String.length verticalForm ⟨0, 0, 40, 10⟩).length = 2 ∧
      (⟨0, 2, 40, 5⟩ : position).x = 0 ∧ (⟨0, 2, 40, 5⟩ : position).width = 40 :=
  ⟨rfl, (vertical_alignment String.length verticalForm ⟨0, 0, 40, 10⟩ rfl).1,
    ((vertical_alignment String.length verticalForm ⟨0, 0, 40, 10⟩ rfl).2 ⟨0, 2, 40, 5⟩
      (List.getElem?_mem (n := 1) rfl)).1,
    ((vertical_alignment String.length verticalForm ⟨0, 0, 40, 10⟩ rfl).2 ⟨0, 2, 40, 5⟩
      (List.getElem?_mem (n := 1) rfl)).2.1⟩

/-- C6: in vertical orientation with padding `p`, the item of index `k` gets as
height its declared field height, or 5 when that is 0 or less, and as `y` the
top of the rectangle plus the sum of `height + p` over the earlier items. In
particular "Name" of height 1 followed by "Notes", in the rectangle
`{0, 0, 40, 10}` with padding 1, are placed at `y = 0` and `y = 1 + 1`, both with
`x = 0` and width 40. -/
theorem vertical_stacking (tsw : String → Nat) (f : RootContainer) (rect : Rect)
    (h : f.horizontal = false) :
    (∀ (k : Nat) (item : FormItem), f.items[k]? = some item →
        ∃ p, (positions tsw f rect)[k]? = some p ∧
          p.height = (if item.GetFieldHeight ≤ 0 then 5 else item.GetFieldHeight) ∧
          p.y = rect.y + ((f.items.take k).map (fun it =>
            (if it.GetFieldHeight ≤ 0 then 5 else it.GetFieldHeight) + f.itemPadding)).sum) ∧
      (∀ name notes : FormItem, name.GetFieldHeight = 1 → f.items = [name, notes] →
        f.itemPadding = 1 → rect = ⟨0, 0, 40, 10⟩ →
        positions tsw f rect =
          [⟨0, 0, 40, 1⟩,
            ⟨0, 1 + 1, 40, if notes.GetFieldHeight ≤ 0 then 5 else notes.GetFieldHeight⟩]) := by
  constructor
  · intro k item hk
    exact ⟨_, vertical_position tsw f rect h k item hk, rfl, rfl⟩
  · intro name notes hname hitems hpad hrect
    have h0 := vertical_position tsw f rect h 0 name (by rw [hitems]; rfl)
    have h1 := vertical_position tsw f rect h 1 notes (by rw [hitems]; rfl)
    have hlen : (positions tsw f rect).length = 2 := by
      rw [positions_length, hitems]
      rfl
    have hname1 : itemHeightOf name = 1 := by
      simp [itemHeightOf, hname]
    apply List.ext_getElem?
    intro n
    match n with
    | 0 =>
      rw [h0, hrect]
      simp [hname1]
    | 1 =>
      rw [h1, hrect, hitems]
      simp [hname, hpad, itemHeightOf, DefaultFormFieldHeight]
    | n + 2 =>
      rw [List.getElem?_eq_none (by omega)]
      simp

/-- Witness of `vertical_stacking`: the form "Name", "Notes" in the rectangle
`{0, 0, 40, 10}` with the default padding 1. -/
theorem vertical_stacking_witness :
    positions String.length verticalForm ⟨0, 0, 40, 10⟩ = [⟨0, 0, 40, 1⟩, ⟨0, 2, 40, 5⟩] :=
  (vertical_stacking String.length verticalForm ⟨0, 0, 40, 10⟩ rfl).2 nameItem
    (newTextView "Notes" 0 5) rfl rfl rfl rfl

/-! ## Right edge and overlap -/

/-- C7: for every item list, every padding and every available rectangle of
non-negative width, in horizontal and in vertical orientation, every computed
rectangle ends at or before the right limit `rect.x + rect.width` and has a
non-negative width. -/
theorem right_edge_bound (tsw : String → Nat) (f : RootContainer) (rect : Rect)
    (hw : 0 ≤ rect.width) :
    ∀ p ∈ positions tsw f rect, p.x + p.width ≤ rect.x + rect.width ∧ 0 ≤ p.width := by
  intro p hp
  obtain ⟨k, item, hitem, rfl⟩ := positions_mem tsw f rect p hp
  cases hh : f.horizontal with
  | false =>
    rw [loopBody_vertical tsw f rect _ _ _ hh]
    have hx := (vertical_vars tsw f rect hh k).1
    simp only [hx, ge_iff_le, le_refl, if_true]
    omega
  | true =>
    obtain ⟨-, -, hwidth⟩ := horizontal_step_next tsw f rect (maxLabelWidth tsw f.items)
      (varsBefore tsw f rect k) item hh
    have hpos := itemWidthOf_pos tsw item
    cases hwr : wrapsAt tsw f rect (varsBefore tsw f rect k).x item with
    | true =>
      obtain ⟨hx, -, -⟩ := horizontal_step_wrap tsw f rect (maxLabelWidth tsw f.items)
        (varsBefore tsw f rect k) item hh hwr
      rw [hx] at hwidth ⊢
      rw [hwidth]
      split_ifs <;> omega
    | false =>
      obtain ⟨hx, -, -, hlt⟩ := horizontal_step_stay tsw f rect (maxLabelWidth tsw f.items)
        (varsBefore tsw f rect k) item hh hwr
      rw [hx] at hwidth ⊢
      rw [hwidth]
      split_ifs <;> omega

/-- Witness of `right_edge_bound`: the second of three items labelled "Item"
laid out horizontally in a rectangle of width 30, clipped to width 14. -/
theorem right_edge_bound_witness :
    (positions String.length (horizontalForm 1 [labelItem, labelItem, labelItem])
        ⟨0, 0, 30, 10⟩)[1]? = some ⟨16, 0, 14, 1⟩ ∧
      (16 : Int) + 14 ≤ 0 + 30 ∧ (0 : Int) ≤ 14 :=
  ⟨rfl,
    right_edge_bound String.length (horizontalForm 1 [labelItem, labelItem, labelItem])
      ⟨0, 0, 30, 10⟩ (by decide) ⟨16, 0, 14, 1⟩ (List.getElem?_mem (n := 1) rfl)⟩

theorem loopBody_lineHeight_ge (tsw : String → Nat) (f : RootContainer) (rect : Rect)
    (mlw : Int) (v : LoopVars) (item : FormItem) :
    itemHeightOf item ≤ (loopBody tsw f rect mlw v item).2.lineHeight := by
  simp only [loopBody, itemHeightOf]
  split_ifs <;> omega

theorem lineHeight_pos (tsw : String → Nat) (f : RootContainer) (rect : Rect) (k : Nat) :
    1 ≤ (varsBefore tsw f rect k).lineHeight := by
  induction k with
  | zero => simp [varsBefore_zero, initVars]
  | succ k ih =>
    by_cases hk : k < f.items.length
    · rw [varsBefore_succ tsw f rect k _ (List.getElem?_eq_getElem hk)]
      have h1 := loopBody_lineHeight_ge tsw f rect (maxLabelWidth tsw f.items)
        (varsBefore tsw f rect k) f.items[k]
      have h2 := itemHeightOf_pos f.items[k]
      omega
    · rw [varsBefore_of_length_le tsw f rect k (Nat.le_of_not_lt hk)]
      exact ih

theorem horizontal_step_mono (tsw : String → Nat) (f : RootContainer) (rect : Rect)
    (k : Nat) (item : FormItem) (hh : f.horizontal = true) (hp : 0 ≤ f.itemPadding)
    (hk : f.items[k]? = some item) :
    (varsBefore tsw f rect k).y ≤ (varsBefore tsw f rect (k + 1)).y ∧
      ((varsBefore tsw f rect (k + 1)).y = (varsBefore tsw f rect k).y →
        (varsBefore tsw f rect k).x ≤ (varsBefore tsw f rect (k + 1)).x) := by
  rw [varsBefore_succ tsw f rect k item hk]
  obtain ⟨hx, hy, hwidth⟩ := horizontal_step_next tsw f rect (maxLabelWidth tsw f.items)
    (varsBefore tsw f rect k) item hh
  have hlh := lineHeight_pos tsw f rect k
  have hpos := itemWidthOf_pos tsw item
  cases hwr : wrapsAt tsw f rect (varsBefore tsw f rect k).x item with
  | true =>
    obtain ⟨-, hy1, -⟩ := horizontal_step_wrap tsw f rect (maxLabelWidth tsw f.items)
      (varsBefore tsw f rect k) item hh hwr
    constructor
    · omega
    · intro hc
      omega
  | false =>
    obtain ⟨hx1, hy1, -, hlt⟩ := horizontal_step_stay tsw f rect (maxLabelWidth tsw f.items)
      (varsBefore tsw f rect k) item hh hwr
    rw [hx1] at hwidth
    constructor
    · omega
    · intro _
      rw [hx, hx1, hwidth]
      split_ifs <;> omega

theorem same_line_after (tsw : String → Nat) (f : RootContainer) (rect : Rect)
    (hh : f.horizontal = true) (hp : 0 ≤ f.itemPadding) (i : Nat) (d : Nat) :
    (varsBefore tsw f rect (i + 1)).y ≤ (varsBefore tsw f rect (i + 1 + d)).y ∧
      ((varsBefore tsw f rect (i + 1 + d)).y = (varsBefore tsw f rect (i + 1)).y →
        (varsBefore tsw f rect (i + 1)).x ≤ (varsBefore tsw f rect (i + 1 + d)).x) := by
  induction d with
  | zero => simp
  | succ d ih =>
    by_cases hk : i + 1 + d < f.items.length
    · obtain ⟨h1, h2⟩ := horizontal_step_mono tsw f rect (i + 1 + d) _ hh hp
        (List.getElem?_eq_getElem hk)
      rw [← Nat.add_assoc]
      constructor
      · omega
      · intro hy
        have hy1 : (varsBefore tsw f rect (i + 1 + d + 1)).y =
            (varsBefore tsw f rect (i + 1 + d)).y := by omega
        have hy2 : (varsBefore tsw f rect (i + 1 + d)).y = (varsBefore tsw f rect (i + 1)).y := by
          omega
        have := h2 hy1
        have := ih.2 hy2
        omega
    · rw [← Nat.add_assoc, varsBefore_of_length_le tsw f rect _ (Nat.le_of_not_lt hk)]
      exact ih

/-- C8: in horizontal orientation with non-negative padding, two items `i < j`
whose computed rectangles have the same `y` do not overlap in their x-ranges:
the rectangle of `i` ends at or before the `x` of the rectangle of `j`. -/
theorem no_overlap_on_line (tsw : String → Nat) (f : RootContainer) (rect : Rect)
    (hh : f.horizontal = true) (hp : 0 ≤ f.itemPadding) (i j : Nat) (hij : i < j)
    (pi pj : position) (hi : (positions tsw f rect)[i]? = some pi)
    (hj : (positions tsw f rect)[j]? = some pj) (hy : pi.y = pj.y) :
    pi.x + pi.width ≤ pj.x := by
  obtain ⟨itemi, hitemi, rfl⟩ := positions_getElem?_some tsw f rect i pi hi
  obtain ⟨itemj, hitemj, rfl⟩ := positions_getElem?_some tsw f rect j pj hj
  obtain ⟨d, rfl⟩ : ∃ d, j = i + 1 + d := ⟨j - (i + 1), by omega⟩
  obtain ⟨hx, hy0, -⟩ := horizontal_step_next tsw f rect (maxLabelWidth tsw f.items)
    (varsBefore tsw f rect i) itemi hh
  have hsucc := varsBefore_succ tsw f rect i itemi hitemi
  rw [← hsucc] at hx hy0
  obtain ⟨h1, h2⟩ := same_line_after tsw f rect hh hp i d
  have hlh := lineHeight_pos tsw f rect (i + 1 + d)
  cases hwr : wrapsAt tsw f rect (varsBefore tsw f rect (i + 1 + d)).x itemj with
  | true =>
    obtain ⟨-, hy1, -⟩ := horizontal_step_wrap tsw f rect (maxLabelWidth tsw f.items)
      (varsBefore tsw f rect (i + 1 + d)) itemj hh hwr
    omega
  | false =>
    obtain ⟨hx1, hy1, -, -⟩ := horizontal_step_stay tsw f rect (maxLabelWidth tsw f.items)
      (varsBefore tsw f rect (i + 1 + d)) itemj hh hwr
    have := h2 (by omega)
    omega

/-- Witness of `no_overlap_on_line`: the first two of three items labelled
"Item" share the first line of a rectangle of width 30. -/
theorem no_overlap_on_line_witness :
    (positions String.length (horizontalForm 1 [labelItem, labelItem, labelItem])
        ⟨0, 0, 30, 10⟩)[0]? = some ⟨0, 0, 15, 1⟩ ∧
      (positions String.length (horizontalForm 1 [labelItem, labelItem, labelItem])
        ⟨0, 0, 30, 10⟩)[1]? = some ⟨16, 0, 14, 1⟩ ∧
      (0 : Int) + 15 ≤ 16 :=
  ⟨rfl, rfl,
    no_overlap_on_line String.length (horizontalForm 1 [labelItem, labelItem, labelItem])
      ⟨0, 0, 30, 10⟩ rfl (by decide) 0 1 (by decide) ⟨0, 0, 15, 1⟩ ⟨16, 0, 14, 1⟩ rfl rfl rfl⟩

/-! ## Horizontal orientation: wrapping -/

theorem horizontal_step_facts (tsw : String → Nat) (f : RootContainer) (rect : Rect)
    (hh : f.horizontal = true) (k : Nat) (item : FormItem) (q : position)
    (hk : f.items[k]? = some item) (hq : (positions tsw f rect)[k]? = some q) :
    q.height = itemHeightOf item ∧
      (varsBefore tsw f rect (k + 1)).y = q.y ∧
      (varsBefore tsw f rect (k + 1)).x = q.x + q.width + f.itemPadding ∧
      q.width =
        (if q.x + itemWidthOf tsw item ≥ rect.x + rect.width then rect.x + rect.width - q.x
          else itemWidthOf tsw item) ∧
      ((varsBefore tsw f rect k).x + ((tsw item.GetLabel : Int) + 1) + 1 ≥ rect.x + rect.width →
        q.x = rect.x ∧
          q.y = (varsBefore tsw f rect k).y + (varsBefore tsw f rect k).lineHeight + 1 ∧
          (varsBefore tsw f rect (k + 1)).lineHeight = itemHeightOf item) ∧
      ((varsBefore tsw f rect k).x + ((tsw item.GetLabel : Int) + 1) + 1 < rect.x + rect.width →
        q.x = (varsBefore tsw f rect k).x ∧ q.y = (varsBefore tsw f rect k).y ∧
          (varsBefore tsw f rect (k + 1)).lineHeight =
            (if itemHeightOf item > (varsBefore tsw f rect k).lineHeight then itemHeightOf item
              else (varsBefore tsw f rect k).lineHeight)) := by
  have hpos := positions_getElem? tsw f rect k item hk
  rw [hq] at hpos
  have hq1 := Option.some.inj hpos
  have hsucc := varsBefore_succ tsw f rect k item hk
  obtain ⟨hx, hy, hwidth⟩ := horizontal_step_next tsw f rect (maxLabelWidth tsw f.items)
    (varsBefore tsw f rect k) item hh
  have hheight := loopBody_height tsw f rect (maxLabelWidth tsw f.items)
    (varsBefore tsw f rect k) item
  rw [← hsucc, ← hq1] at hx hy
  rw [← hq1] at hwidth hheight
  refine ⟨hheight, hy, hx, hwidth, ?_, ?_⟩
  · intro hc
    have hwr := (wrapsAt_iff tsw f rect (varsBefore tsw f rect k).x item hh).2 hc
    have := horizontal_step_wrap tsw f rect (maxLabelWidth tsw f.items)
      (varsBefore tsw f rect k) item hh hwr
    rw [← hsucc, ← hq1] at this
    exact this
  · intro hc
    have hwr : wrapsAt tsw f rect (varsBefore tsw f rect k).x item = false := by
      cases hb : wrapsAt tsw f rect (varsBefore tsw f rect k).x item with
      | false => rfl
      | true =>
        have := (wrapsAt_iff tsw f rect (varsBefore tsw f rect k).x item hh).1 hb
        omega
    have := horizontal_step_stay tsw f rect (maxLabelWidth tsw f.items)
      (varsBefore tsw f rect k) item hh hwr
    rw [← hsucc, ← hq1] at this
    exact ⟨this.1, this.2.1, this.2.2.1⟩

/-- C9 (amended): in horizontal orientation the width computed for an item is
(label width + 1) + field width (10 when it declares none), clipped to
`rightLimit - x` when `x` plus that width reaches the right limit. The item is
moved to a new line, `x` reset to the left edge and `y` advanced, exactly when
`x + (label width + 1) + 1 ≥ rightLimit` at the current `x`; the field width
plays no part in that test. The current `x` is the left edge before the first
item and the previous rectangle's `x + width + padding` afterwards. -/
theorem horizontal_wrap_condition (tsw : String → Nat) (f : RootContainer) (rect : Rect)
    (hh : f.horizontal = true) (k : Nat) (item : FormItem) (hk : f.items[k]? = some item) :
    ∃ p, (positions tsw f rect)[k]? = some p ∧
      (varsBefore tsw f rect 0).x = rect.x ∧
      (varsBefore tsw f rect (k + 1)).x = p.x + p.width + f.itemPadding ∧
      1 ≤ (varsBefore tsw f rect k).lineHeight ∧
      ((varsBefore tsw f rect k).x + ((tsw item.GetLabel : Int) + 1) + 1 ≥ rect.x + rect.width →
        p.x = rect.x ∧
          p.y = (varsBefore tsw f rect k).y + (varsBefore tsw f rect k).lineHeight + 1) ∧
      ((varsBefore tsw f rect k).x + ((tsw item.GetLabel : Int) + 1) + 1 < rect.x + rect.width →
        p.x = (varsBefore tsw f rect k).x ∧ p.y = (varsBefore tsw f rect k).y) ∧
      p.width =
        (if p.x + (((tsw item.GetLabel : Int) + 1) +
              (if item.GetFieldWidth ≤ 0 then 10 else item.GetFieldWidth)) ≥
            rect.x + rect.width then
          rect.x + rect.width - p.x
        else ((tsw item.GetLabel : Int) + 1) +
          (if item.GetFieldWidth ≤ 0 then 10 else item.GetFieldWidth)) := by
  have hq := positions_getElem? tsw f rect k item hk
  obtain ⟨-, -, hx, hwidth, hwrap, hstay⟩ := horizontal_step_facts tsw f rect hh k item _ hk hq
  refine ⟨_, hq, ?_, hx, lineHeight_pos tsw f rect k, ?_, ?_, hwidth⟩
  · simp [varsBefore_zero, initVars]
  · intro hc
    exact ⟨(hwrap hc).1, (hwrap hc).2.1⟩
  · intro hc
    exact ⟨(hstay hc).1, (hstay hc).2.1⟩

/-- Witness of `horizontal_wrap_condition`: the second of two items labelled
"Item" in a rectangle of width 30 with padding 1. -/
theorem horizontal_wrap_condition_witness :
    ∃ p, (positions String.length (horizontalForm 1 [labelItem, labelItem]) ⟨0, 0, 30, 10⟩)[1]? =
        some p ∧
      (varsBefore String.length (horizontalForm 1 [labelItem, labelItem]) ⟨0, 0, 30, 10⟩ 2).x =
        p.x + p.width + 1 := by
  obtain ⟨p, hp, -, hx, -⟩ :=
    horizontal_wrap_condition String.length (horizontalForm 1 [labelItem, labelItem])
      ⟨0, 0, 30, 10⟩ rfl 1 labelItem rfl
  exact ⟨p, hp, hx⟩

/-- C9 fails as stated: with two items of width 15 in a rectangle of width 30
and padding 1, the second item is reached at `x = 16`, where placing it with
its width 15 would exceed the right edge 30; it is not moved to a new line but
stays at `x = 16`, `y = 0`, clipped to width 14. So "would exceed the right
edge" is not equivalent to "is moved to the left edge of a new line". -/
theorem wrap_condition_counterexample :
    positions String.length (horizontalForm 1 [labelItem, labelItem]) ⟨0, 0, 30, 10⟩ =
        [⟨0, 0, 15, 1⟩, ⟨16, 0, 14, 1⟩] ∧
      ¬ ((varsBefore String.length (horizontalForm 1 [labelItem, labelItem])
              ⟨0, 0, 30, 10⟩ 1).x + itemWidthOf String.length labelItem > 0 + 30 ↔
          ∃ p, (positions String.length (horizontalForm 1 [labelItem, labelItem])
              ⟨0, 0, 30, 10⟩)[1]? = some p ∧ p.x = 0 ∧ p.y ≠ 0) := by
  refine ⟨rfl, ?_⟩
  intro h
  obtain ⟨p, hp, hx, -⟩ := h.1 (by decide)
  have hp1 : some (⟨16, 0, 14, 1⟩ : position) = some p := hp
  cases hp1
  exact absurd hx (by decide)

/-! ## Horizontal orientation: line height -/

theorem line_invariant (tsw : String → Nat) (f : RootContainer) (rect : Rect)
    (hh : f.horizontal = true) (k : Nat) :
    ∀ q, (positions tsw f rect)[k]? = some q →
      (∀ j r, j ≤ k → (positions tsw f rect)[j]? = some r → r.y ≤ q.y) ∧
        (∀ j r, j ≤ k → (positions tsw f rect)[j]? = some r → r.y = q.y →
          r.height ≤ (varsBefore tsw f rect (k + 1)).lineHeight) ∧
        (∃ j r, j ≤ k ∧ (positions tsw f rect)[j]? = some r ∧ r.y = q.y ∧
          r.height = (varsBefore tsw f rect (k + 1)).lineHeight) := by
  induction k with
  | zero =>
    intro q hq
    obtain ⟨item, hitem, -⟩ := positions_getElem?_some tsw f rect 0 q hq
    obtain ⟨hheight, -, -, -, hwrap, hstay⟩ :=
      horizontal_step_facts tsw f rect hh 0 item q hitem hq
    have hlh : (varsBefore tsw f rect (0 + 1)).lineHeight = itemHeightOf item := by
      by_cases hc : (varsBefore tsw f rect 0).x + ((tsw item.GetLabel : Int) + 1) + 1 ≥
          rect.x + rect.width
      · exact (hwrap hc).2.2
      · have h3 := (hstay (by omega)).2.2
        have h1 : (varsBefore tsw f rect 0).lineHeight = 1 := by
          simp [varsBefore_zero, initVars]
        have hpos := itemHeightOf_pos item
        rw [h3, h1]
        split_ifs <;> omega
    have hzero : ∀ j r, j ≤ 0 → (positions tsw f rect)[j]? = some r → r = q := by
      intro j r hj hr
      have hj0 : j = 0 := by omega
      subst hj0
      rw [hq] at hr
      exact (Option.some.inj hr).symm
    refine ⟨?_, ?_, ⟨0, q, le_refl 0, hq, rfl, ?_⟩⟩
    · intro j r hj hr
      rw [hzero j r hj hr]
    · intro j r hj hr _
      rw [hzero j r hj hr, hlh, hheight]
    · rw [hlh, hheight]
  | succ k ih =>
    intro q hq
    obtain ⟨item, hitem, -⟩ := positions_getElem?_some tsw f rect (k + 1) q hq
    obtain ⟨hheight, -, -, -, hwrap, hstay⟩ :=
      horizontal_step_facts tsw f rect hh (k + 1) item q hitem hq
    have hklt : k < f.items.length := by
      have := (List.getElem?_eq_some.1 hitem).1
      omega
    obtain ⟨qk, hprev⟩ : ∃ qk, (positions tsw f rect)[k]? = some qk :=
      ⟨_, positions_getElem? tsw f rect k f.items[k] (List.getElem?_eq_getElem hklt)⟩
    obtain ⟨hmono, hle, j0, r0, hj0, hr0, hy0, hh0⟩ := ih qk hprev
    have hprevy : (varsBefore tsw f rect (k + 1)).y = qk.y :=
      (horizontal_step_facts tsw f rect hh k f.items[k] qk
        (List.getElem?_eq_getElem hklt) hprev).2.1
    have hlh := lineHeight_pos tsw f rect (k + 1)
    have hlast : ∀ j r, j ≤ k + 1 → (positions tsw f rect)[j]? = some r → j ≤ k ∨ r = q := by
      intro j r hj hr
      rcases Nat.lt_or_eq_of_le hj with hlt | heq
      · left
        omega
      · right
        subst heq
        rw [hq] at hr
        exact (Option.some.inj hr).symm
    by_cases hc : (varsBefore tsw f rect (k + 1)).x + ((tsw item.GetLabel : Int) + 1) + 1 ≥
        rect.x + rect.width
    · obtain ⟨-, hy, hnew⟩ := hwrap hc
      refine ⟨?_, ?_, ⟨k + 1, q, le_refl _, hq, rfl, ?_⟩⟩
      · intro j r hj hr
        rcases hlast j r hj hr with hjk | rfl
        · have := hmono j r hjk hr
          omega
        · exact le_refl _
      · intro j r hj hr hry
        rcases hlast j r hj hr with hjk | rfl
        · have := hmono j r hjk hr
          omega
        · rw [hnew, hheight]
      · rw [hnew, hheight]
    · obtain ⟨-, hy, hnew⟩ := hstay (by omega)
      have hqy : q.y = qk.y := by omega
      refine ⟨?_, ?_, ?_⟩
      · intro j r hj hr
        rcases hlast j r hj hr with hjk | rfl
        · have := hmono j r hjk hr
          omega
        · exact le_refl _
      · intro j r hj hr hry
        rcases hlast j r hj hr with hjk | rfl
        · have := hle j r hjk hr (by omega)
          rw [hnew]
          split_ifs <;> omega
        · rw [hnew, hheight]
          split_ifs <;> omega
      · by_cases hgt : itemHeightOf item > (varsBefore tsw f rect (k + 1)).lineHeight
        · refine ⟨k + 1, q, le_refl _, hq, rfl, ?_⟩
          rw [hnew, hheight, if_pos hgt]
        · refine ⟨j0, r0, by omega, hr0, by omega, ?_⟩
          rw [hnew, if_neg hgt, hh0]

/-- C10 (amended): whenever the horizontal layout moves the item of index `k`
to a new line, `y` advances by the height of the line just finished plus 1, a
fixed gap that does not depend on the item padding. For `k > 0` that height is
the maximum of the heights of the items placed on the line of item `k - 1`;
for `k = 0`, where no item precedes, it is the initial line height 1. The line
height then restarts at the height of item `k`. -/
theorem horizontal_wrap_advance (tsw : String → Nat) (f : RootContainer) (rect : Rect)
    (hh : f.horizontal = true) (k : Nat) (item : FormItem) (hk : f.items[k]? = some item)
    (hwrap : (varsBefore tsw f rect k).x + ((tsw item.GetLabel : Int) + 1) + 1 ≥
      rect.x + rect.width) :
    ∃ p, (positions tsw f rect)[k]? = some p ∧
      (varsBefore tsw f rect (k + 1)).lineHeight = p.height ∧
      (k = 0 → p.y = rect.y + 1 + 1) ∧
      (∀ q, 0 < k → (positions tsw f rect)[k - 1]? = some q →
        ∃ lineMax, p.y = q.y + lineMax + 1 ∧
          (∀ j r, j < k → (positions tsw f rect)[j]? = some r → r.y = q.y →
            r.height ≤ lineMax) ∧
          (∃ j r, j < k ∧ (positions tsw f rect)[j]? = some r ∧ r.y = q.y ∧
            r.height = lineMax)) := by
  have hp := positions_getElem? tsw f rect k item hk
  obtain ⟨hheight, -, -, -, hw, -⟩ := horizontal_step_facts tsw f rect hh k item _ hk hp
  obtain ⟨-, hy, hnew⟩ := hw hwrap
  refine ⟨_, hp, by rw [hnew, hheight], ?_, ?_⟩
  · intro hk0
    subst hk0
    rw [hy]
    simp [varsBefore_zero, initVars]
  · intro q hkpos hq
    obtain ⟨m, rfl⟩ : ∃ m, k = m + 1 := ⟨k - 1, by omega⟩
    simp only [Nat.add_sub_cancel] at hq
    obtain ⟨itemq, hitemq, -⟩ := positions_getElem?_some tsw f rect m q hq
    have hqy := (horizontal_step_facts tsw f rect hh m itemq q hitemq hq).2.1
    obtain ⟨-, hle, j0, r0, hj0, hr0, hy0, hh0⟩ := line_invariant tsw f rect hh m q hq
    refine ⟨(varsBefore tsw f rect (m + 1)).lineHeight, by rw [hy, hqy], ?_, ?_⟩
    · intro j r hj hr hry
      exact hle j r (by omega) hr hry
    · exact ⟨j0, r0, by omega, hr0, hy0, hh0⟩

/-- Witness of `horizontal_wrap_advance`: with padding 2 the second of two
items labelled "Item" wraps in a rectangle of width 10. -/
theorem horizontal_wrap_advance_witness :
    ∃ p, (positions String.length (horizontalForm 2 [labelItem, labelItem]) ⟨0, 0, 10, 10⟩)[1]? =
        some p ∧
      (varsBefore String.length (horizontalForm 2 [labelItem, labelItem]) ⟨0, 0, 10, 10⟩ 2).lineHeight =
        p.height := by
  obtain ⟨p, hp, hl, -⟩ :=
    horizontal_wrap_advance String.length (horizontalForm 2 [labelItem, labelItem])
      ⟨0, 0, 10, 10⟩ rfl 1 labelItem rfl (by decide)
  exact ⟨p, hp, hl⟩

/-- C10 fails as stated: with padding 2, two items of height 1 and a rectangle
of width 10, the second item wraps; the line just finished has height 1, and
`y` advances from 0 to 2, which is `1 + 1`, not `1 + padding = 3`. -/
theorem wrap_advance_counterexample :
    (horizontalForm 2 [labelItem, labelItem]).itemPadding = 2 ∧
      positions String.length (horizontalForm 2 [labelItem, labelItem]) ⟨0, 0, 10, 10⟩ =
        [⟨0, 0, 10, 1⟩, ⟨0, 2, 10, 1⟩] ∧
      ¬ ∃ p q, (positions String.length (horizontalForm 2 [labelItem, labelItem])
            ⟨0, 0, 10, 10⟩)[0]? = some q ∧
          (positions String.length (horizontalForm 2 [labelItem, labelItem])
            ⟨0, 0, 10, 10⟩)[1]? = some p ∧
          p.y = q.y + q.height + (horizontalForm 2 [labelItem, labelItem]).itemPadding := by
  refine ⟨rfl, rfl, ?_⟩
  rintro ⟨p, q, hq, hp, hy⟩
  have hq1 : some (⟨0, 0, 10, 1⟩ : position) = some q := hq
  have hp1 : some (⟨0, 2, 10, 1⟩ : position) = some p := hp
  cases hq1
  cases hp1
  exact absurd hy (by decide)

/-! ## Horizontal orientation: the wrap scenario -/

theorem position_eq (p : position) (x y width height : Int) (hx : p.x = x) (hy : p.y = y)
    (hw : p.width = width) (hh : p.height = height) : p = ⟨x, y, width, height⟩ := by
  cases p
  simp only [position.mk.injEq]
  exact ⟨hx, hy, hw, hh⟩

theorem labelWidth_le_of_itemWidthOf (tsw : String → Nat) (item : FormItem) (w : Int)
    (h : itemWidthOf tsw item = w) : (tsw item.GetLabel : Int) + 2 ≤ w := by
  unfold itemWidthOf DefaultFormFieldWidth at h
  split_ifs at h <;> omega

/-- C11 (amended): three items each needing width 15, the second with a label
at most 11 cells wide (for instance label width 4 and the default field width
10), in a rectangle with `x = 0` and width 30 with padding 1: the horizontal
layout places item 1 at `x = 0` and item 2 at `x = 16` on the first line, and
item 3 on a second line at `x = 0`, with `y` equal to the top of the rectangle
plus the first line's height plus 1. -/
theorem horizontal_wrap_scenario (tsw : String → Nat) (f : RootContainer) (rect : Rect)
    (hh : f.horizontal = true) (hp : f.itemPadding = 1) (hx : rect.x = 0)
    (hw : rect.width = 30) (a b c : FormItem) (hitems : f.items = [a, b, c])
    (ha : itemWidthOf tsw a = 15) (hb : itemWidthOf tsw b = 15) (hc : itemWidthOf tsw c = 15)
    (hlabel : (tsw b.GetLabel : Int) ≤ 11) :
    positions tsw f rect =
      [⟨0, rect.y, 15, itemHeightOf a⟩, ⟨16, rect.y, 14, itemHeightOf b⟩,
        ⟨0, rect.y + max (itemHeightOf a) (itemHeightOf b) + 1, 15, itemHeightOf c⟩] := by
  have hia : f.items[0]? = some a := by rw [hitems]; rfl
  have hib : f.items[1]? = some b := by rw [hitems]; rfl
  have hic : f.items[2]? = some c := by rw [hitems]; rfl
  have h0 := positions_getElem? tsw f rect 0 a hia
  have h1 := positions_getElem? tsw f rect 1 b hib
  have h2 := positions_getElem? tsw f rect 2 c hic
  obtain ⟨e0, -, -, -, -, s0⟩ := horizontal_step_facts tsw f rect hh 0 a _ hia h0
  obtain ⟨e1, -, -, -, -, s1⟩ := horizontal_step_facts tsw f rect hh 1 b _ hib h1
  obtain ⟨e2, -, -, -, w2, -⟩ := horizontal_step_facts tsw f rect hh 2 c _ hic h2
  obtain ⟨-, y0, x0, w0, -, -⟩ := horizontal_step_facts tsw f rect hh 0 a _ hia h0
  obtain ⟨-, y1, x1, w1, -, -⟩ := horizontal_step_facts tsw f rect hh 1 b _ hib h1
  obtain ⟨-, -, -, w2', -, -⟩ := horizontal_step_facts tsw f rect hh 2 c _ hic h2
  have hla := labelWidth_le_of_itemWidthOf tsw a 15 ha
  have hlc := labelWidth_le_of_itemWidthOf tsw c 15 hc
  have hpa := itemHeightOf_pos a
  have hpb := itemHeightOf_pos b
  have hv0 : (varsBefore tsw f rect 0).x = rect.x ∧ (varsBefore tsw f rect 0).y = rect.y ∧
      (varsBefore tsw f rect 0).lineHeight = 1 := by
    simp [varsBefore_zero, initVars]
  obtain ⟨hv0x, hv0y, hv0l⟩ := hv0
  obtain ⟨qx0, qy0, l0⟩ := s0 (by omega)
  rw [qx0, hv0x, hx, ha] at w0
  rw [if_neg (by omega)] at w0
  rw [qx0, hv0x, hx, w0, hp] at x0
  rw [qy0, hv0y] at y0
  rw [hv0l] at l0
  have l0' : (varsBefore tsw f rect (0 + 1)).lineHeight = itemHeightOf a := by
    rw [l0]
    split_ifs <;> omega
  simp only [Nat.zero_add] at x0 y0 l0'
  obtain ⟨qx1, qy1, l1⟩ := s1 (by omega)
  rw [qx1, x0, hx, hb, hw] at w1
  rw [if_pos (by omega)] at w1
  rw [qx1, x0, w1, hp] at x1
  rw [qy1, y0] at y1
  rw [l0'] at l1
  have l1' : (varsBefore tsw f rect (1 + 1)).lineHeight =
      max (itemHeightOf a) (itemHeightOf b) := by
    rw [l1]
    split_ifs <;> omega
  simp only [Nat.reduceAdd] at x1 y1 l1'
  obtain ⟨qx2, qy2, -⟩ := w2 (by omega)
  rw [qx2, hx, hc, hw] at w2'
  rw [if_neg (by omega)] at w2'
  rw [y1, l1'] at qy2
  have hlen : (positions tsw f rect).length = 3 := by
    rw [positions_length, hitems]
    rfl
  apply List.ext_getElem?
  intro n
  match n with
  | 0 =>
    rw [h0]
    simp only [List.getElem?_cons_zero, Option.some.injEq]
    exact position_eq _ _ _ _ _ (by omega) (by omega) w0 e0
  | 1 =>
    rw [h1]
    simp only [List.getElem?_cons_succ, List.getElem?_cons_zero, Option.some.injEq]
    exact position_eq _ _ _ _ _ (by omega) (by omega) (by omega) e1
  | 2 =>
    rw [h2]
    simp only [List.getElem?_cons_succ, List.getElem?_cons_zero, Option.some.injEq]
    exact position_eq _ _ _ _ _ (by omega) qy2 w2' e2
  | n + 3 =>
    rw [List.getElem?_eq_none (by omega)]
    simp

/-- Witness of `horizontal_wrap_scenario`: three items labelled "Item" with
the default field width. -/
theorem horizontal_wrap_scenario_witness :
    positions String.length (horizontalForm 1 [labelItem, labelItem, labelItem])
        ⟨0, 0, 30, 10⟩ =
      [⟨0, 0, 15, 1⟩, ⟨16, 0, 14, 1⟩, ⟨0, 0 + max 1 1 + 1, 15, 1⟩] :=
  horizontal_wrap_scenario String.length (horizontalForm 1 [labelItem, labelItem, labelItem])
    ⟨0, 0, 30, 10⟩ rfl rfl rfl rfl labelItem labelItem labelItem rfl rfl rfl rfl (by decide)

/-- C11 fails as stated: three items that each need width 15 through a label
12 cells wide and a field 2 cells wide. The second item is reached at `x = 16`,
where `16 + 13 + 1 ≥ 30`, so it is moved to a second line at `x = 0`, `y = 2`,
and the third item to a third line. -/
theorem wrap_scenario_counterexample :
    itemWidthOf String.length wideLabelItem = 15 ∧
      positions String.length (horizontalForm 1 [wideLabelItem, wideLabelItem, wideLabelItem])
          ⟨0, 0, 30, 10⟩ =
        [⟨0, 0, 15, 1⟩, ⟨0, 2, 15, 1⟩, ⟨0, 4, 15, 1⟩] ∧
      ¬ ∃ p q, (positions String.length
            (horizontalForm 1 [wideLabelItem, wideLabelItem, wideLabelItem])
            ⟨0, 0, 30, 10⟩)[0]? = some p ∧
          (positions String.length
            (horizontalForm 1 [wideLabelItem, wideLabelItem, wideLabelItem])
            ⟨0, 0, 30, 10⟩)[1]? = some q ∧
          q.x = 16 ∧ q.y = p.y := by
  refine ⟨rfl, rfl, ?_⟩
  rintro ⟨p, q, hp, hq, hx, -⟩
  have hq1 : some (⟨0, 2, 15, 1⟩ : position) = some q := hq
  cases hq1
  exact absurd hx (by decide)

/-! ## The scroll offset -/

/-- C12: the scroll offset is 0 when `y + height ≤ bottomLimit`; otherwise it is
`y + height - bottomLimit`, unless `y - (y + height - bottomLimit) < topLimit`,
in which case it is `y - topLimit`. For `y = 20`, `height = 8`, `topLimit = 5`,
`bottomLimit = 15` the offset is 13. -/
theorem scrollOffset_formula (focused : position) (topLimit bottomLimit : Int) :
    (focused.y + focused.height ≤ bottomLimit →
        scrollOffset focused topLimit bottomLimit = 0) ∧
      (focused.y + focused.height > bottomLimit →
        ¬ focused.y - (focused.y + focused.height - bottomLimit) < topLimit →
        scrollOffset focused topLimit bottomLimit =
          focused.y + focused.height - bottomLimit) ∧
      (focused.y + focused.height > bottomLimit →
        focused.y - (focused.y + focused.height - bottomLimit) < topLimit →
        scrollOffset focused topLimit bottomLimit = focused.y - topLimit) ∧
      (focused.y + focused.height > bottomLimit →
        scrollOffset focused topLimit bottomLimit =
          min (focused.y + focused.height - bottomLimit) (focused.y - topLimit)) ∧
      scrollOffset ⟨0, 20, 0, 8⟩ 5 15 = 13 := by
  refine ⟨?_, ?_, ?_, ?_, by decide⟩
  · intro h
    simp only [scrollOffset]
    rw [if_neg (by omega)]
  · intro h1 h2
    simp only [scrollOffset]
    rw [if_pos h1, if_neg h2]
  · intro h1 h2
    simp only [scrollOffset]
    rw [if_pos h1, if_pos h2]
  · intro h1
    simp only [scrollOffset]
    rw [if_pos h1]
    split_ifs <;> omega

/-- Witness of `scrollOffset_formula`: the three cases at concrete rectangles
with the band from 5 to 15. -/
theorem scrollOffset_formula_witness :
    scrollOffset ⟨0, 6, 0, 8⟩ 5 15 = 0 ∧ scrollOffset ⟨0, 20, 0, 8⟩ 5 15 = 20 + 8 - 15 ∧
      scrollOffset ⟨0, 20, 0, 12⟩ 5 15 = 20 - 5 :=
  ⟨(scrollOffset_formula ⟨0, 6, 0, 8⟩ 5 15).1 (by decide),
    (scrollOffset_formula ⟨0, 20, 0, 8⟩ 5 15).2.1 (by decide) (by decide),
    (scrollOffset_formula ⟨0, 20, 0, 12⟩ 5 15).2.2.1 (by decide) (by decide)⟩

/-! ## The draw loop -/

theorem drawLoop_rects (offset topLimit bottomLimit : Int) (items : List FormItem) :
    ∀ (index : Nat) (ps : List position), ps.length = items.length →
      (drawLoop offset topLimit bottomLimit index items ps).rects =
        ps.map (fun p => ⟨p.x, p.y - offset, p.width, p.height⟩) := by
  induction items with
  | nil =>
    intro index ps hlen
    have : ps = [] := List.length_eq_zero.1 hlen
    subst this
    rfl
  | cons item rest ih =>
    intro index ps hlen
    cases ps with
    | nil => simp at hlen
    | cons p ps =>
      have hlen1 : ps.length = rest.length := by simpa using hlen
      simp only [drawLoop, List.map_cons]
      split_ifs <;> simp [ih (index + 1) ps hlen1]

theorem drawLoop_drawn_mem (offset topLimit bottomLimit : Int) (items : List FormItem) :
    ∀ (index : Nat) (ps : List position) (k : Nat),
      k ∈ (drawLoop offset topLimit bottomLimit index items ps).drawn ↔
        ∃ j item p, k = index + j ∧ items[j]? = some item ∧ ps[j]? = some p ∧
          ¬ (p.y - offset + p.height ≤ topLimit ∨ p.y - offset ≥ bottomLimit) ∧
          item.HasFocus = false := by
  induction items with
  | nil =>
    intro index ps k
    simp [drawLoop]
  | cons item rest ih =>
    intro index ps k
    cases ps with
    | nil => simp [drawLoop]
    | cons p ps =>
      have hrec : (∃ j item' p', k = index + j ∧ (item :: rest)[j]? = some item' ∧
            (p :: ps)[j]? = some p' ∧
            ¬ (p'.y - offset + p'.height ≤ topLimit ∨ p'.y - offset ≥ bottomLimit) ∧
            item'.HasFocus = false) ↔
          ((k = index ∧
              ¬ (p.y - offset + p.height ≤ topLimit ∨ p.y - offset ≥ bottomLimit) ∧
              item.HasFocus = false) ∨
            k ∈ (drawLoop offset topLimit bottomLimit (index + 1) rest ps).drawn) := by
        rw [ih (index + 1) ps k]
        constructor
        · rintro ⟨j, item', p', hk, hitem, hp, hvis, hfocus⟩
          cases j with
          | zero =>
            simp only [List.getElem?_cons_zero, Option.some.injEq] at hitem hp
            subst hitem hp
            exact Or.inl ⟨by omega, hvis, hfocus⟩
          | succ j =>
            simp only [List.getElem?_cons_succ] at hitem hp
            exact Or.inr ⟨j, item', p', by omega, hitem, hp, hvis, hfocus⟩
        · rintro (⟨hk, hvis, hfocus⟩ | ⟨j, item', p', hk, hitem, hp, hvis, hfocus⟩)
          · exact ⟨0, item, p, by omega, by simp, by simp, hvis, hfocus⟩
          · exact ⟨j + 1, item', p', by omega, by simpa using hitem, by simpa using hp, hvis,
              hfocus⟩
      rw [hrec]
      simp only [drawLoop]
      split_ifs with hhid hfoc
      · simp [hhid]
      · simp [hfoc]
      · simp [hhid, hfoc]

theorem drawLoop_deferred_mem (offset topLimit bottomLimit : Int) (items : List FormItem) :
    ∀ (index : Nat) (ps : List position) (k : Nat),
      k ∈ (drawLoop offset topLimit bottomLimit index items ps).deferred ↔
        ∃ j item p, k = index + j ∧ items[j]? = some item ∧ ps[j]? = some p ∧
          ¬ (p.y - offset + p.height ≤ topLimit ∨ p.y - offset ≥ bottomLimit) ∧
          item.HasFocus = true := by
  induction items with
  | nil =>
    intro index ps k
    simp [drawLoop]
  | cons item rest ih =>
    intro index ps k
    cases ps with
    | nil => simp [drawLoop]
    | cons p ps =>
      have hrec : (∃ j item' p', k = index + j ∧ (item :: rest)[j]? = some item' ∧
            (p :: ps)[j]? = some p' ∧
            ¬ (p'.y - offset + p'.height ≤ topLimit ∨ p'.y - offset ≥ bottomLimit) ∧
            item'.HasFocus = true) ↔
          ((k = index ∧
              ¬ (p.y - offset + p.height ≤ topLimit ∨ p.y - offset ≥ bottomLimit) ∧
              item.HasFocus = true) ∨
            k ∈ (drawLoop offset topLimit bottomLimit (index + 1) rest ps).deferred) := by
        rw [ih (index + 1) ps k]
        constructor
        · rintro ⟨j, item', p', hk, hitem, hp, hvis, hfocus⟩
          cases j with
          | zero =>
            simp only [List.getElem?_cons_zero, Option.some.injEq] at hitem hp
            subst hitem hp
            exact Or.inl ⟨by omega, hvis, hfocus⟩
          | succ j =>
            simp only [List.getElem?_cons_succ] at hitem hp
            exact Or.inr ⟨j, item', p', by omega, hitem, hp, hvis, hfocus⟩
        · rintro (⟨hk, hvis, hfocus⟩ | ⟨j, item', p', hk, hitem, hp, hvis, hfocus⟩)
          · exact ⟨0, item, p, by omega, by simp, by simp, hvis, hfocus⟩
          · exact ⟨j + 1, item', p', by omega, by simpa using hitem, by simpa using hp, hvis,
              hfocus⟩
      rw [hrec]
      simp only [drawLoop]
      split_ifs with hhid hfoc
      · simp [hhid]
      · simp [hhid, hfoc, or_comm]
      · simp [hfoc]

theorem drawLoop_order (offset topLimit bottomLimit : Int) (items : List FormItem) :
    ∀ (index : Nat) (ps : List position),
      (drawLoop offset topLimit bottomLimit index items ps).drawn.Pairwise (· < ·) ∧
        (drawLoop offset topLimit bottomLimit index items ps).deferred.Pairwise (· > ·) ∧
        (∀ k ∈ (drawLoop offset topLimit bottomLimit index items ps).drawn, index ≤ k) ∧
        (∀ k ∈ (drawLoop offset topLimit bottomLimit index items ps).deferred, index ≤ k) := by
  induction items with
  | nil =>
    intro index ps
    simp [drawLoop]
  | cons item rest ih =>
    intro index ps
    cases ps with
    | nil => simp [drawLoop]
    | cons p ps =>
      obtain ⟨h1, h2, h3, h4⟩ := ih (index + 1) ps
      have h3' : ∀ k ∈ (drawLoop offset topLimit bottomLimit (index + 1) rest ps).drawn,
          index ≤ k := fun k hk => Nat.le_of_succ_le (h3 k hk)
      have h4' : ∀ k ∈ (drawLoop offset topLimit bottomLimit (index + 1) rest ps).deferred,
          index ≤ k := fun k hk => Nat.le_of_succ_le (h4 k hk)
      simp only [drawLoop]
      split_ifs with hhid hfoc
      · exact ⟨h1, h2, h3', h4'⟩
      · refine ⟨h1, ?_, h3', ?_⟩
        · rw [List.pairwise_append]
          refine ⟨h2, List.pairwise_singleton _ _, ?_⟩
          intro a ha b hb
          rw [List.mem_singleton] at hb
          subst hb
          exact h4 a ha
        · intro k hk
          rcases List.mem_append.1 hk with hk | hk
          · exact h4' k hk
          · rw [List.mem_singleton] at hk
            omega
      · refine ⟨?_, h2, ?_, h4'⟩
        · rw [List.pairwise_cons]
          exact ⟨fun a ha => h3 a ha, h1⟩
        · intro k hk
          rcases List.mem_cons.1 hk with hk | hk
          · omega
          · exact h3' k hk

theorem Draw_loop_eq (tsw : String → Nat) (f : RootContainer) (rect : Rect) :
    (Draw tsw f rect).rects =
        (drawLoop (Draw tsw f rect).offset rect.y (rect.y + rect.height) 0 f.items
          (positions tsw f rect)).rects ∧
      (Draw tsw f rect).drawn =
        (drawLoop (Draw tsw f rect).offset rect.y (rect.y + rect.height) 0 f.items
            (positions tsw f rect)).drawn ++
          (drawLoop (Draw tsw f rect).offset rect.y (rect.y + rect.height) 0 f.items
            (positions tsw f rect)).deferred :=
  ⟨rfl, rfl⟩

theorem Draw_rects (tsw : String → Nat) (f : RootContainer) (rect : Rect) :
    (Draw tsw f rect).rects =
      (positions tsw f rect).map
        (fun p => ⟨p.x, p.y - (Draw tsw f rect).offset, p.width, p.height⟩) := by
  rw [(Draw_loop_eq tsw f rect).1]
  exact drawLoop_rects _ _ _ f.items 0 _ (positions_length tsw f rect)

theorem Draw_rects_getElem? (tsw : String → Nat) (f : RootContainer) (rect : Rect) (k : Nat)
    (r : position) :
    (Draw tsw f rect).rects[k]? = some r ↔
      ∃ p, (positions tsw f rect)[k]? = some p ∧
        r = ⟨p.x, p.y - (Draw tsw f rect).offset, p.width, p.height⟩ := by
  rw [Draw_rects, List.getElem?_map]
  cases (positions tsw f rect)[k]? with
  | none => simp
  | some p =>
    simp only [Option.map_some', Option.some.injEq, exists_eq_left']
    exact eq_comm

/-- C20: `Draw` passes to `SetRect`, for every item, its layout rectangle with
`y` reduced by the one scroll offset, whether the item is drawn or not; the
`Draw` of an item is called exactly when its shifted rectangle is not entirely
above or below the band, `¬ (y + height ≤ topLimit ∨ y ≥ bottomLimit)`, and once
only; the items without focus are drawn first, in list order, and the items
with focus after them. -/
theorem Draw_pass (tsw : String → Nat) (f : RootContainer) (rect : Rect) :
    (Draw tsw f rect).rects.length = f.items.length ∧
      (Draw tsw f rect).rects =
        (positions tsw f rect).map
          (fun p => ⟨p.x, p.y - (Draw tsw f rect).offset, p.width, p.height⟩) ∧
      (∀ k, k ∈ (Draw tsw f rect).drawn ↔
        ∃ r, (Draw tsw f rect).rects[k]? = some r ∧
          ¬ (r.y + r.height ≤ rect.y ∨ r.y ≥ rect.y + rect.height)) ∧
      (Draw tsw f rect).drawn.Nodup ∧
      ∃ plain focused, (Draw tsw f rect).drawn = plain ++ focused ∧
        plain.Pairwise (· < ·) ∧
        (∀ k ∈ plain, ∃ item, f.items[k]? = some item ∧ item.HasFocus = false) ∧
        (∀ k ∈ focused, ∃ item, f.items[k]? = some item ∧ item.HasFocus = true) := by
  have hmemd := drawLoop_drawn_mem (Draw tsw f rect).offset rect.y (rect.y + rect.height)
    f.items 0 (positions tsw f rect)
  have hmemf := drawLoop_deferred_mem (Draw tsw f rect).offset rect.y (rect.y + rect.height)
    f.items 0 (positions tsw f rect)
  obtain ⟨hord1, hord2, -, -⟩ := drawLoop_order (Draw tsw f rect).offset rect.y
    (rect.y + rect.height) f.items 0 (positions tsw f rect)
  refine ⟨?_, Draw_rects tsw f rect, ?_, ?_, ?_⟩
  · rw [Draw_rects, List.length_map, positions_length]
  · intro k
    rw [(Draw_loop_eq tsw f rect).2, List.mem_append, hmemd k, hmemf k]
    constructor
    · rintro (⟨j, item, p, hk, -, hp, hvis, -⟩ | ⟨j, item, p, hk, -, hp, hvis, -⟩)
      · have hkj : k = j := by omega
        subst hkj
        exact ⟨_, (Draw_rects_getElem? tsw f rect k _).2 ⟨p, hp, rfl⟩, hvis⟩
      · have hkj : k = j := by omega
        subst hkj
        exact ⟨_, (Draw_rects_getElem? tsw f rect k _).2 ⟨p, hp, rfl⟩, hvis⟩
    · rintro ⟨r, hr, hvis⟩
      obtain ⟨p, hp, rfl⟩ := (Draw_rects_getElem? tsw f rect k r).1 hr
      obtain ⟨item, hitem, -⟩ := positions_getElem?_some tsw f rect k p hp
      cases hfoc : item.HasFocus with
      | false => exact Or.inl ⟨k, item, p, by omega, hitem, hp, hvis, hfoc⟩
      | true => exact Or.inr ⟨k, item, p, by omega, hitem, hp, hvis, hfoc⟩
  · rw [(Draw_loop_eq tsw f rect).2, List.nodup_append]
    refine ⟨hord1.imp (fun h => Nat.ne_of_lt h), hord2.imp (fun h => Nat.ne_of_gt h), ?_⟩
    intro k hk1 hk2
    obtain ⟨j, item, p, hk, hitem, -, -, hfoc⟩ := (hmemd k).1 hk1
    obtain ⟨j', item', p', hk', hitem', -, -, hfoc'⟩ := (hmemf k).1 hk2
    have hjj : j = j' := by omega
    subst hjj
    rw [hitem] at hitem'
    have := Option.some.inj hitem'
    subst this
    rw [hfoc] at hfoc'
    exact Bool.noConfusion hfoc'
  · refine ⟨_, _, (Draw_loop_eq tsw f rect).2, hord1, ?_, ?_⟩
    · intro k hk
      obtain ⟨j, item, p, hkj, hitem, -, -, hfoc⟩ := (hmemd k).1 hk
      have hkj' : k = j := by omega
      subst hkj'
      exact ⟨item, hitem, hfoc⟩
    · intro k hk
      obtain ⟨j, item, p, hkj, hitem, -, -, hfoc⟩ := (hmemf k).1 hk
      have hkj' : k = j := by omega
      subst hkj'
      exact ⟨item, hitem, hfoc⟩

/-! ## The focused position and the scroll offset -/

theorem loopBody_focusedPosition (tsw : String → Nat) (f : RootContainer) (rect : Rect)
    (mlw : Int) (v : LoopVars) (item : FormItem) :
    (loopBody tsw f rect mlw v item).2.focusedPosition =
      if item.HasFocus then (loopBody tsw f rect mlw v item).1 else v.focusedPosition :=
  rfl

theorem positionLoop_focusedPosition_none (tsw : String → Nat) (f : RootContainer) (rect : Rect)
    (mlw : Int) (items : List FormItem) :
    ∀ v : LoopVars, (∀ item ∈ items, item.HasFocus = false) →
      (positionLoop tsw f rect mlw v items).2.focusedPosition = v.focusedPosition := by
  induction items with
  | nil =>
    intro v _
    rfl
  | cons a rest ih =>
    intro v h
    simp only [positionLoop]
    rw [ih _ (fun item hitem => h item (List.mem_cons_of_mem a hitem)),
      loopBody_focusedPosition, h a (List.mem_cons_self a rest)]
    rfl

theorem positionLoop_focusedPosition_last (tsw : String → Nat) (f : RootContainer) (rect : Rect)
    (mlw : Int) (items : List FormItem) :
    ∀ (v : LoopVars) (k : Nat) (item : FormItem), items[k]? = some item →
      item.HasFocus = true →
      (∀ j other, k < j → items[j]? = some other → other.HasFocus = false) →
      (positionLoop tsw f rect mlw v items).2.focusedPosition =
        (loopBody tsw f rect mlw (positionLoop tsw f rect mlw v (items.take k)).2 item).1 := by
  induction items with
  | nil =>
    intro v k item hk
    simp at hk
  | cons a rest ih =>
    intro v k item hk hfocus hlater
    cases k with
    | zero =>
      simp only [List.getElem?_cons_zero, Option.some.injEq] at hk
      subst hk
      have hrest : ∀ other ∈ rest, other.HasFocus = false := by
        intro other hother
        obtain ⟨j, hj⟩ := List.mem_iff_getElem?.1 hother
        exact hlater (j + 1) other (Nat.succ_pos j) (by simpa using hj)
      simp only [positionLoop, List.take_zero]
      rw [positionLoop_focusedPosition_none tsw f rect mlw rest _ hrest,
        loopBody_focusedPosition, hfocus]
      rfl
    | succ k =>
      simp only [List.getElem?_cons_succ] at hk
      simp only [positionLoop, List.take_succ_cons]
      refine ih _ k item hk hfocus ?_
      intro j other hj hother
      exact hlater (j + 1) other (by omega) (by simpa using hother)

theorem loopBody_y_ge (tsw : String → Nat) (f : RootContainer) (rect : Rect) (mlw : Int)
    (v : LoopVars) (item : FormItem) (hp : 0 ≤ f.itemPadding) (hl : 1 ≤ v.lineHeight) :
    v.y ≤ (loopBody tsw f rect mlw v item).1.y ∧ v.y ≤ (loopBody tsw f rect mlw v item).2.y := by
  have hpos := itemHeightOf_pos item
  cases hh : f.horizontal with
  | false =>
    rw [loopBody_vertical tsw f rect mlw v item hh]
    constructor
    · exact le_refl _
    · show v.y ≤ v.y + itemHeightOf item + f.itemPadding
      omega
  | true =>
    rw [loopBody_horizontal tsw f rect mlw v item hh]
    constructor
    · show v.y ≤ if wrapsAt tsw f rect v.x item then v.y + v.lineHeight + 1 else v.y
      split_ifs <;> omega
    · show v.y ≤ if wrapsAt tsw f rect v.x item then v.y + v.lineHeight + 1 else v.y
      split_ifs <;> omega

theorem varsBefore_y_ge (tsw : String → Nat) (f : RootContainer) (rect : Rect)
    (hp : 0 ≤ f.itemPadding) (k : Nat) : rect.y ≤ (varsBefore tsw f rect k).y := by
  induction k with
  | zero => simp [varsBefore_zero, initVars]
  | succ k ih =>
    by_cases hk : k < f.items.length
    · rw [varsBefore_succ tsw f rect k _ (List.getElem?_eq_getElem hk)]
      have := (loopBody_y_ge tsw f rect (maxLabelWidth tsw f.items) (varsBefore tsw f rect k)
        f.items[k] hp (lineHeight_pos tsw f rect k)).2
      omega
    · rw [varsBefore_of_length_le tsw f rect k (Nat.le_of_not_lt hk)]
      exact ih

theorem positions_y_ge (tsw : String → Nat) (f : RootContainer) (rect : Rect)
    (hp : 0 ≤ f.itemPadding) (k : Nat) (p : position)
    (hk : (positions tsw f rect)[k]? = some p) : rect.y ≤ p.y := by
  obtain ⟨item, -, rfl⟩ := positions_getElem?_some tsw f rect k p hk
  have h1 := varsBefore_y_ge tsw f rect hp k
  have h2 := (loopBody_y_ge tsw f rect (maxLabelWidth tsw f.items) (varsBefore tsw f rect k)
    item hp (lineHeight_pos tsw f rect k)).1
  omega

theorem Draw_offset_of_focused (tsw : String → Nat) (f : RootContainer) (rect : Rect) (k : Nat)
    (item : FormItem) (hk : f.items[k]? = some item) (hfocus : item.HasFocus = true)
    (honly : ∀ j other, f.items[j]? = some other → other.HasFocus = true → j = k) :
    ∃ p, (positions tsw f rect)[k]? = some p ∧
      (Draw tsw f rect).offset = scrollOffset p rect.y (rect.y + rect.height) := by
  refine ⟨_, positions_getElem? tsw f rect k item hk, ?_⟩
  have hlast := positionLoop_focusedPosition_last tsw f rect (maxLabelWidth tsw f.items)
    f.items (initVars rect) k item hk hfocus (by
      intro j other hj hother
      cases hf : other.HasFocus with
      | false => rfl
      | true =>
        have := honly j other hother hf
        omega)
  show scrollOffset (positionLoop tsw f rect (maxLabelWidth tsw f.items) (initVars rect)
    f.items).2.focusedPosition rect.y (rect.y + rect.height) = _
  rw [hlast]
  rfl

/-- C13: in either orientation with non-negative padding, when exactly one item
has the focus, the rectangle `Draw` assigns to it (its layout rectangle with `y`
reduced by the offset) lies inside the band from `topLimit = rect.y` to
`bottomLimit = rect.y + rect.height` if its height is at most
`bottomLimit - topLimit`; when the item is taller than the band its top is at
`topLimit`. -/
theorem scroll_keeps_focused_visible (tsw : String → Nat) (f : RootContainer) (rect : Rect)
    (hp : 0 ≤ f.itemPadding) (k : Nat) (item : FormItem) (hk : f.items[k]? = some item)
    (hfocus : item.HasFocus = true)
    (honly : ∀ j other, f.items[j]? = some other → other.HasFocus = true → j = k) :
    ∃ p r, (positions tsw f rect)[k]? = some p ∧ (Draw tsw f rect).rects[k]? = some r ∧
      r = ⟨p.x, p.y - (Draw tsw f rect).offset, p.width, p.height⟩ ∧
      (r.height ≤ (rect.y + rect.height) - rect.y →
        rect.y ≤ r.y ∧ r.y + r.height ≤ rect.y + rect.height) ∧
      ((rect.y + rect.height) - rect.y < r.height → r.y = rect.y) := by
  obtain ⟨p, hp1, hoff⟩ := Draw_offset_of_focused tsw f rect k item hk hfocus honly
  have hy := positions_y_ge tsw f rect hp k p hp1
  refine ⟨p, _, hp1, (Draw_rects_getElem? tsw f rect k _).2 ⟨p, hp1, rfl⟩, rfl, ?_, ?_⟩
  · intro hfit
    simp only [] at hfit ⊢
    rw [hoff]
    unfold scrollOffset
    simp only []
    split_ifs <;> constructor <;> omega
  · intro htall
    simp only [] at htall ⊢
    rw [hoff]
    unfold scrollOffset
    simp only []
    split_ifs <;> omega

/-- Witness of `scroll_keeps_focused_visible`: the focused text view "Notes" of
height 5 below "Name", in a rectangle 6 rows high, is scrolled up by 1. -/
theorem scroll_keeps_focused_visible_witness :
    ∃ p r, (positions String.length focusedNotesForm ⟨0, 0, 40, 6⟩)[1]? = some p ∧
      (Draw String.length focusedNotesForm ⟨0, 0, 40, 6⟩).rects[1]? = some r ∧
      r = ⟨p.x, p.y - (Draw String.length focusedNotesForm ⟨0, 0, 40, 6⟩).offset, p.width,
        p.height⟩ ∧
      (r.height ≤ (0 + 6) - 0 → 0 ≤ r.y ∧ r.y + r.height ≤ 0 + 6) ∧
      ((0 + 6) - 0 < r.height → r.y = 0) :=
  scroll_keeps_focused_visible String.length focusedNotesForm ⟨0, 0, 40, 6⟩ (by decide) 1
    { newTextView "Notes" 0 5 with HasFocus := true } rfl rfl (by
      intro j other hother hf
      match j with
      | 0 =>
        have h0 : some nameItem = some other := hother
        cases h0
        exact Bool.noConfusion hf
      | 1 => rfl
      | j + 2 =>
        have h2 : (none : Option FormItem) = some other := hother
        cases h2)

/-! ## Focus: delegation -/

theorem focusLoop_spec (focusedElement : Int) (items : List FormItem) :
    ∀ index : Nat,
      (focusLoop focusedElement index items).1 = List.range' index items.length ∧
        (focusLoop focusedElement index items).2 =
          (if (index : Int) ≤ focusedElement ∧ focusedElement < index + items.length then
            [focusedElement.toNat]
          else []) := by
  induction items with
  | nil =>
    intro index
    refine ⟨rfl, ?_⟩
    simp only [focusLoop, List.length_nil]
    rw [if_neg (by omega)]
  | cons a rest ih =>
    intro index
    obtain ⟨h1, h2⟩ := ih (index + 1)
    refine ⟨by simp [focusLoop, h1, List.range'], ?_⟩
    simp only [focusLoop, h2, List.length_cons]
    by_cases heq : focusedElement = index
    · rw [if_pos heq, if_neg (by push_cast; omega), if_pos (by push_cast; omega)]
      rw [heq]
      simp
    · rw [if_neg heq]
      by_cases hc : ((index + 1 : Nat) : Int) ≤ focusedElement ∧
          focusedElement < ((index + 1 : Nat) : Int) + rest.length
      · rw [if_pos hc, if_pos (by push_cast at hc ⊢; omega)]
      · rw [if_neg hc, if_neg (by push_cast at hc ⊢; omega)]

theorem Focus_form (f : RootContainer) :
    (Focus f).form =
      { f with
        focusedElement :=
          if f.focusedElement < 0 ∨ f.focusedElement ≥ f.items.length then 0
          else f.focusedElement } := by
  unfold Focus
  simp only []
  split_ifs <;> rfl

theorem Focus_form_items (f : RootContainer) :
    (Focus f).form.items = f.items ∧ (Focus f).form.lastFinishedKey = f.lastFinishedKey ∧
      (Focus f).form.cancel = f.cancel := by
  rw [Focus_form]
  exact ⟨rfl, rfl, rfl⟩

theorem Focus_focusedElement (f : RootContainer) :
    (Focus f).form.focusedElement =
      (if f.focusedElement < 0 ∨ f.focusedElement ≥ f.items.length then 0
        else f.focusedElement) := by
  rw [Focus_form]

theorem Focus_loop (f : RootContainer) :
    (Focus f).registered = List.range f.items.length ∧
      (Focus f).delegated =
        (if 0 ≤ (Focus f).form.focusedElement ∧
            (Focus f).form.focusedElement < f.items.length then
          [(Focus f).form.focusedElement.toNat]
        else []) ∧
      (Focus f).boxFocused = !(!(Focus f).delegated.isEmpty) ∧ (Focus f).cancelCalls = 0 := by
  have hitems := (Focus_form_items f).1
  have hspec := focusLoop_spec (Focus f).form.focusedElement (Focus f).form.items 0
  rw [hitems] at hspec
  refine ⟨?_, ?_, rfl, rfl⟩
  · have h1 : (Focus f).registered =
        (focusLoop (Focus f).form.focusedElement 0 (Focus f).form.items).1 := rfl
    rw [h1, hitems, hspec.1, List.range_eq_range']
  · have h2 : (Focus f).delegated =
        (focusLoop (Focus f).form.focusedElement 0 (Focus f).form.items).2 := rfl
    rw [h2, hitems, hspec.2]
    simp

theorem Focus_delegation (f : RootContainer) :
    (Focus f).form =
        { f with
          focusedElement :=
            if f.focusedElement < 0 ∨ f.focusedElement ≥ f.items.length then 0
            else f.focusedElement } ∧
      (Focus f).registered = List.range f.items.length ∧
      (Focus f).cancelCalls = 0 ∧
      ((f.items = [] ∧ (Focus f).form.focusedElement = 0 ∧ (Focus f).delegated = [] ∧
          (Focus f).boxFocused = true) ∨
        ∃ i : Nat, i < f.items.length ∧ (Focus f).form.focusedElement = i ∧
          (Focus f).delegated = [i] ∧ (Focus f).boxFocused = false) := by
  obtain ⟨hreg, hdel, hbox, hcancel⟩ := Focus_loop f
  have hfe := Focus_focusedElement f
  refine ⟨Focus_form f, hreg, hcancel, ?_⟩
  by_cases hn : f.items.length = 0
  · left
    have hnil : f.items = [] := List.length_eq_zero.1 hn
    have hfe0 : (Focus f).form.focusedElement = 0 := by
      rw [hfe]
      split_ifs with hc
      · rfl
      · omega
    have hdel0 : (Focus f).delegated = [] := by
      rw [hdel, if_neg (by omega)]
    exact ⟨hnil, hfe0, hdel0, by rw [hbox, hdel0]; rfl⟩
  · right
    have hrange : 0 ≤ (Focus f).form.focusedElement ∧
        (Focus f).form.focusedElement < f.items.length := by
      rw [hfe]
      split_ifs with hc <;> omega
    have hdel1 : (Focus f).delegated = [(Focus f).form.focusedElement.toNat] := by
      rw [hdel, if_pos hrange]
    refine ⟨(Focus f).form.focusedElement.toNat, by omega, by omega, hdel1, ?_⟩
    rw [hbox, hdel1]
    rfl

/-! ## The finish handler -/

theorem handler_forward (fuel : Nat) (f : RootContainer) :
    handler (fuel + 1) f KeyTab =
      some (Focus { f with lastFinishedKey := KeyTab, focusedElement := f.focusedElement + 1 }) := by
  simp [handler, KeyTab]

theorem handler_backward (fuel : Nat) (f : RootContainer) :
    handler (fuel + 1) f KeyBacktab =
      some (Focus { f with
        lastFinishedKey := KeyBacktab
        focusedElement :=
          if f.focusedElement - 1 < 0 then (f.items.length : Int) - 1
          else f.focusedElement - 1 }) := by
  simp only [handler, KeyBacktab, KeyTab, KeyEnter]
  simp only [show ((278 : Int) ≥ 0) = True from by simp, if_true,
    show ¬ ((278 : Int) = 9 ∨ (278 : Int) = 13) from by decide, if_false]
  split_ifs <;> rfl

theorem handler_escape (fuel : Nat) (f : RootContainer) :
    handler (fuel + 1) f KeyEscape =
      (if f.cancel then
        some { noFocusChange { f with lastFinishedKey := KeyEscape } with cancelCalls := 1 }
      else some (Focus { f with lastFinishedKey := KeyEscape, focusedElement := 0 })) := by
  simp only [handler, KeyEscape, KeyBacktab, KeyTab, KeyEnter]
  simp only [show ((27 : Int) ≥ 0) = True from by simp, if_true,
    show ¬ ((27 : Int) = 9 ∨ (27 : Int) = 13) from by decide,
    show ¬ ((27 : Int) = 278) from by decide, if_false]

theorem handler_nonneg (fuel : Nat) (f : RootContainer) (key : Int) (hkey : 0 ≤ key) :
    handler (fuel + 1) f key = handler 1 f key ∧
      ∃ r, handler 1 f key = some r ∧ r.form.lastFinishedKey = key ∧
        r.form.items = f.items := by
  simp only [handler]
  rw [if_pos hkey]
  simp only []
  split_ifs with h1 h2 h3 h4 h5
  · exact ⟨rfl, _, rfl, (Focus_form_items _).2.1, (Focus_form_items _).1⟩
  · exact ⟨rfl, _, rfl, (Focus_form_items _).2.1, (Focus_form_items _).1⟩
  · exact ⟨rfl, _, rfl, (Focus_form_items _).2.1, (Focus_form_items _).1⟩
  · exact ⟨rfl, _, rfl, rfl, rfl⟩
  · exact ⟨rfl, _, rfl, (Focus_form_items _).2.1, (Focus_form_items _).1⟩
  · omega
  · exact ⟨rfl, _, rfl, rfl, rfl⟩

theorem handler_negative (fuel : Nat) (f : RootContainer) (key : Int) (hkey : key < 0) :
    handler (fuel + 2) f key =
      (if f.lastFinishedKey ≥ 0 then handler 1 f f.lastFinishedKey
        else some (noFocusChange f)) := by
  have h1 : ¬ (key = KeyTab ∨ key = KeyEnter) := by
    unfold KeyTab KeyEnter
    omega
  have h2 : ¬ key = KeyBacktab := by
    unfold KeyBacktab
    omega
  have h3 : ¬ key = KeyEscape := by
    unfold KeyEscape
    omega
  rw [handler]
  simp only [if_neg (show ¬ key ≥ 0 from by omega), if_neg h1, if_neg h2, if_neg h3]
  split_ifs with h4 h5 h6
  · exact (handler_nonneg fuel f f.lastFinishedKey h5).1
  · exact absurd h4.2 h5
  · exact absurd ⟨hkey, h6⟩ h4
  · rfl

theorem handler_fuel (fuel : Nat) (f : RootContainer) (key : Int) :
    handler (fuel + 2) f key = handler 2 f key ∧ ∃ r, handler 2 f key = some r := by
  by_cases hkey : 0 ≤ key
  · obtain ⟨h1, r, hr, -⟩ := handler_nonneg (fuel + 1) f key hkey
    obtain ⟨h2, -⟩ := handler_nonneg 1 f key hkey
    exact ⟨by rw [h1, h2], r, by rw [h2, hr]⟩
  · rw [handler_negative fuel f key (by omega), handler_negative 0 f key (by omega)]
    refine ⟨rfl, ?_⟩
    split_ifs with h
    · obtain ⟨-, r, hr, -⟩ := handler_nonneg 0 f f.lastFinishedKey h
      exact ⟨r, hr⟩
    · exact ⟨_, rfl⟩

theorem finishSignal_forward (f : RootContainer) :
    (finishSignal f KeyTab).items = f.items ∧
      (finishSignal f KeyTab).focusedElement =
        (if f.focusedElement + 1 < 0 ∨ f.focusedElement + 1 ≥ f.items.length then 0
          else f.focusedElement + 1) := by
  unfold finishSignal
  rw [handler_forward 1 f]
  simp only []
  exact ⟨(Focus_form_items _).1, Focus_focusedElement _⟩

theorem forward_iterate (f : RootContainer) (hn : 0 < f.items.length)
    (h0 : 0 ≤ f.focusedElement) (hlt : f.focusedElement < f.items.length) (m : Nat) :
    ((fun g => finishSignal g KeyTab)^[m] f).items = f.items ∧
      ((fun g => finishSignal g KeyTab)^[m] f).focusedElement =
        (f.focusedElement + m) % f.items.length := by
  induction m with
  | zero =>
    refine ⟨rfl, ?_⟩
    simp only [Function.iterate_zero, id_eq, Nat.cast_zero, add_zero]
    rw [Int.emod_eq_of_lt h0 hlt]
  | succ m ih =>
    obtain ⟨hitems, hfe⟩ := ih
    rw [Function.iterate_succ_apply']
    obtain ⟨h1, h2⟩ := finishSignal_forward ((fun g => finishSignal g KeyTab)^[m] f)
    refine ⟨by rw [h1, hitems], ?_⟩
    have hnpos : (0 : Int) < f.items.length := by omega
    have hc0 := Int.emod_nonneg (f.focusedElement + m) (ne_of_gt hnpos)
    have hc1 := Int.emod_lt_of_pos (f.focusedElement + m) hnpos
    have hstep : (f.focusedElement + ((m + 1 : Nat) : Int)) % (f.items.length : Int) =
        ((f.focusedElement + m) % (f.items.length : Int) + 1) % (f.items.length : Int) := by
      rw [Int.emod_add_emod]
      push_cast
      rw [add_assoc]
    rw [hitems, hfe] at h2
    rw [h2, hstep]
    by_cases hwrap : (f.focusedElement + m) % (f.items.length : Int) + 1 ≥ f.items.length
    · have heq : (f.focusedElement + m) % (f.items.length : Int) + 1 = f.items.length := by
        omega
      rw [if_pos (Or.inr hwrap), heq, Int.emod_self]
    · have hmod : ((f.focusedElement + m) % (f.items.length : Int) + 1) %
          (f.items.length : Int) = (f.focusedElement + m) % (f.items.length : Int) + 1 :=
        Int.emod_eq_of_lt (by omega) (by omega)
      rw [if_neg (by omega), hmod]

/-- C14 (amended): for a container with `n ≥ 1` items and a starting focused
index in `[0, n)`, the index after `m` forward (Tab) finish transitions is
`(start + m) mod n`: it returns to its starting value after exactly `n`
applications and not earlier. The cycle does not pass through the index `n`:
`Focus` resets it to 0, so after at least one forward transition from any
starting index, `n` included, the index lies in `[0, n)`. -/
theorem forward_cycle (f : RootContainer) (hn : 0 < f.items.length)
    (h0 : 0 ≤ f.focusedElement) :
    (f.focusedElement < f.items.length →
        (∀ m : Nat, ((fun g => finishSignal g KeyTab)^[m] f).focusedElement =
          (f.focusedElement + m) % f.items.length) ∧
        ((fun g => finishSignal g KeyTab)^[f.items.length] f).focusedElement =
          f.focusedElement ∧
        ∀ m : Nat, 0 < m → m < f.items.length →
          ((fun g => finishSignal g KeyTab)^[m] f).focusedElement ≠ f.focusedElement) ∧
      ∀ m : Nat, 0 ≤ ((fun g => finishSignal g KeyTab)^[m + 1] f).focusedElement ∧
        ((fun g => finishSignal g KeyTab)^[m + 1] f).focusedElement < f.items.length := by
  have hnpos : (0 : Int) < f.items.length := by omega
  constructor
  · intro hlt
    refine ⟨fun m => (forward_iterate f hn h0 hlt m).2, ?_, ?_⟩
    · rw [(forward_iterate f hn h0 hlt f.items.length).2, Int.add_emod_self,
        Int.emod_eq_of_lt h0 hlt]
    · intro m hm0 hmn
      rw [(forward_iterate f hn h0 hlt m).2]
      by_cases hsmall : f.focusedElement + m < f.items.length
      · rw [Int.emod_eq_of_lt (by omega) hsmall]
        omega
      · have hsplit : f.focusedElement + (m : Int) =
            (f.focusedElement + m - f.items.length) + 1 * (f.items.length : Int) := by
          omega
        rw [hsplit, Int.add_mul_emod_self, Int.emod_eq_of_lt (by omega) (by omega)]
        omega
  · intro m
    rw [Function.iterate_succ_apply]
    obtain ⟨h1, h2⟩ := finishSignal_forward f
    have hlt1 : (finishSignal f KeyTab).focusedElement <
        ((finishSignal f KeyTab).items.length : Int) := by
      rw [h2, h1]
      split_ifs <;> omega
    have h01 : 0 ≤ (finishSignal f KeyTab).focusedElement := by
      rw [h2]
      split_ifs <;> omega
    have hn1 : 0 < (finishSignal f KeyTab).items.length := by
      rw [h1]
      exact hn
    obtain ⟨-, hfe⟩ := forward_iterate (finishSignal f KeyTab) hn1 h01 hlt1 m
    rw [hfe, h1]
    exact ⟨Int.emod_nonneg _ (ne_of_gt hnpos), Int.emod_lt_of_pos _ hnpos⟩

/-- Witness of `forward_cycle`: three items and starting index 1. -/
theorem forward_cycle_witness :
    ((fun g => finishSignal g KeyTab)^[3] (threeItemForm 1)).focusedElement = 1 ∧
      ((fun g => finishSignal g KeyTab)^[2] (threeItemForm 1)).focusedElement ≠ 1 :=
  ⟨((forward_cycle (threeItemForm 1) (by decide) (by decide)).1 (by decide)).2.1,
    ((forward_cycle (threeItemForm 1) (by decide) (by decide)).1
      (by decide)).2.2 2 (by decide) (by decide)⟩

/-- C14 fails as stated: with `n = 3` items and starting index 0 the index is
back at 0 after 3 forward transitions, not after `n + 1 = 4`, where it is 1;
the index never takes the value 3 on the way. -/
theorem cycle_totality_counterexample :
    (threeItemForm 0).items.length = 3 ∧ (threeItemForm 0).focusedElement = 0 ∧
      ((fun g => finishSignal g KeyTab)^[1] (threeItemForm 0)).focusedElement = 1 ∧
      ((fun g => finishSignal g KeyTab)^[2] (threeItemForm 0)).focusedElement = 2 ∧
      ((fun g => finishSignal g KeyTab)^[3] (threeItemForm 0)).focusedElement = 0 ∧
      ((fun g => finishSignal g KeyTab)^[4] (threeItemForm 0)).focusedElement = 1 ∧
      ¬ (((fun g => finishSignal g KeyTab)^[3 + 1] (threeItemForm 0)).focusedElement =
          (threeItemForm 0).focusedElement ∧
        ∀ m : Nat, 0 < m → m < 3 + 1 →
          ((fun g => finishSignal g KeyTab)^[m] (threeItemForm 0)).focusedElement ≠
            (threeItemForm 0).focusedElement) := by
  refine ⟨rfl, rfl, rfl, rfl, rfl, rfl, ?_⟩
  intro h
  exact absurd h.1 (by decide)

/-- C18: a finish signal carrying a negative key leaves the last key unchanged
and has exactly the effect of a finish signal carrying the recorded last key;
on a container whose last key is still the initial Tab, as `NewRootContainer`
sets it, it acts as the forward transition; every non-negative key of a finish
signal is recorded as the last key. The handler calls itself at most once:
nesting depth 2 is enough for a result, and a larger bound gives the same
result. -/
theorem replay_last_key (f : RootContainer) (key : Int) :
    (key < 0 →
        handler 2 f key = handler 2 f f.lastFinishedKey ∧
        ∃ r, handler 2 f key = some r ∧ r.form.lastFinishedKey = f.lastFinishedKey) ∧
      (key < 0 → f.lastFinishedKey = KeyTab →
        handler 2 f key =
          some (Focus { f with focusedElement := f.focusedElement + 1 })) ∧
      NewRootContainer.lastFinishedKey = KeyTab ∧
      (0 ≤ key → ∃ r, handler 2 f key = some r ∧ r.form.lastFinishedKey = key) ∧
      ∀ fuel, handler (fuel + 2) f key = handler 2 f key := by
  refine ⟨?_, ?_, rfl, ?_, fun fuel => (handler_fuel fuel f key).1⟩
  · intro hkey
    have hneg := handler_negative 0 f key hkey
    simp only [Nat.zero_add] at hneg
    by_cases hlast : f.lastFinishedKey ≥ 0
    · rw [if_pos hlast] at hneg
      obtain ⟨h1, r, hr, hk, -⟩ := handler_nonneg 1 f f.lastFinishedKey hlast
      exact ⟨by rw [hneg, h1], r, by rw [hneg, hr], hk⟩
    · rw [if_neg hlast] at hneg
      have hneg2 := handler_negative 0 f f.lastFinishedKey (by omega)
      simp only [Nat.zero_add] at hneg2
      rw [if_neg hlast] at hneg2
      exact ⟨by rw [hneg, hneg2], _, hneg, rfl⟩
  · intro hkey hlast
    have hneg := handler_negative 0 f key hkey
    simp only [Nat.zero_add] at hneg
    rw [if_pos (by rw [hlast]; decide), hlast, handler_forward 0 f] at hneg
    rw [hneg]
    have hf : { f with lastFinishedKey := KeyTab, focusedElement := f.focusedElement + 1 } =
        { f with focusedElement := f.focusedElement + 1 } := by
      rw [← hlast]
    rw [hf]
  · intro hkey
    obtain ⟨h1, r, hr, hk, -⟩ := handler_nonneg 1 f key hkey
    exact ⟨r, by rw [h1, hr], hk⟩

/-- Witness of `replay_last_key`: the key -1 on a form with three items and
focused index 0, whose last key is Tab. -/
theorem replay_last_key_witness :
    handler 2 (threeItemForm 0) (-1) = handler 2 (threeItemForm 0) KeyTab ∧
      ∃ r, handler 2 (threeItemForm 0) (-1) = some r ∧ r.form.lastFinishedKey = KeyTab :=
  (replay_last_key (threeItemForm 0) (-1)).1 (by decide)

/-! ## The mouse handler -/

theorem mouseLoop_leftDown (itemConsumes : Nat → Bool) (items : List FormItem) :
    ∀ index : Nat,
      (∀ k ∈ (mouseLoop MouseAction.MouseLeftDown itemConsumes index items).1,
          ∃ j item, k = index + j ∧ items[j]? = some item ∧ item.isTextView = false) ∧
        ((∀ j item, items[j]? = some item → item.isTextView = false →
            itemConsumes (index + j) = false) →
          (mouseLoop MouseAction.MouseLeftDown itemConsumes index items).2 = false) := by
  induction items with
  | nil =>
    intro index
    simp [mouseLoop]
  | cons a rest ih =>
    intro index
    obtain ⟨ih1, ih2⟩ := ih (index + 1)
    have hlift : ∀ k, (∃ j item, k = index + 1 + j ∧ rest[j]? = some item ∧
        item.isTextView = false) →
        ∃ j item, k = index + j ∧ (a :: rest)[j]? = some item ∧ item.isTextView = false := by
      rintro k ⟨j, item, hk, hitem, htv⟩
      exact ⟨j + 1, item, by omega, by simpa using hitem, htv⟩
    have hrest : (∀ j item, (a :: rest)[j]? = some item → item.isTextView = false →
        itemConsumes (index + j) = false) →
        ∀ j item, rest[j]? = some item → item.isTextView = false →
          itemConsumes (index + 1 + j) = false := by
      intro h j item hitem htv
      have := h (j + 1) item (by simpa using hitem) htv
      rw [← this]
      congr 1
      omega
    cases htv : a.isTextView with
    | true =>
      simp only [mouseLoop, htv, and_self, if_true]
      exact ⟨fun k hk => hlift k (ih1 k hk), fun h => ih2 (hrest h)⟩
    | false =>
      simp only [mouseLoop, htv, Bool.false_eq_true, false_and, if_false]
      cases hcons : itemConsumes index with
      | true =>
        simp only [if_true]
        constructor
        · intro k hk
          rw [List.mem_singleton] at hk
          exact ⟨0, a, by omega, by simp, htv⟩
        · intro h
          have := h 0 a (by simp) htv
          rw [Nat.add_zero, hcons] at this
          exact Bool.noConfusion this
      | false =>
        simp only [Bool.false_eq_true, if_false]
        constructor
        · intro k hk
          rcases List.mem_cons.1 hk with hk | hk
          · exact ⟨0, a, by omega, by simp, htv⟩
          · exact hlift k (ih1 k hk)
        · intro h
          exact ih2 (hrest h)

/-- C19 (amended): on a primary mouse press (`MouseLeftDown`) the mouse handler
never calls the mouse handler of a TextView item. If no other item consumes
the press: outside the container's rectangle nothing is consumed and the
focused index is unchanged; inside it `Focus` runs, which resets a focused
index outside `[0, n)` to 0, and the focused index then becomes the index of
the first item that reports focus, if any. So the focused index is unchanged
when no other item consumes the press, the index was in `[0, n)` and the item
reporting focus afterwards, if any, is the one at the focused index. -/
theorem mouse_press_textview (f : RootContainer) (inRect : Bool) (itemConsumes : Nat → Bool)
    (itemsAfter : List FormItem) :
    (∀ k item, f.items[k]? = some item → item.isTextView = true →
        k ∉ (MouseHandler f MouseAction.MouseLeftDown inRect itemConsumes itemsAfter).offered) ∧
      ((∀ k item, f.items[k]? = some item → item.isTextView = false →
          itemConsumes k = false) →
        (MouseHandler f MouseAction.MouseLeftDown inRect itemConsumes itemsAfter).consumed =
            inRect ∧
          (inRect = false →
            (MouseHandler f MouseAction.MouseLeftDown inRect itemConsumes
                itemsAfter).form.focusedElement = f.focusedElement ∧
              (MouseHandler f MouseAction.MouseLeftDown inRect itemConsumes
                itemsAfter).focus = none) ∧
          (inRect = true →
            (MouseHandler f MouseAction.MouseLeftDown inRect itemConsumes
                itemsAfter).focus = some (Focus f) ∧
              (MouseHandler f MouseAction.MouseLeftDown inRect itemConsumes
                itemsAfter).form.focusedElement =
                (if focusIndexLoop itemsAfter 0 ≥ 0 then focusIndexLoop itemsAfter 0
                  else if f.focusedElement < 0 ∨ f.focusedElement ≥ f.items.length then 0
                  else f.focusedElement)) ∧
          (0 ≤ f.focusedElement → f.focusedElement < f.items.length →
            (focusIndexLoop itemsAfter 0 < 0 ∨ focusIndexLoop itemsAfter 0 = f.focusedElement) →
            (MouseHandler f MouseAction.MouseLeftDown inRect itemConsumes
              itemsAfter).form.focusedElement = f.focusedElement)) := by
  obtain ⟨hoff, hnone⟩ := mouseLoop_leftDown itemConsumes f.items 0
  constructor
  · intro k item hitem htv hmem
    obtain ⟨j, item', hk, hitem', htv'⟩ := hoff k hmem
    have hkj : k = j := by omega
    subst hkj
    rw [hitem] at hitem'
    have := Option.some.inj hitem'
    subst this
    rw [htv] at htv'
    exact Bool.noConfusion htv'
  · intro hno
    have hloop : (mouseLoop MouseAction.MouseLeftDown itemConsumes 0 f.items).2 = false :=
      hnone (fun j item hitem htv => by rw [Nat.zero_add]; exact hno j item hitem htv)
    have hfe := Focus_focusedElement f
    cases inRect with
    | false =>
      simp only [MouseHandler, hloop]
      simp
    | true =>
      have hform : (MouseHandler f MouseAction.MouseLeftDown true itemConsumes
          itemsAfter).form.focusedElement =
          (if focusIndexLoop itemsAfter 0 ≥ 0 then focusIndexLoop itemsAfter 0
            else if f.focusedElement < 0 ∨ f.focusedElement ≥ f.items.length then 0
            else f.focusedElement) := by
        simp only [MouseHandler, hloop]
        simp only [Bool.not_false, decide_True, Bool.and_self, Bool.or_true, if_true, true_and]
        split_ifs with h1 h2 <;> first | rfl | exact hfe | (rw [hfe]; simp [h2])
      refine ⟨?_, ?_, ?_, ?_⟩
      · simp [MouseHandler, hloop]
      · intro h
        exact Bool.noConfusion h
      · intro _
        refine ⟨?_, hform⟩
        simp [MouseHandler, hloop]
      · intro h0 hlt hafter
        rw [hform]
        split_ifs with h1 h2
        · omega
        · omega
        · rfl

/-- C19 fails as stated. First, a container whose only item is a text view and
whose focused index is 1 after `SetFocus(1)`: a primary press on the text view
is consumed by no item, `Focus` runs and resets the index to 0, whether or not
the text view reports focus afterwards. Second, a container with an item and a
text view and focused index 1: when the handler of the other item consumes the
press and that item has the focus afterwards, the index becomes 0. -/
theorem readonly_exclusion_counterexample :
    textViewForm.focusedElement = 1 ∧
      textViewForm.items = [newTextView "Notes" 0 5] ∧
      (MouseHandler textViewForm MouseAction.MouseLeftDown true (fun _ => false)
        [newTextView "Notes" 0 5]).form.focusedElement = 0 ∧
      (MouseHandler textViewForm MouseAction.MouseLeftDown true (fun _ => false)
        [{ newTextView "Notes" 0 5 with HasFocus := true }]).form.focusedElement = 0 ∧
      itemAndNotesForm.focusedElement = 1 ∧
      itemAndNotesForm.items = [labelItem, newTextView "Notes" 0 5] ∧
      (MouseHandler itemAndNotesForm MouseAction.MouseLeftDown true (fun _ => true)
        [{ labelItem with HasFocus := true }, newTextView "Notes" 0 5]).form.focusedElement =
          0 ∧
      ¬ ((MouseHandler textViewForm MouseAction.MouseLeftDown true (fun _ => false)
        [newTextView "Notes" 0 5]).form.focusedElement = textViewForm.focusedElement) := by
  refine ⟨rfl, rfl, rfl, rfl, rfl, rfl, rfl, ?_⟩
  decide

/-! ## The list operations and the last key -/

theorem applyOp_lastFinishedKey (f g : RootContainer) (o : Op) (h : applyOp f o = some g) :
    g.lastFinishedKey = f.lastFinishedKey := by
  cases o with
  | addFormItem item =>
    simp only [applyOp, Option.some.injEq] at h
    subst h
    rfl
  | addTextView label text fieldWidth fieldHeight dynamicColors scrollable =>
    simp only [applyOp, Option.some.injEq] at h
    subst h
    rfl
  | setFocus index =>
    simp only [applyOp, Option.some.injEq] at h
    subst h
    unfold SetFocus
    split_ifs <;> rfl
  | removeFormItem index =>
    simp only [applyOp] at h
    obtain ⟨-, -, rfl⟩ := RemoveFormItem_eq_some f g index h
    rfl

/-! ## Horizontal orientation: the first item -/

/-- C23: in horizontal orientation the first item's `x` is the left edge of the
available rectangle; its `y` is the top of the rectangle when
`rect.x + (label width of item 0) + 2 < rect.x + rect.width`, and the top plus 2
otherwise: the wrap test applies to the first item too and then leaves an empty
line above it. -/
theorem first_item_placement (tsw : String → Nat) (f : RootContainer) (rect : Rect)
    (hh : f.horizontal = true) (item : FormItem) (h0 : f.items[0]? = some item) :
    ∃ p, (positions tsw f rect)[0]? = some p ∧ p.x = rect.x ∧
      (rect.x + (tsw item.GetLabel : Int) + 2 < rect.x + rect.width → p.y = rect.y) ∧
      (¬ rect.x + (tsw item.GetLabel : Int) + 2 < rect.x + rect.width → p.y = rect.y + 2) := by
  have hq := positions_getElem? tsw f rect 0 item h0
  obtain ⟨-, -, -, -, hwrap, hstay⟩ := horizontal_step_facts tsw f rect hh 0 item _ h0 hq
  have hv : (varsBefore tsw f rect 0).x = rect.x ∧ (varsBefore tsw f rect 0).y = rect.y ∧
      (varsBefore tsw f rect 0).lineHeight = 1 := by
    simp [varsBefore_zero, initVars]
  obtain ⟨hvx, hvy, hvl⟩ := hv
  rw [hvx, hvy, hvl] at hwrap
  rw [hvx, hvy] at hstay
  refine ⟨_, hq, ?_, ?_, ?_⟩
  · by_cases hc : rect.x + ((tsw item.GetLabel : Int) + 1) + 1 ≥ rect.x + rect.width
    · exact (hwrap hc).1
    · exact (hstay (by omega)).1
  · intro hfit
    exact (hstay (by omega)).2.1
  · intro hnofit
    rw [(hwrap (by omega)).2.1]
    omega

/-- Witness of `first_item_placement`: one item labelled "Item" in a rectangle
of width 6, too narrow for the label and two more cells. -/
theorem first_item_placement_witness :
    ∃ p, (positions String.length (horizontalForm 1 [labelItem]) ⟨3, 7, 6, 10⟩)[0]? = some p ∧
      p.x = 3 ∧ p.y = 7 + 2 := by
  obtain ⟨p, hp, hx, -, hy⟩ :=
    first_item_placement String.length (horizontalForm 1 [labelItem]) ⟨3, 7, 6, 10⟩ rfl
      labelItem rfl
  exact ⟨p, hp, hx, hy (by decide)⟩

/-! ## Focus with `delegate` running: the loop -/

theorem focusLoopRun_accept (reenter : FocusResult → Option FocusResult) (hb : Nat → Bool)
    (items : List FormItem) :
    ∀ (index : Nat) (b : Bool) (s : FocusResult),
      (∀ k : Nat, (k : Int) = s.form.focusedElement → hb k = false) →
      focusLoopRun reenter hb index items b s =
        some ({ s with
            registered := s.registered ++ List.range' index items.length
            delegated := s.delegated ++
              (if (index : Int) ≤ s.form.focusedElement ∧
                  s.form.focusedElement < index + items.length then
                [s.form.focusedElement.toNat]
              else []) },
          b || decide ((index : Int) ≤ s.form.focusedElement ∧
            s.form.focusedElement < index + items.length)) := by
  induction items with
  | nil =>
    intro index b s _
    have hc : ¬ ((index : Int) ≤ s.form.focusedElement ∧
        s.form.focusedElement < index + ([] : List FormItem).length) := by
      simp only [List.length_nil]
      omega
    simp only [focusLoopRun, if_neg hc, decide_eq_false hc]
    simp
  | cons a rest ih =>
    intro index b s h
    by_cases heq : s.form.focusedElement = index
    · have hacc : hb index = false := h index heq.symm
      have hin : ((index : Int) ≤ s.form.focusedElement ∧
          s.form.focusedElement < index + (a :: rest).length) := by
        simp only [List.length_cons]
        push_cast
        omega
      have hout : ¬ (((index + 1 : Nat) : Int) ≤ s.form.focusedElement ∧
          s.form.focusedElement < ((index + 1 : Nat) : Int) + rest.length) := by
        push_cast
        omega
      have hnat : s.form.focusedElement.toNat = index := by
        rw [heq]
        exact Int.toNat_ofNat index
      simp only [focusLoopRun]
      rw [if_pos heq]
      simp only [hacc, Bool.false_eq_true, if_false]
      rw [ih (index + 1) true
        ⟨s.form, s.registered ++ [index], s.delegated ++ [index], s.boxFocused, s.cancelCalls⟩ h]
      simp only []
      rw [if_neg hout, if_pos hin, decide_eq_true hin, hnat]
      simp [List.range'_succ]
    · have hiff : (((index + 1 : Nat) : Int) ≤ s.form.focusedElement ∧
          s.form.focusedElement < ((index + 1 : Nat) : Int) + rest.length) ↔
          ((index : Int) ≤ s.form.focusedElement ∧
            s.form.focusedElement < index + (a :: rest).length) := by
        simp only [List.length_cons]
        push_cast
        omega
      simp only [focusLoopRun]
      rw [if_neg heq]
      rw [ih (index + 1) b
        ⟨s.form, s.registered ++ [index], s.delegated, s.boxFocused, s.cancelCalls⟩ h]
      simp only [hiff]
      simp [List.range'_succ]

theorem focusLoopRun_handBack (reenter : FocusResult → Option FocusResult) (hb : Nat → Bool)
    (items : List FormItem) :
    ∀ (index : Nat) (b : Bool) (s : FocusResult) (c : Nat), (c : Int) = s.form.focusedElement →
      index ≤ c → c < index + items.length → hb c = true →
      focusLoopRun reenter hb index items b s =
        match reenter ⟨s.form, s.registered ++ List.range' index (c - index + 1),
            s.delegated ++ [c], s.boxFocused, s.cancelCalls⟩ with
        | none => none
        | some t => focusLoopRun reenter hb (c + 1) (items.drop (c - index + 1)) true t := by
  induction items with
  | nil =>
    intro index b s c _ h1 h2 _
    simp only [List.length_nil] at h2
    omega
  | cons a rest ih =>
    intro index b s c hc h1 h2 hhb
    by_cases heq : index = c
    · subst heq
      simp only [focusLoopRun]
      rw [if_pos hc.symm]
      simp only [hhb, if_true, Nat.sub_self, Nat.zero_add, List.range'_one, List.drop_succ_cons,
        List.drop_zero]
    · have hlt : index + 1 ≤ c := by omega
      have hne : ¬ s.form.focusedElement = (index : Int) := by
        rw [← hc]
        omega
      simp only [focusLoopRun]
      rw [if_neg hne]
      rw [ih (index + 1) b ⟨s.form, s.registered ++ [index], s.delegated, s.boxFocused,
        s.cancelCalls⟩ c hc hlt (by simp only [List.length_cons] at h2; omega) hhb]
      have hsub : c - index + 1 = (c - (index + 1) + 1) + 1 := by omega
      have hreg : (s.registered ++ [index]) ++ List.range' (index + 1) (c - (index + 1) + 1) =
          s.registered ++ List.range' index (c - index + 1) := by
        rw [hsub, List.range'_succ index, List.append_assoc, List.singleton_append]
      have hdrop : List.drop (c - index + 1) (a :: rest) =
          List.drop (c - (index + 1) + 1) rest := by
        rw [hsub, List.drop_succ_cons]
      simp only []
      rw [hreg, hdrop]

theorem normalIndex_range (f : RootContainer) (hn : 0 < f.items.length) :
    0 ≤ normalIndex f ∧ normalIndex f < f.items.length := by
  unfold normalIndex
  split_ifs <;> omega

theorem focusWith_eq (reenter : FocusResult → Option FocusResult) (hb : Nat → Bool)
    (s : FocusResult) :
    focusWith reenter hb s =
      match focusLoopRun reenter hb 0 s.form.items false
          ⟨{ s.form with focusedElement := normalIndex s.form }, s.registered, s.delegated,
            s.boxFocused, s.cancelCalls⟩ with
      | none => none
      | some (t, itemFocused) => some (if itemFocused then t else { t with boxFocused := true }) := by
  unfold focusWith normalIndex
  split_ifs <;> rfl

theorem focusWith_accept (reenter : FocusResult → Option FocusResult) (hb : Nat → Bool)
    (s : FocusResult) (hn : 0 < s.form.items.length)
    (h : ∀ k : Nat, (k : Int) = normalIndex s.form → hb k = false) :
    focusWith reenter hb s =
      some ⟨{ s.form with focusedElement := normalIndex s.form },
        s.registered ++ List.range' 0 s.form.items.length,
        s.delegated ++ [(normalIndex s.form).toNat], s.boxFocused, s.cancelCalls⟩ := by
  obtain ⟨h0, h1⟩ := normalIndex_range s.form hn
  rw [focusWith_eq, focusLoopRun_accept reenter hb s.form.items 0 false _ h]
  have hin : ((0 : Nat) : Int) ≤ normalIndex s.form ∧
      normalIndex s.form < ((0 : Nat) : Int) + s.form.items.length := by
    push_cast
    omega
  simp only []
  rw [if_pos hin, decide_eq_true hin]
  rfl

theorem focusWith_empty (reenter : FocusResult → Option FocusResult) (hb : Nat → Bool)
    (s : FocusResult) (hn : s.form.items = []) :
    focusWith reenter hb s =
      some ⟨{ s.form with focusedElement := 0 }, s.registered, s.delegated, true,
        s.cancelCalls⟩ := by
  have hnorm : normalIndex s.form = 0 := by
    unfold normalIndex
    rw [hn]
    split_ifs with hc
    · rfl
    · simp only [List.length_nil] at hc
      omega
  rw [focusWith_eq, hn, hnorm]
  rfl

theorem focusWith_handBack (reenter : FocusResult → Option FocusResult) (hb : Nat → Bool)
    (s : FocusResult) (c : Nat) (hc : (c : Int) = normalIndex s.form)
    (hlt : c < s.form.items.length) (hhb : hb c = true) :
    focusWith reenter hb s =
      match reenter ⟨{ s.form with focusedElement := normalIndex s.form },
          s.registered ++ List.range' 0 (c + 1), s.delegated ++ [c], s.boxFocused,
          s.cancelCalls⟩ with
      | none => none
      | some t =>
        match focusLoopRun reenter hb (c + 1) (s.form.items.drop (c + 1)) true t with
        | none => none
        | some (u, itemFocused) =>
          some (if itemFocused then u else { u with boxFocused := true }) := by
  rw [focusWith_eq, focusLoopRun_handBack reenter hb s.form.items 0 false _ c hc (Nat.zero_le c)
    (by omega) hhb]
  simp only [Nat.sub_zero]
  cases reenter ⟨{ s.form with focusedElement := normalIndex s.form },
      s.registered ++ List.range' 0 (c + 1), s.delegated ++ [c], s.boxFocused,
      s.cancelCalls⟩ with
  | none => rfl
  | some t => rfl

/-! ## The handler with `delegate` running: one call -/

theorem normalIndex_of_range (g : RootContainer) (c : Int) (h0 : 0 ≤ c)
    (h1 : c < g.items.length) : normalIndex { g with focusedElement := c } = c := by
  unfold normalIndex
  simp only []
  rw [if_neg (by omega)]

theorem focusWith_normalise (reenter : FocusResult → Option FocusResult) (hb : Nat → Bool)
    (s : FocusResult) :
    focusWith reenter hb s =
      focusWith reenter hb ⟨{ s.form with focusedElement := normalIndex s.form }, s.registered,
        s.delegated, s.boxFocused, s.cancelCalls⟩ := by
  have hidem : normalIndex { s.form with focusedElement := normalIndex s.form } =
      normalIndex s.form := by
    unfold normalIndex
    simp only []
    split_ifs <;> rfl
  rw [focusWith_eq reenter hb s, focusWith_eq reenter hb ⟨_, _, _, _, _⟩]
  simp only [hidem]

theorem handlerRun_negative (hb : Nat → Bool) (fuel : Nat) (s : FocusResult) (key : Int)
    (hkey : key < 0) :
    handlerRun hb (fuel + 1) s key =
      (if s.form.lastFinishedKey ≥ 0 then handlerRun hb fuel s s.form.lastFinishedKey
        else some s) := by
  have h1 : ¬ (key = KeyTab ∨ key = KeyEnter) := by
    unfold KeyTab KeyEnter
    omega
  have h2 : ¬ key = KeyBacktab := by
    unfold KeyBacktab
    omega
  have h3 : ¬ key = KeyEscape := by
    unfold KeyEscape
    omega
  rw [handlerRun]
  simp only [if_neg (show ¬ key ≥ 0 from by omega), if_neg h1, if_neg h2, if_neg h3]
  split_ifs with h4 h5 h6
  · rfl
  · exact absurd h4.2 h5
  · exact absurd ⟨hkey, h6⟩ h4
  · rfl

theorem handlerRun_forward (hb : Nat → Bool) (fuel : Nat) (s : FocusResult) (key : Int)
    (hkey : key = KeyTab ∨ key = KeyEnter) :
    handlerRun hb (fuel + 1) s key =
      focusWith (fun t => handlerRun hb fuel t (-1)) hb
        ⟨{ s.form with lastFinishedKey := key, focusedElement := s.form.focusedElement + 1 },
          s.registered, s.delegated, s.boxFocused, s.cancelCalls⟩ := by
  have h0 : key ≥ 0 := by
    rcases hkey with h | h <;> rw [h] <;> decide
  rw [handlerRun]
  simp only [if_pos h0, if_pos hkey]

theorem handlerRun_backtab (hb : Nat → Bool) (fuel : Nat) (s : FocusResult) :
    handlerRun hb (fuel + 1) s KeyBacktab =
      focusWith (fun t => handlerRun hb fuel t (-1)) hb
        ⟨{ s.form with
            lastFinishedKey := KeyBacktab
            focusedElement :=
              if s.form.focusedElement - 1 < 0 then (s.form.items.length : Int) - 1
              else s.form.focusedElement - 1 },
          s.registered, s.delegated, s.boxFocused, s.cancelCalls⟩ := by
  have h0 : KeyBacktab ≥ 0 := by decide
  have h1 : ¬ (KeyBacktab = KeyTab ∨ KeyBacktab = KeyEnter) := by decide
  rw [handlerRun]
  simp only [if_pos h0, if_neg h1, if_true]
  split_ifs <;> rfl

theorem handlerRun_escape (hb : Nat → Bool) (fuel : Nat) (s : FocusResult) :
    handlerRun hb (fuel + 1) s KeyEscape =
      (if s.form.cancel then
        some ⟨{ s.form with lastFinishedKey := KeyEscape }, s.registered, s.delegated,
          s.boxFocused, s.cancelCalls + 1⟩
      else
        focusWith (fun t => handlerRun hb fuel t (-1)) hb
          ⟨{ s.form with lastFinishedKey := KeyEscape, focusedElement := 0 }, s.registered,
            s.delegated, s.boxFocused, s.cancelCalls⟩) := by
  have h0 : KeyEscape ≥ 0 := by decide
  have h1 : ¬ (KeyEscape = KeyTab ∨ KeyEscape = KeyEnter) := by decide
  have h2 : ¬ KeyEscape = KeyBacktab := by decide
  rw [handlerRun]
  simp only [if_pos h0, if_neg h1, if_neg h2, if_true]

theorem handlerRun_other (hb : Nat → Bool) (fuel : Nat) (s : FocusResult) (key : Int)
    (hkey : 0 ≤ key) (h1 : key ≠ KeyTab) (h2 : key ≠ KeyEnter) (h3 : key ≠ KeyBacktab)
    (h4 : key ≠ KeyEscape) :
    handlerRun hb (fuel + 1) s key =
      some ⟨{ s.form with lastFinishedKey := key }, s.registered, s.delegated, s.boxFocused,
        s.cancelCalls⟩ := by
  rw [handlerRun]
  simp only [if_pos (show key ≥ 0 from hkey), if_neg h3, if_neg h4]
  rw [if_neg (by rintro (h | h) <;> contradiction), if_neg (by omega)]

/-! ## The handler with `delegate` running: items that hand the focus back are skipped -/

theorem focusLoopRun_accept_rest (hb : Nat → Bool) (items : List FormItem) (index : Nat)
    (s : FocusResult) (h : ∀ k : Nat, (k : Int) = s.form.focusedElement → hb k = false) :
    ∃ u, (∀ reenter, focusLoopRun reenter hb index items true s = some (u, true)) ∧
      u.form = s.form ∧ (∃ more, u.delegated = s.delegated ++ more) ∧
      u.cancelCalls = s.cancelCalls ∧ u.boxFocused = s.boxFocused := by
  refine ⟨⟨s.form, s.registered ++ List.range' index items.length,
      s.delegated ++
        (if (index : Int) ≤ s.form.focusedElement ∧
            s.form.focusedElement < index + items.length then
          [s.form.focusedElement.toNat]
        else []),
      s.boxFocused, s.cancelCalls⟩, fun reenter => ?_, rfl, ⟨_, rfl⟩, rfl, rfl⟩
  rw [focusLoopRun_accept reenter hb items index true s h]
  rfl

theorem iterate_range (n : Nat) (next : Int → Int) (hnext : ∀ c, 0 ≤ next c ∧ next c < n)
    (m : Nat) (c : Int) : 0 ≤ next^[m + 1] c ∧ next^[m + 1] c < n := by
  rw [Function.iterate_succ_apply']
  exact hnext _

theorem skip_run (hb : Nat → Bool) (n : Nat) (K : Int) (hK : 0 ≤ K) (next : Int → Int)
    (hnext : ∀ c, 0 ≤ next c ∧ next c < n)
    (hstep : ∀ (fuel : Nat) (s : FocusResult), s.form.items.length = n →
      handlerRun hb (fuel + 1) s K =
        focusWith (fun t => handlerRun hb fuel t (-1)) hb
          ⟨{ s.form with lastFinishedKey := K, focusedElement := next s.form.focusedElement },
            s.registered, s.delegated, s.boxFocused, s.cancelCalls⟩) :
    ∀ (d : Nat) (s : FocusResult), s.form.items.length = n →
      (∀ t, t < d → hb (next^[t + 1] s.form.focusedElement).toNat = true) →
      hb (next^[d + 1] s.form.focusedElement).toNat = false →
      ∃ r, (∀ fuel, handlerRun hb (fuel + (2 * d + 1)) s K = some r) ∧
        r.form = { s.form with
          lastFinishedKey := K, focusedElement := next^[d + 1] s.form.focusedElement } ∧
        (∃ more, r.delegated = s.delegated ++ (next s.form.focusedElement).toNat :: more) ∧
        r.cancelCalls = s.cancelCalls ∧ r.boxFocused = s.boxFocused := by
  intro d
  induction d with
  | zero =>
    intro s hlen _ hacc
    simp only [Function.iterate_succ, Function.iterate_zero, Function.comp_apply, id_eq] at hacc
    obtain ⟨h0, h1⟩ := hnext s.form.focusedElement
    have hnorm : normalIndex { s.form with
        lastFinishedKey := K, focusedElement := next s.form.focusedElement } =
        next s.form.focusedElement :=
      normalIndex_of_range { s.form with lastFinishedKey := K } _ h0 (by
        show next s.form.focusedElement < (s.form.items.length : Int)
        rw [hlen]
        exact h1)
    refine ⟨⟨{ s.form with
          lastFinishedKey := K, focusedElement := next s.form.focusedElement },
        s.registered ++ List.range' 0 s.form.items.length,
        s.delegated ++ [(next s.form.focusedElement).toNat], s.boxFocused, s.cancelCalls⟩,
      fun fuel => ?_, rfl, ⟨[], rfl⟩, rfl, rfl⟩
    rw [show fuel + (2 * 0 + 1) = fuel + 1 from rfl, hstep fuel s hlen,
      focusWith_accept _ hb _ (by show 0 < s.form.items.length; omega) (by
        intro k hk
        rw [hnorm] at hk
        have : (next s.form.focusedElement).toNat = k := by omega
        rw [← this]
        exact hacc)]
    simp only [hnorm]
  | succ d ih =>
    intro s hlen hskip hacc
    obtain ⟨h0, h1⟩ := hnext s.form.focusedElement
    have hnorm : normalIndex { s.form with
        lastFinishedKey := K, focusedElement := next s.form.focusedElement } =
        next s.form.focusedElement :=
      normalIndex_of_range { s.form with lastFinishedKey := K } _ h0 (by
        show next s.form.focusedElement < (s.form.items.length : Int)
        rw [hlen]
        exact h1)
    have hfirst : hb (next s.form.focusedElement).toNat = true := by
      have := hskip 0 (Nat.succ_pos d)
      simpa using this
    have hfinal : next^[d + 1] (next s.form.focusedElement) =
        next^[d + 1 + 1] s.form.focusedElement := by
      rw [Function.iterate_succ_apply next (d + 1)]
    have hrange := iterate_range n next hnext (d + 1) s.form.focusedElement
    obtain ⟨r, hr, hform, ⟨more, hmore⟩, hcancel, hbox⟩ := ih
      ⟨{ s.form with lastFinishedKey := K, focusedElement := next s.form.focusedElement },
        s.registered ++ List.range' 0 ((next s.form.focusedElement).toNat + 1),
        s.delegated ++ [(next s.form.focusedElement).toNat], s.boxFocused, s.cancelCalls⟩
      hlen
      (by
        intro t ht
        have := hskip (t + 1) (by omega)
        rw [Function.iterate_succ_apply] at this
        exact this)
      (by
        rw [Function.iterate_succ_apply] at hacc
        exact hacc)
    simp only [] at hr hform hmore hcancel hbox
    rw [hfinal] at hform
    obtain ⟨u, hu, huform, ⟨more2, hmore2⟩, hucancel, hubox⟩ :=
      focusLoopRun_accept_rest hb (s.form.items.drop ((next s.form.focusedElement).toNat + 1))
        ((next s.form.focusedElement).toNat + 1) r (by
          intro k hk
          rw [hform] at hk
          simp only [] at hk
          have : (next^[d + 1 + 1] s.form.focusedElement).toNat = k := by omega
          rw [← this]
          exact hacc)
    refine ⟨u, fun fuel => ?_, by rw [huform, hform],
      ⟨(next (next s.form.focusedElement)).toNat :: (more ++ more2), ?_⟩, by rw [hucancel, hcancel],
      by rw [hubox, hbox]⟩
    · rw [show fuel + (2 * (d + 1) + 1) = (fuel + (2 * d + 1) + 1) + 1 from by omega,
        hstep _ s hlen,
        focusWith_handBack _ hb _ (next s.form.focusedElement).toNat
          (by rw [hnorm]; omega)
          (by show (next s.form.focusedElement).toNat < s.form.items.length; omega) hfirst]
      simp only [hnorm]
      rw [handlerRun_negative hb _ _ (-1) (by decide)]
      simp only []
      rw [if_pos hK, hr fuel]
      simp only []
      rw [hu]
      rfl
    · rw [hmore2, hmore]
      simp

/-! ## Forward and backward indices -/

theorem forwardIndex_range (n : Nat) (hn : 0 < n) (c : Int) :
    0 ≤ forwardIndex n c ∧ forwardIndex n c < n := by
  unfold forwardIndex
  split_ifs <;> omega

theorem backwardIndex_range (n : Nat) (hn : 0 < n) (c : Int) :
    0 ≤ backwardIndex n c ∧ backwardIndex n c < n := by
  unfold backwardIndex
  split_ifs <;> omega

theorem backwardIndex_of_le (n : Nat) (hn : 0 < n) (c : Int) (hle : c ≤ n) :
    backwardIndex n c = (if c - 1 < 0 then (n : Int) - 1 else c - 1) := by
  unfold backwardIndex
  split_ifs <;> omega

theorem backward_forward_index (n : Nat) (c : Int) (h0 : 0 ≤ c) (h1 : c < n) :
    backwardIndex n (forwardIndex n c) = c ∧ forwardIndex n (backwardIndex n c) = c := by
  unfold backwardIndex forwardIndex
  constructor <;> split_ifs <;> omega

theorem forwardIndex_iterate_range (n : Nat) (hn : 0 < n) (m : Nat) (c : Int) (h0 : 0 ≤ c)
    (h1 : c < n) : 0 ≤ (forwardIndex n)^[m] c ∧ (forwardIndex n)^[m] c < n := by
  cases m with
  | zero => exact ⟨h0, h1⟩
  | succ m => exact iterate_range n (forwardIndex n) (forwardIndex_range n hn) m c

theorem backwardIndex_iterate_range (n : Nat) (hn : 0 < n) (m : Nat) (c : Int) (h0 : 0 ≤ c)
    (h1 : c < n) : 0 ≤ (backwardIndex n)^[m] c ∧ (backwardIndex n)^[m] c < n := by
  cases m with
  | zero => exact ⟨h0, h1⟩
  | succ m => exact iterate_range n (backwardIndex n) (backwardIndex_range n hn) m c

theorem backward_forward_iterate (n : Nat) (hn : 0 < n) (m : Nat) :
    ∀ c : Int, 0 ≤ c → c < n →
      (backwardIndex n)^[m] ((forwardIndex n)^[m] c) = c ∧
        (forwardIndex n)^[m] ((backwardIndex n)^[m] c) = c := by
  induction m with
  | zero =>
    intro c _ _
    exact ⟨rfl, rfl⟩
  | succ m ih =>
    intro c h0 h1
    have hf := forwardIndex_iterate_range n hn m c h0 h1
    have hb := backwardIndex_iterate_range n hn m c h0 h1
    constructor
    · rw [Function.iterate_succ_apply' (forwardIndex n), Function.iterate_succ_apply,
        (backward_forward_index n _ hf.1 hf.2).1]
      exact (ih c h0 h1).1
    · rw [Function.iterate_succ_apply' (backwardIndex n), Function.iterate_succ_apply,
        (backward_forward_index n _ hb.1 hb.2).2]
      exact (ih c h0 h1).2

theorem forwardIndex_iterate (n : Nat) (hn : 0 < n) (c : Int) (h0 : 0 ≤ c) (h1 : c < n)
    (m : Nat) : (forwardIndex n)^[m] c = (c + m) % n := by
  have hnpos : (0 : Int) < n := by omega
  induction m with
  | zero =>
    simp only [Function.iterate_zero, id_eq, Nat.cast_zero, add_zero]
    rw [Int.emod_eq_of_lt h0 h1]
  | succ m ih =>
    rw [Function.iterate_succ_apply', ih]
    have hc0 := Int.emod_nonneg (c + m) (ne_of_gt hnpos)
    have hc1 := Int.emod_lt_of_pos (c + m) hnpos
    have hstep : (c + ((m + 1 : Nat) : Int)) % (n : Int) = ((c + m) % (n : Int) + 1) % (n : Int) := by
      rw [Int.emod_add_emod]
      push_cast
      rw [add_assoc]
    rw [hstep]
    unfold forwardIndex
    by_cases hwrap : (c + m) % (n : Int) + 1 ≥ n
    · have heq : (c + m) % (n : Int) + 1 = n := by omega
      rw [if_pos (Or.inr hwrap), heq, Int.emod_self]
    · have hmod : ((c + m) % (n : Int) + 1) % (n : Int) = (c + m) % (n : Int) + 1 :=
        Int.emod_eq_of_lt (by omega) (by omega)
      rw [if_neg (by omega), hmod]

theorem forwardIndex_cycle (n : Nat) (hn : 0 < n) (c : Int) (h0 : 0 ≤ c) (h1 : c < n) :
    (forwardIndex n)^[n] c = c ∧ (backwardIndex n)^[n] c = c := by
  have hf : (forwardIndex n)^[n] c = c := by
    rw [forwardIndex_iterate n hn c h0 h1 n, Int.add_emod_self, Int.emod_eq_of_lt h0 h1]
  refine ⟨hf, ?_⟩
  have := (backward_forward_iterate n hn n c h0 h1).1
  rw [hf] at this
  exact this

/-! ## The forward and the backward transition with `delegate` running -/

theorem focusWith_congr (reenter : FocusResult → Option FocusResult) (hb : Nat → Bool)
    (g : RootContainer) (p q : Int) (registered delegated : List Nat) (boxFocused : Bool)
    (cancelCalls : Nat)
    (h : normalIndex { g with focusedElement := p } = normalIndex { g with focusedElement := q }) :
    focusWith reenter hb ⟨{ g with focusedElement := p }, registered, delegated, boxFocused,
        cancelCalls⟩ =
      focusWith reenter hb ⟨{ g with focusedElement := q }, registered, delegated, boxFocused,
        cancelCalls⟩ := by
  rw [focusWith_normalise reenter hb ⟨{ g with focusedElement := p }, _, _, _, _⟩,
    focusWith_normalise reenter hb ⟨{ g with focusedElement := q }, _, _, _, _⟩]
  simp only [h]

theorem handlerRun_forward_step (hb : Nat → Bool) (n : Nat) (key : Int)
    (hkey : key = KeyTab ∨ key = KeyEnter) (fuel : Nat) (s : FocusResult)
    (hlen : s.form.items.length = n) :
    handlerRun hb (fuel + 1) s key =
      focusWith (fun t => handlerRun hb fuel t (-1)) hb
        ⟨{ s.form with
            lastFinishedKey := key, focusedElement := forwardIndex n s.form.focusedElement },
          s.registered, s.delegated, s.boxFocused, s.cancelCalls⟩ := by
  rw [handlerRun_forward hb fuel s key hkey]
  apply focusWith_congr _ hb { s.form with lastFinishedKey := key }
  unfold normalIndex forwardIndex
  simp only [hlen]
  split_ifs <;> omega

theorem handlerRun_backward_step (hb : Nat → Bool) (n : Nat) (fuel : Nat) (s : FocusResult)
    (hlen : s.form.items.length = n) :
    handlerRun hb (fuel + 1) s KeyBacktab =
      focusWith (fun t => handlerRun hb fuel t (-1)) hb
        ⟨{ s.form with
            lastFinishedKey := KeyBacktab
            focusedElement := backwardIndex n s.form.focusedElement },
          s.registered, s.delegated, s.boxFocused, s.cancelCalls⟩ := by
  rw [handlerRun_backtab hb fuel s]
  apply focusWith_congr _ hb { s.form with lastFinishedKey := KeyBacktab }
  unfold normalIndex backwardIndex
  simp only [hlen]
  split_ifs <;> omega

theorem forward_skip (hb : Nat → Bool) (key : Int) (hkey : key = KeyTab ∨ key = KeyEnter)
    (d : Nat) (s : FocusResult) (hn : 0 < s.form.items.length)
    (hskip : ∀ t, t < d →
      hb ((forwardIndex s.form.items.length)^[t + 1] s.form.focusedElement).toNat = true)
    (hacc : hb ((forwardIndex s.form.items.length)^[d + 1] s.form.focusedElement).toNat = false) :
    ∃ r, (∀ fuel, handlerRun hb (fuel + (2 * d + 1)) s key = some r) ∧
      r.form = { s.form with
        lastFinishedKey := key
        focusedElement := (forwardIndex s.form.items.length)^[d + 1] s.form.focusedElement } ∧
      (∃ more, r.delegated =
        s.delegated ++ (forwardIndex s.form.items.length s.form.focusedElement).toNat :: more) ∧
      r.cancelCalls = s.cancelCalls ∧ r.boxFocused = s.boxFocused :=
  skip_run hb s.form.items.length key (by rcases hkey with h | h <;> rw [h] <;> decide)
    (forwardIndex s.form.items.length) (forwardIndex_range _ hn)
    (fun fuel t ht => handlerRun_forward_step hb _ key hkey fuel t ht) d s rfl hskip hacc

theorem backward_skip (hb : Nat → Bool) (d : Nat) (s : FocusResult)
    (hn : 0 < s.form.items.length)
    (hskip : ∀ t, t < d →
      hb ((backwardIndex s.form.items.length)^[t + 1] s.form.focusedElement).toNat = true)
    (hacc : hb ((backwardIndex s.form.items.length)^[d + 1] s.form.focusedElement).toNat = false) :
    ∃ r, (∀ fuel, handlerRun hb (fuel + (2 * d + 1)) s KeyBacktab = some r) ∧
      r.form = { s.form with
        lastFinishedKey := KeyBacktab
        focusedElement := (backwardIndex s.form.items.length)^[d + 1] s.form.focusedElement } ∧
      (∃ more, r.delegated =
        s.delegated ++ (backwardIndex s.form.items.length s.form.focusedElement).toNat :: more) ∧
      r.cancelCalls = s.cancelCalls ∧ r.boxFocused = s.boxFocused :=
  skip_run hb s.form.items.length KeyBacktab (by decide)
    (backwardIndex s.form.items.length) (backwardIndex_range _ hn)
    (fun fuel t ht => handlerRun_backward_step hb _ fuel t ht) d s rfl hskip hacc


/-! ## Items that keep the focus: `focusRun` is `Focus`, `handlerRun` is `handler` -/

theorem focusWith_eq_Focus (reenter : FocusResult → Option FocusResult) (hb : Nat → Bool)
    (f : RootContainer)
    (h : ∀ k : Nat, k < f.items.length → (k : Int) = normalIndex f → hb k = false) :
    focusWith reenter hb (noFocusChange f) = some (Focus f) := by
  obtain ⟨hform, hreg, hcancel, hcases⟩ := Focus_delegation f
  have hsplit : Focus f = ⟨(Focus f).form, (Focus f).registered, (Focus f).delegated,
      (Focus f).boxFocused, (Focus f).cancelCalls⟩ := rfl
  have hnorm : (Focus f).form = { f with focusedElement := normalIndex f } := hform
  rcases hcases with ⟨hnil, -, hdel, hbox⟩ | ⟨i, hi, hfe, hdel, hbox⟩
  · have h0 : normalIndex f = 0 := by
      unfold normalIndex
      rw [hnil]
      split_ifs with hc
      · rfl
      · simp only [List.length_nil] at hc
        omega
    have hlen : f.items.length = 0 := by rw [hnil]; rfl
    rw [focusWith_empty reenter hb (noFocusChange f) hnil, hsplit, hnorm, hreg, hdel, hbox,
      hcancel, h0, hlen]
    rfl
  · have hn : 0 < (noFocusChange f).form.items.length := by
      show 0 < f.items.length
      omega
    have hidx : normalIndex f = i := by
      rw [← hfe, hnorm]
    rw [focusWith_accept reenter hb (noFocusChange f) hn
      (fun k hk => h k (by have := hidx ▸ hk; change (k : Int) = (i : Int) at this; omega)
        hk), hsplit, hnorm, hreg, hdel, hbox, hcancel, List.range_eq_range']
    show some (⟨{ f with focusedElement := normalIndex f }, [] ++ List.range' 0 f.items.length,
      [] ++ [(normalIndex f).toNat], false, 0⟩ : FocusResult) = _
    rw [hidx]
    simp

theorem focusRun_eq_Focus (hb : Nat → Bool) (fuel : Nat) (f : RootContainer)
    (h : ∀ k : Nat, k < f.items.length → (k : Int) = normalIndex f → hb k = false) :
    focusRun hb fuel f = some (Focus f) :=
  focusWith_eq_Focus _ hb f h

theorem handlerRun_eq_handler (hb : Nat → Bool) (hall : ∀ k, hb k = false) :
    ∀ (fuel : Nat) (f : RootContainer) (key : Int),
      handlerRun hb fuel (noFocusChange f) key = handler fuel f key := by
  intro fuel
  induction fuel with
  | zero =>
    intro f key
    rfl
  | succ fuel ih =>
    intro f key
    have hF : ∀ g : RootContainer,
        focusWith (fun t => handlerRun hb fuel t (-1)) hb (noFocusChange g) = some (Focus g) :=
      fun g => focusWith_eq_Focus _ hb g (fun k _ _ => hall k)
    by_cases hfw : key = KeyTab ∨ key = KeyEnter
    · rw [handlerRun_forward hb fuel _ key hfw]
      have h0 : key ≥ 0 := by
        rcases hfw with h | h <;> rw [h] <;> decide
      simp only [handler, if_pos h0, if_pos hfw]
      exact hF _
    · by_cases hbt : key = KeyBacktab
      · rw [hbt, handlerRun_backtab hb fuel _, handler_backward fuel f]
        exact hF _
      · by_cases hesc : key = KeyEscape
        · rw [hesc, handlerRun_escape hb fuel _, handler_escape fuel f]
          by_cases hc : f.cancel = true
          · rw [if_pos (show (noFocusChange f).form.cancel = true from hc), if_pos hc]
            rfl
          · rw [if_neg (show ¬ (noFocusChange f).form.cancel = true from hc), if_neg hc]
            exact hF _
        · by_cases hneg : key < 0
          · rw [handlerRun_negative hb fuel _ key hneg]
            rw [handler]
            simp only [if_neg (show ¬ key ≥ 0 from by omega), if_neg hfw, if_neg hbt,
              if_neg hesc]
            by_cases hlk : f.lastFinishedKey ≥ 0
            · rw [if_pos (show (noFocusChange f).form.lastFinishedKey ≥ 0 from hlk),
                if_pos ⟨hneg, hlk⟩]
              exact ih f f.lastFinishedKey
            · rw [if_neg (show ¬ (noFocusChange f).form.lastFinishedKey ≥ 0 from hlk),
                if_neg (fun hh => hlk hh.2)]
          · rw [handlerRun_other hb fuel _ key (by omega) (fun h => hfw (Or.inl h))
              (fun h => hfw (Or.inr h)) hbt hesc]
            rw [handler]
            simp only [if_pos (show key ≥ 0 from by omega), if_neg hfw, if_neg hbt,
              if_neg hesc]
            rw [if_neg (fun hh => hneg hh.1)]
            rfl


/-! ## Calls that do not return -/

theorem diverge_run (hb : Nat → Bool) (n : Nat) (cancel : Bool) (K : Int) (hK : 0 ≤ K)
    (next : Int → Int) (hnext : ∀ c, 0 ≤ next c ∧ next c < n)
    (hall : ∀ c, hb (next c).toNat = true)
    (hstep : ∀ fuel s, s.form.items.length = n → s.form.cancel = cancel →
      handlerRun hb (fuel + 1) s K =
        focusWith (fun t => handlerRun hb fuel t (-1)) hb
          ⟨{ s.form with lastFinishedKey := K, focusedElement := next s.form.focusedElement },
            s.registered, s.delegated, s.boxFocused, s.cancelCalls⟩) :
    ∀ fuel s, s.form.items.length = n → s.form.cancel = cancel →
      handlerRun hb fuel s K = none ∧
        (s.form.lastFinishedKey = K → handlerRun hb fuel s (-1) = none) := by
  intro fuel
  induction fuel with
  | zero =>
    intro s _ _
    exact ⟨rfl, fun _ => rfl⟩
  | succ fuel ih =>
    intro s hlen hcan
    constructor
    · obtain ⟨h0, h1⟩ := hnext s.form.focusedElement
      have hnorm : normalIndex
          { s.form with lastFinishedKey := K, focusedElement := next s.form.focusedElement } =
          next s.form.focusedElement :=
        normalIndex_of_range { s.form with lastFinishedKey := K } _ h0 (by rw [← hlen] at h1; exact h1)
      rw [hstep fuel s hlen hcan,
        focusWith_handBack _ hb _ (next s.form.focusedElement).toNat
          (by rw [hnorm]; omega)
          (by show (next s.form.focusedElement).toNat < s.form.items.length; omega)
          (hall _)]
      simp only [hnorm]
      have hre := (ih
        ⟨{ s.form with lastFinishedKey := K, focusedElement := next s.form.focusedElement },
          s.registered ++ List.range' 0 ((next s.form.focusedElement).toNat + 1),
          s.delegated ++ [(next s.form.focusedElement).toNat], s.boxFocused, s.cancelCalls⟩
        hlen hcan).2 rfl
      simp only [] at hre
      rw [hre]
    · intro hlk
      rw [handlerRun_negative hb fuel s (-1) (by decide), if_pos (by rw [hlk]; exact hK), hlk]
      exact (ih s hlen hcan).1

theorem forward_diverges (hb : Nat → Bool) (key : Int) (hkey : key = KeyTab ∨ key = KeyEnter)
    (fuel : Nat) (s : FocusResult) (hn : 0 < s.form.items.length)
    (hall : ∀ k, k < s.form.items.length → hb k = true) :
    handlerRun hb fuel s key = none ∧
      (s.form.lastFinishedKey = key → handlerRun hb fuel s (-1) = none) :=
  diverge_run hb s.form.items.length s.form.cancel key
    (by rcases hkey with h | h <;> rw [h] <;> decide)
    (forwardIndex s.form.items.length) (forwardIndex_range _ hn)
    (fun c => hall _ (by have := forwardIndex_range _ hn c; omega))
    (fun fuel t ht _ => handlerRun_forward_step hb _ key hkey fuel t ht) fuel s rfl rfl

theorem backward_diverges (hb : Nat → Bool) (fuel : Nat) (s : FocusResult)
    (hn : 0 < s.form.items.length) (hall : ∀ k, k < s.form.items.length → hb k = true) :
    handlerRun hb fuel s KeyBacktab = none ∧
      (s.form.lastFinishedKey = KeyBacktab → handlerRun hb fuel s (-1) = none) :=
  diverge_run hb s.form.items.length s.form.cancel KeyBacktab (by decide)
    (backwardIndex s.form.items.length) (backwardIndex_range _ hn)
    (fun c => hall _ (by have := backwardIndex_range _ hn c; omega))
    (fun fuel t ht _ => handlerRun_backward_step hb _ fuel t ht) fuel s rfl rfl

theorem escape_diverges (hb : Nat → Bool) (fuel : Nat) (s : FocusResult)
    (hn : 0 < s.form.items.length) (hcancel : s.form.cancel = false) (h0 : hb 0 = true) :
    handlerRun hb fuel s KeyEscape = none ∧
      (s.form.lastFinishedKey = KeyEscape → handlerRun hb fuel s (-1) = none) :=
  diverge_run hb s.form.items.length false KeyEscape (by decide)
    (fun _ => 0) (fun _ => ⟨le_refl 0, by show (0 : Int) < (s.form.items.length : Int); omega⟩)
    (fun _ => h0)
    (fun fuel t _ hc => by
      rw [handlerRun_escape hb fuel t, if_neg (by rw [hc]; decide)]) fuel s rfl hcancel

/-! ## The last key with `delegate` running -/

theorem focusLoopRun_lastFinishedKey (reenter : FocusResult → Option FocusResult)
    (hb : Nat → Bool)
    (hre : ∀ t u, reenter t = some u → 0 ≤ t.form.lastFinishedKey →
      0 ≤ u.form.lastFinishedKey)
    (items : List FormItem) :
    ∀ (index : Nat) (b : Bool) (s u : FocusResult) (b2 : Bool),
      focusLoopRun reenter hb index items b s = some (u, b2) →
      0 ≤ s.form.lastFinishedKey → 0 ≤ u.form.lastFinishedKey := by
  induction items with
  | nil =>
    intro index b s u b2 h hs
    simp only [focusLoopRun, Option.some.injEq, Prod.mk.injEq] at h
    rw [← h.1]
    exact hs
  | cons a rest ih =>
    intro index b s u b2 h hs
    simp only [focusLoopRun] at h
    by_cases heq : s.form.focusedElement = index
    · rw [if_pos heq] at h
      by_cases hhb : hb index = true
      · rw [if_pos hhb] at h
        cases hr : reenter ⟨s.form, s.registered ++ [index], s.delegated ++ [index],
            s.boxFocused, s.cancelCalls⟩ with
        | none =>
          rw [hr] at h
          exact absurd h (by simp)
        | some t =>
          rw [hr] at h
          exact ih _ _ _ _ _ h (hre _ _ hr hs)
      · rw [if_neg hhb] at h
        exact ih _ _ _ _ _ h hs
    · rw [if_neg heq] at h
      exact ih _ _ _ _ _ h hs

theorem focusWith_lastFinishedKey (reenter : FocusResult → Option FocusResult)
    (hb : Nat → Bool)
    (hre : ∀ t u, reenter t = some u → 0 ≤ t.form.lastFinishedKey →
      0 ≤ u.form.lastFinishedKey)
    (s u : FocusResult) (h : focusWith reenter hb s = some u)
    (hs : 0 ≤ s.form.lastFinishedKey) : 0 ≤ u.form.lastFinishedKey := by
  rw [focusWith_eq] at h
  cases hl : focusLoopRun reenter hb 0 s.form.items false
      ⟨{ s.form with focusedElement := normalIndex s.form }, s.registered, s.delegated,
        s.boxFocused, s.cancelCalls⟩ with
  | none =>
    rw [hl] at h
    exact absurd h (by simp)
  | some p =>
    obtain ⟨t, b2⟩ := p
    rw [hl] at h
    simp only [Option.some.injEq] at h
    have ht := focusLoopRun_lastFinishedKey reenter hb hre _ _ _ _ _ _ hl hs
    rw [← h]
    split_ifs
    · exact ht
    · exact ht

theorem handlerRun_lastFinishedKey (hb : Nat → Bool) :
    ∀ (fuel : Nat) (s u : FocusResult) (key : Int), handlerRun hb fuel s key = some u →
      (0 ≤ key ∨ 0 ≤ s.form.lastFinishedKey) → 0 ≤ u.form.lastFinishedKey := by
  intro fuel
  induction fuel with
  | zero =>
    intro s u key h _
    exact absurd h (by simp [handlerRun])
  | succ fuel ih =>
    intro s u key h hs
    have hre : ∀ t v, (fun t => handlerRun hb fuel t (-1)) t = some v →
        0 ≤ t.form.lastFinishedKey → 0 ≤ v.form.lastFinishedKey :=
      fun t v hv ht => ih t v (-1) hv (Or.inr ht)
    by_cases hfw : key = KeyTab ∨ key = KeyEnter
    · have h0 : 0 ≤ key := by
        rcases hfw with h | h <;> rw [h] <;> decide
      rw [handlerRun_forward hb fuel s key hfw] at h
      exact focusWith_lastFinishedKey _ hb hre _ u h h0
    · by_cases hbt : key = KeyBacktab
      · rw [hbt, handlerRun_backtab hb fuel s] at h
        exact focusWith_lastFinishedKey _ hb hre _ u h (show 0 ≤ KeyBacktab by decide)
      · by_cases hesc : key = KeyEscape
        · rw [hesc, handlerRun_escape hb fuel s] at h
          by_cases hc : s.form.cancel = true
          · rw [if_pos hc] at h
            simp only [Option.some.injEq] at h
            rw [← h]
            show 0 ≤ KeyEscape
            decide
          · rw [if_neg hc] at h
            exact focusWith_lastFinishedKey _ hb hre _ u h (show 0 ≤ KeyEscape by decide)
        · by_cases hneg : key < 0
          · rw [handlerRun_negative hb fuel s key hneg] at h
            have hlk : 0 ≤ s.form.lastFinishedKey := by
              rcases hs with h1 | h1
              · omega
              · exact h1
            rw [if_pos hlk] at h
            exact ih s u _ h (Or.inl hlk)
          · rw [handlerRun_other hb fuel s key (by omega) (fun h => hfw (Or.inl h))
              (fun h => hfw (Or.inr h)) hbt hesc] at h
            simp only [Option.some.injEq] at h
            rw [← h]
            show 0 ≤ key
            omega

theorem applyEvent_lastFinishedKey (fuel : Nat) (f g : RootContainer) (e : Event)
    (h : applyEvent fuel f e = some g) (hf : 0 ≤ f.lastFinishedKey) :
    0 ≤ g.lastFinishedKey := by
  cases e with
  | op o =>
    rw [applyOp_lastFinishedKey f g o h]
    exact hf
  | focus handsBack =>
    simp only [applyEvent, Option.map_eq_some'] at h
    obtain ⟨r, hr, hg⟩ := h
    rw [← hg]
    exact focusWith_lastFinishedKey _ handsBack
      (fun t v hv ht => handlerRun_lastFinishedKey handsBack fuel t v (-1) hv (Or.inr ht))
      (noFocusChange f) r hr hf
  | finish handsBack key =>
    simp only [applyEvent, Option.map_eq_some'] at h
    obtain ⟨r, hr, hg⟩ := h
    rw [← hg]
    exact handlerRun_lastFinishedKey handsBack fuel (noFocusChange f) r key hr (Or.inr hf)

theorem runEvents_lastFinishedKey (fuel : Nat) (events : List Event) :
    ∀ f g : RootContainer, runEvents fuel f events = some g → 0 ≤ f.lastFinishedKey →
      0 ≤ g.lastFinishedKey := by
  induction events with
  | nil =>
    intro f g h hf
    simp only [runEvents, Option.some.injEq] at h
    rw [← h]
    exact hf
  | cons e rest ih =>
    intro f g h hf
    simp only [runEvents] at h
    cases he : applyEvent fuel f e with
    | none =>
      rw [he] at h
      exact absurd h (by simp)
    | some f2 =>
      rw [he] at h
      exact ih f2 g h (applyEvent_lastFinishedKey fuel f f2 e he hf)


/-! ## `Focus` when the item at the focused index hands the focus back -/

theorem focusWith_skip (hb : Nat → Bool) (n : Nat) (K : Int) (hK : 0 ≤ K) (next : Int → Int)
    (hnext : ∀ c, 0 ≤ next c ∧ next c < n)
    (hstep : ∀ fuel s, s.form.items.length = n →
      handlerRun hb (fuel + 1) s K =
        focusWith (fun t => handlerRun hb fuel t (-1)) hb
          ⟨{ s.form with lastFinishedKey := K, focusedElement := next s.form.focusedElement },
            s.registered, s.delegated, s.boxFocused, s.cancelCalls⟩)
    (d : Nat) (s : FocusResult) (hlen : s.form.items.length = n)
    (hlk : s.form.lastFinishedKey = K) (c : Nat) (hc : (c : Int) = normalIndex s.form)
    (hcn : c < n) (hfirst : hb c = true)
    (hskip : ∀ t, t < d → hb (next^[t + 1] c).toNat = true)
    (hacc : hb (next^[d + 1] c).toNat = false) :
    ∃ r, (∀ fuel, focusWith (fun t => handlerRun hb (fuel + (2 * d + 2)) t (-1)) hb s = some r) ∧
      r.form = { s.form with focusedElement := next^[d + 1] c } ∧
      (∃ more, r.delegated = s.delegated ++ c :: (next c).toNat :: more) ∧
      r.cancelCalls = s.cancelCalls ∧ r.boxFocused = s.boxFocused := by
  subst hlk
  obtain ⟨r, hr, hform, ⟨more, hmore⟩, hcancel, hbox⟩ :=
    skip_run hb n _ hK next hnext hstep d
      ⟨{ s.form with focusedElement := normalIndex s.form },
        s.registered ++ List.range' 0 (c + 1), s.delegated ++ [c], s.boxFocused, s.cancelCalls⟩
      hlen
      (by
        intro t ht
        show hb (next^[t + 1] (normalIndex s.form)).toNat = true
        rw [← hc]
        exact hskip t ht)
      (by
        show hb (next^[d + 1] (normalIndex s.form)).toNat = false
        rw [← hc]
        exact hacc)
  simp only [] at hr hform hmore hcancel hbox
  rw [← hc] at hform hmore
  have hrange := iterate_range n next hnext d c
  obtain ⟨u, hu, huform, ⟨more2, hmore2⟩, hucancel, hubox⟩ :=
    focusLoopRun_accept_rest hb (s.form.items.drop (c + 1)) (c + 1) r (by
      intro k hk
      rw [hform] at hk
      simp only [] at hk
      have : (next^[d + 1] (c : Int)).toNat = k := by omega
      rw [← this]
      exact hacc)
  refine ⟨u, fun fuel => ?_, by rw [huform, hform], ⟨more ++ more2, ?_⟩,
    by rw [hucancel, hcancel], by rw [hubox, hbox]⟩
  · rw [focusWith_handBack _ hb s c hc (by omega) hfirst]
    simp only []
    rw [show fuel + (2 * d + 2) = (fuel + (2 * d + 1)) + 1 from by omega,
      handlerRun_negative hb _ _ (-1) (by decide)]
    simp only []
    rw [if_pos hK, hr fuel]
    simp only []
    rw [hu]
    rfl
  · rw [hmore2, hmore]
    simp

theorem focusWith_diverges (hb : Nat → Bool) (fuel : Nat) (s : FocusResult)
    (hn : 0 < s.form.items.length) (hall : ∀ k, k < s.form.items.length → hb k = true)
    (hlk : s.form.lastFinishedKey = KeyTab ∨ s.form.lastFinishedKey = KeyEnter ∨
      s.form.lastFinishedKey = KeyBacktab) :
    focusWith (fun t => handlerRun hb fuel t (-1)) hb s = none := by
  obtain ⟨h0, h1⟩ := normalIndex_range s.form hn
  rw [focusWith_handBack _ hb s (normalIndex s.form).toNat (by omega) (by omega)
    (hall _ (by omega))]
  have hre : handlerRun hb fuel
      ⟨{ s.form with focusedElement := normalIndex s.form },
        s.registered ++ List.range' 0 ((normalIndex s.form).toNat + 1),
        s.delegated ++ [(normalIndex s.form).toNat], s.boxFocused, s.cancelCalls⟩ (-1) = none := by
    rcases hlk with h | h | h
    · exact (forward_diverges hb _ (Or.inl rfl) fuel
        ⟨{ s.form with focusedElement := normalIndex s.form }, _, _, _, _⟩ hn hall).2 h
    · exact (forward_diverges hb _ (Or.inr rfl) fuel
        ⟨{ s.form with focusedElement := normalIndex s.form }, _, _, _, _⟩ hn hall).2 h
    · exact (backward_diverges hb fuel
        ⟨{ s.form with focusedElement := normalIndex s.form }, _, _, _, _⟩ hn hall).2 h
  simp only []
  rw [hre]


/-! ## `Focus` with `delegate` running: which item ends up with the focus -/

/-- C15 (amended): `Focus` sets a focused index outside `[0, n)` to 0, the index
`n` included, and leaves an index inside `[0, n)` as it is. With no items it
registers and delegates nothing and the container itself takes the focus, the
index being 0. Otherwise it delegates to the item at that index `i`. If that item
keeps the focus, `Focus` returns having registered the handler on every item and
delegated to item `i` only, the index being `i` and the container not focused.
If that item hands the focus back, the handler replays the last key inside
`Focus`: with last key Tab or Enter the index moves forward, with Backtab
backward, past every item that hands the focus back to the first one that keeps
it, and `Focus` returns with that index, item `i` and then the next item in
that direction being the first two delegated to; and when every item hands the
focus back and the last key is one of these three, `Focus` does not return. -/
theorem focusRun_delegation (hb : Nat → Bool) (f : RootContainer) :
    normalIndex f =
        (if f.focusedElement < 0 ∨ f.focusedElement ≥ f.items.length then 0
          else f.focusedElement) ∧
      (f.items = [] →
        ∀ fuel, focusRun hb fuel f = some ⟨{ f with focusedElement := 0 }, [], [], true, 0⟩) ∧
      (∀ i : Nat, i < f.items.length → (i : Int) = normalIndex f →
        (hb i = false →
          ∀ fuel, focusRun hb fuel f =
            some ⟨{ f with focusedElement := i }, List.range f.items.length, [i], false, 0⟩) ∧
        (hb i = true → f.lastFinishedKey = KeyTab ∨ f.lastFinishedKey = KeyEnter →
          ∀ d, (∀ t, t < d → hb ((forwardIndex f.items.length)^[t + 1] i).toNat = true) →
            hb ((forwardIndex f.items.length)^[d + 1] i).toNat = false →
            ∃ r, (∀ fuel, focusRun hb (fuel + (2 * d + 2)) f = some r) ∧
              r.form = { f with focusedElement := (forwardIndex f.items.length)^[d + 1] i } ∧
              (∃ more, r.delegated = i :: (forwardIndex f.items.length i).toNat :: more) ∧
              r.boxFocused = false ∧ r.cancelCalls = 0) ∧
        (hb i = true → f.lastFinishedKey = KeyBacktab →
          ∀ d, (∀ t, t < d → hb ((backwardIndex f.items.length)^[t + 1] i).toNat = true) →
            hb ((backwardIndex f.items.length)^[d + 1] i).toNat = false →
            ∃ r, (∀ fuel, focusRun hb (fuel + (2 * d + 2)) f = some r) ∧
              r.form = { f with focusedElement := (backwardIndex f.items.length)^[d + 1] i } ∧
              (∃ more, r.delegated = i :: (backwardIndex f.items.length i).toNat :: more) ∧
              r.boxFocused = false ∧ r.cancelCalls = 0)) ∧
      (0 < f.items.length → (∀ k, k < f.items.length → hb k = true) →
        f.lastFinishedKey = KeyTab ∨ f.lastFinishedKey = KeyEnter ∨
          f.lastFinishedKey = KeyBacktab →
        ∀ fuel, focusRun hb fuel f = none) := by
  refine ⟨rfl, ?_, ?_, ?_⟩
  · intro hnil fuel
    exact focusWith_empty _ hb (noFocusChange f) hnil
  · intro i hi hidx
    have hn : 0 < f.items.length := by omega
    refine ⟨?_, ?_, ?_⟩
    · intro hacc fuel
      unfold focusRun
      rw [focusWith_accept _ hb (noFocusChange f) hn (by
        intro k hk
        have hki : k = i := by
          have h2 : (k : Int) = (i : Int) := by rw [hk, hidx]; rfl
          omega
        rw [hki]
        exact hacc)]
      show some (⟨{ f with focusedElement := normalIndex f },
        [] ++ List.range' 0 f.items.length, [] ++ [(normalIndex f).toNat], false, 0⟩ :
          FocusResult) = _
      rw [← hidx, List.range_eq_range']
      simp
    · intro hback hkey d hskip hacc
      obtain ⟨r, hr, hform, ⟨more, hmore⟩, hcancel, hbox⟩ :=
        focusWith_skip hb f.items.length f.lastFinishedKey
          (by rcases hkey with h | h <;> rw [h] <;> decide)
          (forwardIndex f.items.length) (forwardIndex_range _ hn)
          (fun fuel t ht => handlerRun_forward_step hb _ _ hkey fuel t ht) d (noFocusChange f)
          rfl rfl i hidx hi hback hskip hacc
      exact ⟨r, hr, hform, ⟨more, by rw [hmore]; rfl⟩, by rw [hbox]; rfl, by rw [hcancel]; rfl⟩
    · intro hback hkey d hskip hacc
      obtain ⟨r, hr, hform, ⟨more, hmore⟩, hcancel, hbox⟩ :=
        focusWith_skip hb f.items.length f.lastFinishedKey (by rw [hkey]; decide)
          (backwardIndex f.items.length) (backwardIndex_range _ hn)
          (fun fuel t ht => by rw [hkey]; exact handlerRun_backward_step hb _ fuel t ht) d
          (noFocusChange f) rfl rfl i hidx hi hback hskip hacc
      exact ⟨r, hr, hform, ⟨more, by rw [hmore]; rfl⟩, by rw [hbox]; rfl, by rw [hcancel]; rfl⟩
  · intro hn hall hlk fuel
    exact focusWith_diverges hb fuel (noFocusChange f) hn hall hlk

theorem focusRun_delegation_witness :
    focusRun notesLastHandsBack 0 verticalForm =
        some ⟨{ verticalForm with focusedElement := ((0 : Nat) : Int) },
          List.range verticalForm.items.length, [0], false, 0⟩ ∧
      (∃ r, focusRun notesFirstHandsBack (0 + (2 * 0 + 2)) notesFirstForm = some r ∧
        r.form = { notesFirstForm with focusedElement := 1 } ∧
        ∃ more, r.delegated = 0 :: 1 :: more) ∧
      focusRun (fun _ => true) 7 notesFirstForm = none := by
  refine ⟨((focusRun_delegation notesLastHandsBack verticalForm).2.2.1 0 (by decide)
      (by decide)).1 (by decide) 0, ?_,
    (focusRun_delegation (fun _ => true) notesFirstForm).2.2.2 (by decide) (fun _ _ => rfl)
      (Or.inl rfl) 7⟩
  obtain ⟨r, hr, hform, hmore, -⟩ :=
    ((focusRun_delegation notesFirstHandsBack notesFirstForm).2.2.1 0 (by decide)
      (by decide)).2.1 (by decide) (Or.inl rfl) 0 (fun t ht => absurd ht (Nat.not_lt_zero t))
      (by decide)
  exact ⟨r, hr 0, hform, hmore⟩

/-- C15 does not hold as stated. A scrollable text view is the only item and the
focused index is 1, the number of items: `Focus` sets the index to 0 and
delegates to the text view, the container itself does not take the focus and
the index does not stay 1. And with a text view that is not scrollable followed
by an input field, focused index 0, `Focus` delegates to the text view, which
hands the focus back, then to the input field twice, and ends with index 1. -/
theorem focus_delegation_counterexample :
    textViewForm.focusedElement = 1 ∧ textViewForm.items.length = 1 ∧
      (focusRun (fun _ => false) 0 textViewForm).map
          (fun r => (r.form.focusedElement, r.delegated, r.boxFocused)) =
        some (0, [0], false) ∧
      notesFirstForm.focusedElement = 0 ∧
      (focusRun notesFirstHandsBack 2 notesFirstForm).map
          (fun r => (r.form.focusedElement, r.delegated, r.boxFocused)) =
        some (1, [0, 1, 1], false) := by
  decide


/-! ## The backward and the cancel transition with `delegate` running -/

/-- C16 (amended): for a container with `n ≥ 1` items and focused index `i` at
most `n`, a finish signal carrying Backtab records the key, sets the focused
index to `j = i - 1`, or to `n - 1` when `i - 1` is negative, and delegates to
the item at index `j` first. If that item keeps the focus the handler returns
with index `j`, the handler registered on every item and item `j` the only one
delegated to. If it hands the focus back, Backtab is replayed: the index goes
on backward in the same way past every item that hands the focus back, and the
handler returns with the index of the first item that keeps the focus. When
every item hands the focus back the handler does not return. -/
theorem backward_transition (hb : Nat → Bool) (f : RootContainer) (hn : 0 < f.items.length)
    (hle : f.focusedElement ≤ f.items.length) :
    backwardIndex f.items.length f.focusedElement =
        (if f.focusedElement - 1 < 0 then (f.items.length : Int) - 1
          else f.focusedElement - 1) ∧
      0 ≤ backwardIndex f.items.length f.focusedElement ∧
      backwardIndex f.items.length f.focusedElement < f.items.length ∧
      (hb (backwardIndex f.items.length f.focusedElement).toNat = false →
        ∀ fuel, signalRun hb (fuel + 1) f KeyBacktab =
          some ⟨{ f with
              lastFinishedKey := KeyBacktab
              focusedElement := backwardIndex f.items.length f.focusedElement },
            List.range f.items.length,
            [(backwardIndex f.items.length f.focusedElement).toNat], false, 0⟩) ∧
      (∀ d,
        (∀ t, t < d →
          hb ((backwardIndex f.items.length)^[t + 1] f.focusedElement).toNat = true) →
        hb ((backwardIndex f.items.length)^[d + 1] f.focusedElement).toNat = false →
        ∃ r, (∀ fuel, signalRun hb (fuel + (2 * d + 1)) f KeyBacktab = some r) ∧
          r.form = { f with
            lastFinishedKey := KeyBacktab
            focusedElement := (backwardIndex f.items.length)^[d + 1] f.focusedElement } ∧
          (∃ more, r.delegated =
            (backwardIndex f.items.length f.focusedElement).toNat :: more) ∧
          r.boxFocused = false ∧ r.cancelCalls = 0) ∧
      ((∀ k, k < f.items.length → hb k = true) →
        ∀ fuel, signalRun hb fuel f KeyBacktab = none) := by
  obtain ⟨hj0, hj1⟩ := backwardIndex_range f.items.length hn f.focusedElement
  refine ⟨backwardIndex_of_le _ hn _ hle, hj0, hj1, ?_, ?_, ?_⟩
  · intro hacc fuel
    unfold signalRun
    rw [handlerRun_backward_step hb f.items.length fuel (noFocusChange f) rfl]
    have hnorm : normalIndex { f with
        lastFinishedKey := KeyBacktab
        focusedElement := backwardIndex f.items.length f.focusedElement } =
        backwardIndex f.items.length f.focusedElement :=
      normalIndex_of_range { f with lastFinishedKey := KeyBacktab } _ hj0 hj1
    rw [focusWith_accept _ hb _ hn (by
      intro k hk
      have hk2 : (k : Int) = backwardIndex f.items.length f.focusedElement := by
        rw [hk]
        exact hnorm
      have : (backwardIndex f.items.length f.focusedElement).toNat = k := by omega
      rw [← this]
      exact hacc)]
    show some (⟨{ f with
        lastFinishedKey := KeyBacktab
        focusedElement := normalIndex { f with
          lastFinishedKey := KeyBacktab
          focusedElement := backwardIndex f.items.length f.focusedElement } },
      [] ++ List.range' 0 f.items.length,
      [] ++ [(normalIndex { f with
          lastFinishedKey := KeyBacktab
          focusedElement := backwardIndex f.items.length f.focusedElement }).toNat],
      false, 0⟩ : FocusResult) = _
    rw [hnorm, List.range_eq_range']
    simp
  · intro d hskip hacc
    obtain ⟨r, hr, hform, ⟨more, hmore⟩, hcancel, hbox⟩ :=
      backward_skip hb d (noFocusChange f) hn hskip hacc
    exact ⟨r, hr, hform, ⟨more, by rw [hmore]; rfl⟩, by rw [hbox]; rfl, by rw [hcancel]; rfl⟩
  · intro hall fuel
    exact (backward_diverges hb fuel (noFocusChange f) hn hall).1

theorem backward_transition_witness :
    signalRun notesLastHandsBack (0 + 1) (threeItemForm 0) KeyBacktab =
        some ⟨{ threeItemForm 0 with lastFinishedKey := KeyBacktab, focusedElement := 2 },
          [0, 1, 2], [2], false, 0⟩ ∧
      (∃ r, signalRun notesLastHandsBack (0 + (2 * 1 + 1)) verticalForm KeyBacktab = some r ∧
        r.form = { verticalForm with lastFinishedKey := KeyBacktab, focusedElement := 0 } ∧
        ∃ more, r.delegated = 1 :: more) := by
  refine ⟨(backward_transition notesLastHandsBack (threeItemForm 0) (by decide)
      (by decide)).2.2.2.1 (by decide) 0, ?_⟩
  obtain ⟨r, hr, hform, hmore, -⟩ :=
    (backward_transition notesLastHandsBack verticalForm (by decide)
      (by decide)).2.2.2.2.1 1 (by
        intro t ht
        have ht0 : t = 0 := by omega
        subst ht0
        decide) (by decide)
  exact ⟨r, hr 0, hform, hmore⟩

/-- C16 does not hold as stated. The form holds the input field "Name" and the
text view "Notes", which is not scrollable, focused index 0. A finish signal
carrying Backtab sets the index to 1 and delegates to the text view, which hands
the focus back; Backtab is replayed and the handler returns with focused index
0, not 1, having delegated to item 1 and then to item 0. -/
theorem backward_transition_counterexample :
    verticalForm.items.length = 2 ∧ verticalForm.focusedElement = 0 ∧
      (signalRun notesLastHandsBack 3 verticalForm KeyBacktab).map
          (fun r => (r.form.focusedElement, r.delegated)) = some (0, [1, 0]) ∧
      (signalRun notesLastHandsBack 9 verticalForm KeyBacktab).map
          (fun r => (r.form.focusedElement, r.delegated)) = some (0, [1, 0]) := by
  decide

/-- C17 (amended): on a finish signal carrying Escape the key is recorded. If a
cancel callback is registered it is called once and `Focus` is not called: the
focused index stays and nothing is registered or delegated. If none is
registered the focused index is set to 0 and `Focus` runs: with no items the
container itself takes the focus; with items, item 0 is delegated to, and if it
keeps the focus the handler returns with index 0, the handler registered on
every item and item 0 the only one delegated to; if item 0 hands the focus
back, Escape is replayed without end and the handler does not return. -/
theorem cancel_transition (hb : Nat → Bool) (f : RootContainer) :
    (f.cancel = true →
        ∀ fuel, signalRun hb (fuel + 1) f KeyEscape =
          some ⟨{ f with lastFinishedKey := KeyEscape }, [], [], false, 1⟩) ∧
      (f.cancel = false → f.items = [] →
        ∀ fuel, signalRun hb (fuel + 1) f KeyEscape =
          some ⟨{ f with lastFinishedKey := KeyEscape, focusedElement := 0 }, [], [], true,
            0⟩) ∧
      (f.cancel = false → 0 < f.items.length → hb 0 = false →
        ∀ fuel, signalRun hb (fuel + 1) f KeyEscape =
          some ⟨{ f with lastFinishedKey := KeyEscape, focusedElement := 0 },
            List.range f.items.length, [0], false, 0⟩) ∧
      (f.cancel = false → 0 < f.items.length → hb 0 = true →
        ∀ fuel, signalRun hb fuel f KeyEscape = none) := by
  refine ⟨?_, ?_, ?_, ?_⟩
  · intro hc fuel
    unfold signalRun
    rw [handlerRun_escape hb fuel (noFocusChange f),
      if_pos (show (noFocusChange f).form.cancel = true from hc)]
    rfl
  · intro hc hnil fuel
    have hcn : ¬ (noFocusChange f).form.cancel = true := by
      show ¬ f.cancel = true
      rw [hc]
      decide
    unfold signalRun
    rw [handlerRun_escape hb fuel (noFocusChange f),
      if_neg hcn,
      focusWith_empty _ hb _ hnil]
    rfl
  · intro hc hn hacc fuel
    have hcn : ¬ (noFocusChange f).form.cancel = true := by
      show ¬ f.cancel = true
      rw [hc]
      decide
    unfold signalRun
    have hnorm : normalIndex { f with lastFinishedKey := KeyEscape, focusedElement := 0 } = 0 :=
      normalIndex_of_range { f with lastFinishedKey := KeyEscape } 0 (le_refl 0) (by
        show (0 : Int) < (f.items.length : Int)
        omega)
    rw [handlerRun_escape hb fuel (noFocusChange f),
      if_neg hcn,
      focusWith_accept _ hb _ hn (by
        intro k hk
        have hk2 : (k : Int) = 0 := by
          rw [hk]
          exact hnorm
        have : k = 0 := by omega
        rw [this]
        exact hacc)]
    show some (⟨{ f with
        lastFinishedKey := KeyEscape
        focusedElement := normalIndex
          { f with lastFinishedKey := KeyEscape, focusedElement := 0 } },
      [] ++ List.range' 0 f.items.length,
      [] ++ [(normalIndex { f with lastFinishedKey := KeyEscape, focusedElement := 0 }).toNat],
      false, 0⟩ : FocusResult) = _
    rw [hnorm, List.range_eq_range']
    simp
  · intro hc hn hback fuel
    exact (escape_diverges hb fuel (noFocusChange f) hn hc hback).1

theorem cancel_transition_witness :
    signalRun notesLastHandsBack (0 + 1) (SetCancelFunc (threeItemForm 2) true) KeyEscape =
        some ⟨{ SetCancelFunc (threeItemForm 2) true with lastFinishedKey := KeyEscape }, [],
          [], false, 1⟩ ∧
      signalRun notesLastHandsBack (0 + 1) NewRootContainer KeyEscape =
        some ⟨{ NewRootContainer with lastFinishedKey := KeyEscape, focusedElement := 0 }, [],
          [], true, 0⟩ ∧
      signalRun notesLastHandsBack (0 + 1) (threeItemForm 2) KeyEscape =
        some ⟨{ threeItemForm 2 with lastFinishedKey := KeyEscape, focusedElement := 0 },
          List.range (threeItemForm 2).items.length, [0], false, 0⟩ ∧
      signalRun notesFirstHandsBack 5 (SetFocus notesFirstForm 1) KeyEscape = none :=
  ⟨(cancel_transition notesLastHandsBack (SetCancelFunc (threeItemForm 2) true)).1 rfl 0,
    (cancel_transition notesLastHandsBack NewRootContainer).2.1 rfl rfl 0,
    (cancel_transition notesLastHandsBack (threeItemForm 2)).2.2.1 rfl (by decide) rfl 0,
    (cancel_transition notesFirstHandsBack (SetFocus notesFirstForm 1)).2.2.2 rfl (by decide)
      rfl 5⟩

/-- C17 does not hold as stated. The form holds a text view that is not
scrollable followed by the input field "Name", no cancel callback, focused
index 1. A finish signal carrying Escape sets the index to 0 and delegates to
the text view, which hands the focus back; the handler replays Escape, sets the
index to 0 and delegates to the text view again, and so on: the handler does
not return, whatever the nesting bound, and the focus does not land on item
0. -/
theorem cancel_transition_counterexample :
    (SetFocus notesFirstForm 1).items.length = 2 ∧
      (SetFocus notesFirstForm 1).focusedElement = 1 ∧
      (SetFocus notesFirstForm 1).cancel = false ∧
      ¬ ∃ fuel r, signalRun notesFirstHandsBack fuel (SetFocus notesFirstForm 1) KeyEscape =
        some r := by
  refine ⟨by decide, by decide, rfl, ?_⟩
  rintro ⟨fuel, r, hr⟩
  have hnone := (escape_diverges notesFirstHandsBack fuel
    (noFocusChange (SetFocus notesFirstForm 1)) (by decide) rfl rfl).1
  unfold signalRun at hr
  rw [hnone] at hr
  exact absurd hr (by simp)


/-! ## Forward then backward -/

theorem forward_first_keeper (hb : Nat → Bool) (n : Nat) (hn : 0 < n) (c : Int) (h0 : 0 ≤ c)
    (h1 : c < n) (hacc : hb c.toNat = false) :
    (∃ d, (∀ t, t < d → hb ((forwardIndex n)^[t + 1] c).toNat = true) ∧
        hb ((forwardIndex n)^[d + 1] c).toNat = false) ∧
      (∃ d, (∀ t, t < d → hb ((backwardIndex n)^[t + 1] c).toNat = true) ∧
        hb ((backwardIndex n)^[d + 1] c).toNat = false) := by
  obtain ⟨hf, hbk⟩ := forwardIndex_cycle n hn c h0 h1
  have hn1 : n - 1 + 1 = n := by omega
  constructor
  · have hex : ∃ d, hb ((forwardIndex n)^[d + 1] c).toNat = false :=
      ⟨n - 1, by rw [hn1, hf]; exact hacc⟩
    refine ⟨Nat.find hex, fun t ht => ?_, Nat.find_spec hex⟩
    have := Nat.find_min hex ht
    simpa using this
  · have hex : ∃ d, hb ((backwardIndex n)^[d + 1] c).toNat = false :=
      ⟨n - 1, by rw [hn1, hbk]; exact hacc⟩
    refine ⟨Nat.find hex, fun t ht => ?_, Nat.find_spec hex⟩
    have := Nat.find_min hex ht
    simpa using this

theorem backward_of_forward (n : Nat) (hn : 0 < n) (c : Int) (h0 : 0 ≤ c) (h1 : c < n)
    (a b : Nat) :
    (backwardIndex n)^[a] ((forwardIndex n)^[a + b] c) = (forwardIndex n)^[b] c ∧
      (forwardIndex n)^[a] ((backwardIndex n)^[a + b] c) = (backwardIndex n)^[b] c := by
  have hf := forwardIndex_iterate_range n hn b c h0 h1
  have hbk := backwardIndex_iterate_range n hn b c h0 h1
  constructor
  · rw [Function.iterate_add_apply]
    exact (backward_forward_iterate n hn a _ hf.1 hf.2).1
  · rw [Function.iterate_add_apply]
    exact (backward_forward_iterate n hn a _ hbk.1 hbk.2).2

/-- C21 (amended): for a container with `n ≥ 1` items and focused index `i` in
`[0, n)` whose item `i` keeps the focus when it is given it, a forward (Tab or
Enter) finish signal followed by a backward (Backtab) finish signal returns,
and leaves the focused index equal to `i` and the item list as it was; so does
backward followed by forward. The items between that hand the focus back are
passed in both directions. -/
theorem forward_backward_inverse (hb : Nat → Bool) (f : RootContainer) (key : Int)
    (hkey : key = KeyTab ∨ key = KeyEnter) (h0 : 0 ≤ f.focusedElement)
    (hlt : f.focusedElement < f.items.length) (hacc : hb f.focusedElement.toNat = false) :
    (∃ depth r1 r2, (∀ fuel, signalRun hb (fuel + depth) f key = some r1) ∧
        (∀ fuel, signalRun hb (fuel + depth) r1.form KeyBacktab = some r2) ∧
        r2.form.focusedElement = f.focusedElement ∧ r2.form.items = f.items) ∧
      (∃ depth r1 r2, (∀ fuel, signalRun hb (fuel + depth) f KeyBacktab = some r1) ∧
        (∀ fuel, signalRun hb (fuel + depth) r1.form key = some r2) ∧
        r2.form.focusedElement = f.focusedElement ∧ r2.form.items = f.items) := by
  have hn : 0 < f.items.length := by omega
  obtain ⟨⟨d, hskip, hkeep⟩, ⟨e, hskipB, hkeepB⟩⟩ :=
    forward_first_keeper hb f.items.length hn f.focusedElement h0 hlt hacc
  constructor
  · obtain ⟨r1, hr1, hform1, -, -, -⟩ :=
      forward_skip hb key hkey d (noFocusChange f) hn hskip hkeep
    have hitems1 : r1.form.items = f.items := by rw [hform1]; rfl
    have hfe1 : r1.form.focusedElement =
        (forwardIndex f.items.length)^[d + 1] f.focusedElement := by rw [hform1]; rfl
    obtain ⟨r2, hr2, hform2, -, -, -⟩ :=
      backward_skip hb d (noFocusChange r1.form)
        (by show 0 < r1.form.items.length; rw [hitems1]; exact hn)
        (by
          intro t ht
          show hb ((backwardIndex r1.form.items.length)^[t + 1]
            r1.form.focusedElement).toNat = true
          rw [hitems1, hfe1, show d + 1 = (t + 1) + (d - t) from by omega,
            (backward_of_forward _ hn _ h0 hlt (t + 1) (d - t)).1,
            show d - t = (d - t - 1) + 1 from by omega]
          exact hskip (d - t - 1) (by omega))
        (by
          show hb ((backwardIndex r1.form.items.length)^[d + 1]
            r1.form.focusedElement).toNat = false
          rw [hitems1, hfe1, show d + 1 = (d + 1) + 0 from rfl,
            (backward_of_forward _ hn _ h0 hlt (d + 1) 0).1]
          exact hacc)
    refine ⟨2 * d + 1, r1, r2, hr1, hr2, ?_, ?_⟩
    · rw [hform2]
      show (backwardIndex r1.form.items.length)^[d + 1] r1.form.focusedElement = _
      rw [hitems1, hfe1]
      exact (backward_forward_iterate _ hn (d + 1) _ h0 hlt).1
    · rw [hform2]
      exact hitems1
  · obtain ⟨r1, hr1, hform1, -, -, -⟩ :=
      backward_skip hb e (noFocusChange f) hn hskipB hkeepB
    have hitems1 : r1.form.items = f.items := by rw [hform1]; rfl
    have hfe1 : r1.form.focusedElement =
        (backwardIndex f.items.length)^[e + 1] f.focusedElement := by rw [hform1]; rfl
    obtain ⟨r2, hr2, hform2, -, -, -⟩ :=
      forward_skip hb key hkey e (noFocusChange r1.form)
        (by show 0 < r1.form.items.length; rw [hitems1]; exact hn)
        (by
          intro t ht
          show hb ((forwardIndex r1.form.items.length)^[t + 1]
            r1.form.focusedElement).toNat = true
          rw [hitems1, hfe1, show e + 1 = (t + 1) + (e - t) from by omega,
            (backward_of_forward _ hn _ h0 hlt (t + 1) (e - t)).2,
            show e - t = (e - t - 1) + 1 from by omega]
          exact hskipB (e - t - 1) (by omega))
        (by
          show hb ((forwardIndex r1.form.items.length)^[e + 1]
            r1.form.focusedElement).toNat = false
          rw [hitems1, hfe1, show e + 1 = (e + 1) + 0 from rfl,
            (backward_of_forward _ hn _ h0 hlt (e + 1) 0).2]
          exact hacc)
    refine ⟨2 * e + 1, r1, r2, hr1, hr2, ?_, ?_⟩
    · rw [hform2]
      show (forwardIndex r1.form.items.length)^[e + 1] r1.form.focusedElement = _
      rw [hitems1, hfe1]
      exact (backward_forward_iterate _ hn (e + 1) _ h0 hlt).2
    · rw [hform2]
      exact hitems1

theorem forward_backward_inverse_witness :
    (∃ depth r1 r2, (∀ fuel, signalRun middleHandsBack (fuel + depth) (threeItemForm 0) KeyTab =
          some r1) ∧
        (∀ fuel, signalRun middleHandsBack (fuel + depth) r1.form KeyBacktab = some r2) ∧
        r2.form.focusedElement = (threeItemForm 0).focusedElement ∧
        r2.form.items = (threeItemForm 0).items) ∧
      (∃ depth r1 r2, (∀ fuel, signalRun middleHandsBack (fuel + depth) (threeItemForm 0)
          KeyBacktab = some r1) ∧
        (∀ fuel, signalRun middleHandsBack (fuel + depth) r1.form KeyTab = some r2) ∧
        r2.form.focusedElement = (threeItemForm 0).focusedElement ∧
        r2.form.items = (threeItemForm 0).items) :=
  forward_backward_inverse middleHandsBack (threeItemForm 0) KeyTab (Or.inl rfl) (by decide)
    (by decide) (by decide)

/-- C21 does not hold as stated. Three items, of which the middle one hands the
focus back, and focused index 1 as `SetFocus(1)` leaves it. A finish signal
carrying Tab moves the index to 2; a finish signal carrying Backtab then sets it
to 1 and delegates to the middle item, which hands the focus back, so that
Backtab is replayed and the index ends at 0, not at 1. -/
theorem forward_backward_counterexample :
    (threeItemForm 1).items.length = 3 ∧ (threeItemForm 1).focusedElement = 1 ∧
      (signalRun middleHandsBack 5 (threeItemForm 1) KeyTab).map (fun r => r.form) =
        some { threeItemForm 1 with lastFinishedKey := KeyTab, focusedElement := 2 } ∧
      (signalRun middleHandsBack 5 { threeItemForm 1 with
            lastFinishedKey := KeyTab, focusedElement := 2 } KeyBacktab).map
          (fun r => (r.form.focusedElement, r.delegated)) = some (0, [1, 0]) := by
  decide

/-! ## The last key in every reachable state -/

/-- C22 (amended): in every state reached from `NewRootContainer` through list
operations, calls of `Focus` and finish signals with arbitrary keys, each of
which has returned, `lastFinishedKey ≥ 0`. Hence a finish signal with a negative
key never takes the branch that does nothing: it calls the handler once more
with the last key, and does what that call does. When every item keeps the
focus it is given, the handler returns, with exactly one nested call for a
negative key and none for a key that is not negative. The replay changes
nothing when the last key is none of Tab, Enter, Backtab and Escape. Nothing is
said here about the depth of the calls, or about their return, when an item
hands the focus back. -/
theorem lastFinishedKey_valid (fuel : Nat) (events : List Event) (f : RootContainer)
    (h : runEvents fuel NewRootContainer events = some f) :
    0 ≤ f.lastFinishedKey ∧
      (∀ (hb : Nat → Bool) (key : Int) (depth : Nat), key < 0 →
        signalRun hb (depth + 1) f key = signalRun hb depth f f.lastFinishedKey) ∧
      (∀ hb : Nat → Bool, (∀ k, hb k = false) →
        (∀ key : Int, 0 ≤ key → ∃ r, ∀ depth, signalRun hb (depth + 1) f key = some r) ∧
        (∀ key : Int, key < 0 →
          signalRun hb 1 f key = none ∧ ∃ r, ∀ depth, signalRun hb (depth + 2) f key = some r)) ∧
      (∀ (hb : Nat → Bool) (key : Int), key < 0 → f.lastFinishedKey ≠ KeyTab →
        f.lastFinishedKey ≠ KeyEnter → f.lastFinishedKey ≠ KeyBacktab →
        f.lastFinishedKey ≠ KeyEscape →
        ∀ depth, signalRun hb (depth + 2) f key = some (noFocusChange f)) := by
  have hlk : 0 ≤ f.lastFinishedKey :=
    runEvents_lastFinishedKey fuel events NewRootContainer f h (by decide)
  have hreplay : ∀ (hb : Nat → Bool) (key : Int) (depth : Nat), key < 0 →
      signalRun hb (depth + 1) f key = signalRun hb depth f f.lastFinishedKey := by
    intro hb key depth hkey
    unfold signalRun
    rw [handlerRun_negative hb depth (noFocusChange f) key hkey,
      if_pos (show (noFocusChange f).form.lastFinishedKey ≥ 0 from hlk)]
    rfl
  refine ⟨hlk, hreplay, ?_, ?_⟩
  · intro hb hall
    have hbridge : ∀ depth key, signalRun hb depth f key = handler depth f key :=
      fun depth key => handlerRun_eq_handler hb hall depth f key
    constructor
    · intro key hkey
      obtain ⟨-, r, hr, -⟩ := handler_nonneg 0 f key hkey
      refine ⟨r, fun depth => ?_⟩
      rw [hbridge, (handler_nonneg depth f key hkey).1, hr]
    · intro key hkey
      constructor
      · rw [show (1 : Nat) = 0 + 1 from rfl, hreplay hb key 0 hkey]
        rfl
      · obtain ⟨-, r, hr, -⟩ := handler_nonneg 0 f f.lastFinishedKey hlk
        refine ⟨r, fun depth => ?_⟩
        rw [hbridge, handler_negative depth f key hkey, if_pos hlk, hr]
  · intro hb key hkey h1 h2 h3 h4 depth
    rw [show depth + 2 = (depth + 1) + 1 from rfl, hreplay hb key (depth + 1) hkey]
    unfold signalRun
    rw [handlerRun_other hb depth (noFocusChange f) f.lastFinishedKey hlk h1 h2 h3 h4]
    rfl

theorem lastFinishedKey_valid_witness :
    runEvents 2 NewRootContainer (nameEvents KeyBacktab) =
        some { AddFormItem NewRootContainer nameItem with lastFinishedKey := KeyBacktab } ∧
      0 ≤ ({ AddFormItem NewRootContainer nameItem with
        lastFinishedKey := KeyBacktab } : RootContainer).lastFinishedKey ∧
      signalRun (fun _ => false) 1
          { AddFormItem NewRootContainer nameItem with lastFinishedKey := KeyBacktab } (-1) =
        none ∧
      ∃ r, signalRun (fun _ => false) (0 + 2)
          { AddFormItem NewRootContainer nameItem with lastFinishedKey := KeyBacktab } (-1) =
        some r := by
  have hrun : runEvents 2 NewRootContainer (nameEvents KeyBacktab) =
      some { AddFormItem NewRootContainer nameItem with lastFinishedKey := KeyBacktab } := by
    decide
  obtain ⟨h1, -, h3, -⟩ := lastFinishedKey_valid 2 (nameEvents KeyBacktab) _ hrun
  obtain ⟨hnone, r, hr⟩ := (h3 (fun _ => false) (fun _ => rfl)).2 (-1) (by decide)
  exact ⟨hrun, h1, hnone, r, hr 0⟩

/-- C22 does not hold as stated. After a finish signal carrying `KeyUp`, a key
the handler has no case for, the last key is `KeyUp`, and a finish signal
carrying -1 replays it and changes nothing: that signal is a no-op. And in the
form of a text view that is not scrollable followed by the input field "Name",
focused index 1 and last key Tab, a finish signal carrying -1 replays Tab,
`Focus` delegates to the text view, which calls the handler again with -1 from
inside `Focus`: the handler calls are nested four deep, not two. With the text
view as the only item such a signal does not return at all. -/
theorem negative_signal_counterexample :
    runEvents 1 NewRootContainer (nameEvents KeyUp) =
        some { AddFormItem NewRootContainer nameItem with lastFinishedKey := KeyUp } ∧
      signalRun (fun _ => false) 2
          { AddFormItem NewRootContainer nameItem with lastFinishedKey := KeyUp } (-1) =
        some (noFocusChange
          { AddFormItem NewRootContainer nameItem with lastFinishedKey := KeyUp }) ∧
      runEvents 0 NewRootContainer notesFirstEvents = some (SetFocus notesFirstForm 1) ∧
      signalRun notesFirstHandsBack 3 (SetFocus notesFirstForm 1) (-1) = none ∧
      (signalRun notesFirstHandsBack 4 (SetFocus notesFirstForm 1) (-1)).map
          (fun r => (r.form.focusedElement, r.delegated)) = some (1, [0, 1, 1]) ∧
      runEvents 0 NewRootContainer [Event.op (Op.addTextView "Notes" "" 0 0 false false)] =
        some (AddTextView NewRootContainer "Notes" "" 0 0 false false) ∧
      ¬ ∃ depth r, signalRun (fun _ => true) depth
        (AddTextView NewRootContainer "Notes" "" 0 0 false false) (-1) = some r := by
  refine ⟨by decide, by decide, by decide, by decide, by decide, by decide, ?_⟩
  rintro ⟨depth, r, hr⟩
  have hnone := (forward_diverges (fun _ => true) KeyTab (Or.inl rfl) depth
    (noFocusChange (AddTextView NewRootContainer "Notes" "" 0 0 false false)) (by decide)
    (fun _ _ => rfl)).2 rfl
  unfold signalRun at hr
  rw [hnone] at hr
  exact absurd hr (by simp)

end Focus
